import Mathlib

/-!
# proxy-wasm-oci: reference normalisation and tag resolution

A shallow embedding of the pure parts of `pkg/registry` (`utils.go`, `client.go`):

* `parseReference` (the string it hands to the reference-grammar parser),
* `GetTagMatchingVersionOrConstraint`,
* the tag post-processing of `Client.Tags`.

Go strings are modelled as lists of characters (`GoString`).  The functions used here
(`==`, `strings.Split`, `strings.Contains`, `strings.ReplaceAll`, ASCII class tests) give the
same result on the UTF-8 bytes of a string and on its code points.

The repository calls three external packages whose sources are not part of it:

* Go's `strings`, `strconv` and `sort` packages (namespaces `strings`, `strconv`, `sort`),
* `github.com/Masterminds/semver/v3` (namespace `semver`), modelled after the v3.2 line of
  that library: `NewVersion`, `StrictNewVersion`, `Version.String`, `Version.Compare`,
  `NewConstraint` and `Constraints.Check`.

The regular expressions of the library are deterministic on their anchored uses, so they are
written here as hand-rolled recognisers; each recogniser quotes the expression it stands for.
-/

namespace ProxyWasmOci

/-- Go `string`, as the list of its characters. -/
abbrev GoString := List Char

/-! ## Go standard library: `strings` -/

namespace strings

/-- Go `strings.HasPrefix(s, p)`. -/
def HasPrefix (s p : GoString) : Bool := p.isPrefixOf s

/-- Go `strings.TrimPrefix(s, p)`. -/
def TrimPrefix (s p : GoString) : GoString :=
  if HasPrefix s p then s.drop p.length else s

/-- Go `strings.Contains(s, substr)`: `substr` occurs at some position of `s`. -/
def Contains : GoString → GoString → Bool
  | [], substr => substr.isPrefixOf []
  | c :: cs, substr => substr.isPrefixOf (c :: cs) || Contains cs substr

/-- Go `strings.ContainsAny(s, chars)`: some character of `chars` occurs in `s`. -/
def ContainsAny (s chars : GoString) : Bool := s.any (fun c => chars.contains c)

/-- Puts a character in front of the first piece of a split. -/
def consHead (c : Char) : List GoString → List GoString
  | [] => [[c]]
  | seg :: rest => (c :: seg) :: rest

/-- The splitting loop of Go `strings.genSplit` for a non-empty separator: `k` is the number
of cuts still allowed, `skip` the number of characters of a matched separator still to drop.
Separators are found leftmost-first and do not overlap. -/
def splitGo (sep : GoString) : Nat → Nat → GoString → List GoString
  | _, _, [] => [[]]
  | k, skip + 1, _ :: cs => splitGo sep k skip cs
  | 0, 0, c :: cs => [c :: cs]
  | k + 1, 0, c :: cs =>
    if sep.isPrefixOf (c :: cs) then [] :: splitGo sep k (sep.length - 1) cs
    else consHead c (splitGo sep (k + 1) 0 cs)

/-- Go `strings.Split(s, sep)`.  With an empty separator the string is exploded into its
characters. -/
def Split (s sep : GoString) : List GoString :=
  if sep = [] then s.map (fun c => [c]) else splitGo sep s.length 0 s

/-- Go `strings.SplitN(s, sep, n)` for `n ≥ 0`: at most `n` pieces, the last one the
unsplit remainder; `n = 0` gives no piece at all. -/
def SplitN (s sep : GoString) (n : Nat) : List GoString :=
  match n with
  | 0 => []
  | m + 1 =>
    if sep = [] then (s.take m).map (fun c => [c]) ++ (if s.drop m = [] then [] else [s.drop m])
    else splitGo sep m 0 s

/-- The replacement loop of Go `strings.Replace` for a non-empty `old`; `skip` is the number
of characters of a matched occurrence still to drop. -/
def replaceGo (old new : GoString) : Nat → GoString → GoString
  | _, [] => []
  | skip + 1, _ :: cs => replaceGo old new skip cs
  | 0, c :: cs =>
    if old.isPrefixOf (c :: cs) then new ++ replaceGo old new (old.length - 1) cs
    else c :: replaceGo old new 0 cs

/-- Go `strings.ReplaceAll(s, old, new)`: every non-overlapping occurrence of `old`, found
leftmost-first, is replaced by `new`.  With an empty `old`, `new` is inserted in front of
every character and at the end. -/
def ReplaceAll (s old new : GoString) : GoString :=
  if old = [] then new ++ (s.map (fun c => c :: new)).flatten
  else replaceGo old new 0 s

/-- The search loop of Go `strings.Replace(s, old, new, 1)` for a non-empty `old`. -/
def replaceFirstGo (old new : GoString) : GoString → GoString
  | [] => []
  | c :: cs =>
    if old.isPrefixOf (c :: cs) then new ++ (c :: cs).drop old.length
    else c :: replaceFirstGo old new cs

/-- Go `strings.Replace(s, old, new, 1)`: the first occurrence only. -/
def ReplaceFirst (s old new : GoString) : GoString :=
  if old = [] then new ++ s else replaceFirstGo old new s

/-- Go `strings.Index(s, substr)`: the position of the first occurrence, `-1` when there
is none. -/
def Index : GoString → GoString → Int
  | [], substr => if substr = [] then 0 else -1
  | c :: cs, substr =>
    if substr.isPrefixOf (c :: cs) then 0
    else if Index cs substr < 0 then -1 else Index cs substr + 1

/-- Go `strings.TrimSpace(s)`: white space cut off at both ends. -/
def TrimSpace (isSpace : Char → Bool) (s : GoString) : GoString :=
  ((s.dropWhile isSpace).reverse.dropWhile isSpace).reverse

end strings

/-! ## Go standard library: `strconv` and `fmt` on unsigned integers -/

namespace strconv

/-- ASCII decimal digit. -/
def isDigit (c : Char) : Bool := decide ('0' ≤ c) && decide (c ≤ '9')

/-- Value of an ASCII decimal digit. -/
def digitVal (c : Char) : Nat := c.toNat - 48

/-- Horner evaluation of a digit string. -/
def decimalValue (s : GoString) : Nat := s.foldl (fun acc c => acc * 10 + digitVal c) 0

/-- Go `strconv.ParseUint(s, 10, 64)`: fails on the empty string, on any character that is
not a decimal digit (no sign, no underscore) and on a value that does not fit 64 bits. -/
def ParseUint (s : GoString) : Option Nat :=
  if s = [] then none
  else if s.all isDigit then
    (if decimalValue s < 2 ^ 64 then some (decimalValue s) else none)
  else none

/-- The character of a decimal digit `d < 10`. -/
def digitChar (d : Nat) : Char := Char.ofNat (48 + d)

/-- Digits of `n`, most significant first, in front of `acc`. -/
def formatUintGo : Nat → Nat → GoString → GoString
  | 0, _, acc => acc
  | fuel + 1, n, acc =>
    if n / 10 = 0 then digitChar (n % 10) :: acc
    else formatUintGo fuel (n / 10) (digitChar (n % 10) :: acc)

/-- Go `fmt.Sprintf("%d", n)` for an unsigned integer: the shortest decimal numeral. -/
def FormatUint (n : Nat) : GoString := formatUintGo (n + 1) n []

end strconv

/-! ## `github.com/Masterminds/semver/v3`: versions -/

namespace semver

/-- The library's `Version` struct. -/
structure Version where
  major : Nat
  minor : Nat
  patch : Nat
  pre : GoString
  metadata : GoString
  original : GoString
deriving DecidableEq

/-- The library's constant `num`. -/
def num : GoString := "0123456789".toList

/-- The library's constant `allowed`. -/
def allowed : GoString :=
  "abcdefghijklmnopqrstuvwxyzABCDEFGHIJKLMNOPQRSTUVWXYZ-".toList ++ num

/-- The library's `containsOnly(s, comp)`: no character of `s` lies outside `comp`. -/
def containsOnly (s comp : GoString) : Bool := s.all (fun r => comp.contains r)

/-- One identifier of a pre-release string, as `validatePrerelease` checks it: an
all-digit identifier must not have a leading zero, any other may only use `allowed`. -/
def validPrereleasePart (p : GoString) : Bool :=
  if containsOnly p num then !(decide (1 < p.length) && p.head? == some '0')
  else containsOnly p allowed

/-- The library's `validatePrerelease(p)`; `true` stands for a nil error. -/
def validatePrerelease (p : GoString) : Bool :=
  (strings.Split p ".".toList).all validPrereleasePart

/-- The library's `validateMetadata(m)`; `true` stands for a nil error. -/
def validateMetadata (m : GoString) : Bool :=
  (strings.Split m ".".toList).all (fun p => containsOnly p allowed)

/-- The part of `StrictNewVersion` that cuts `patch[-pre][+metadata]` into
`(patch, pre, metadata)`: build metadata is cut off at the first `+`, then the pre-release at
the first `-`. -/
def splitExtra (p2 : GoString) : GoString × GoString × GoString :=
  if strings.ContainsAny p2 "-+".toList then
    let r1 : GoString × GoString :=
      match strings.SplitN p2 "+".toList 2 with
      | [a, b] => (a, b)
      | _ => (p2, [])
    let r2 : GoString × GoString :=
      match strings.SplitN r1.1 "-".toList 2 with
      | [a, b] => (a, b)
      | _ => (r1.1, [])
    (r2.1, r2.2, r1.2)
  else (p2, [], [])

/-- The check `StrictNewVersion` runs on each of the three number segments: digits only
and no leading zero. -/
def strictSegment (p : GoString) : Bool :=
  containsOnly p num && !(decide (1 < p.length) && p.head? == some '0')

/-- The library's `StrictNewVersion(v)`; `none` stands for a non-nil error. -/
def StrictNewVersion (v : GoString) : Option Version :=
  if v.length = 0 then none
  else
    match strings.SplitN v ".".toList 3 with
    | [p0, p1, p2] =>
      let e := splitExtra p2
      if strictSegment p0 && strictSegment p1 && strictSegment e.1 then
        match strconv.ParseUint p0, strconv.ParseUint p1, strconv.ParseUint e.1 with
        | some major, some minor, some patch =>
          if (e.2.1 = [] || validatePrerelease e.2.1) &&
              (e.2.2 = [] || validateMetadata e.2.2) then
            some ⟨major, minor, patch, e.2.1, e.2.2, v⟩
          else none
        | _, _, _ => none
      else none
    | _ => none

/-- The class `[0-9A-Za-z\-]` of the library's regular expressions. -/
def isIdentChar (c : Char) : Bool :=
  strconv.isDigit c || (decide ('A' ≤ c) && decide (c ≤ 'Z')) ||
    (decide ('a' ≤ c) && decide (c ≤ 'z')) || c == '-'

/-- Continues a match of `[0-9A-Za-z\-]+(\.[0-9A-Za-z\-]+)*` after its first character:
the matched text and the rest.  A dot is taken only when an identifier character follows. -/
def identTail : GoString → GoString × GoString
  | [] => ([], [])
  | c :: cs =>
    if isIdentChar c then (c :: (identTail cs).1, (identTail cs).2)
    else if c == '.' && (cs.head?.map isIdentChar == some true) then
      (c :: (identTail cs).1, (identTail cs).2)
    else ([], c :: cs)

/-- Longest match of `[0-9A-Za-z\-]+(\.[0-9A-Za-z\-]+)*` at the head of `s`. -/
def dotted (s : GoString) : Option (GoString × GoString) :=
  match s with
  | [] => none
  | c :: cs => if isIdentChar c then some (c :: (identTail cs).1, (identTail cs).2) else none

/-- The optional group `(LEAD(dotted))?`: the text of the inner group (empty when the group
does not take part) and the rest. -/
def optTagged (lead : Char) (s : GoString) : GoString × GoString :=
  match s with
  | [] => ([], s)
  | c :: cs =>
    if c == lead then
      match dotted cs with
      | some r => r
      | none => ([], s)
    else ([], s)

/-- The optional group `(\.[CLASS]+)?`: the text of the group, dot included (empty when the
group does not take part), and the rest. -/
def optDotClass (p : Char → Bool) (s : GoString) : GoString × GoString :=
  match s with
  | c :: d :: ds =>
    if c == '.' && p d then (c :: d :: ds.takeWhile p, ds.dropWhile p) else ([], s)
  | _ => ([], s)

/-- The groups 1, 2, 3, 5 and 8 of a match of the library's `versionRegex`,
`^v?([0-9]+)(\.[0-9]+)?(\.[0-9]+)?(-(PRE))?(\+(META))?$` where `PRE` and `META` are
`[0-9A-Za-z\-]+(\.[0-9A-Za-z\-]+)*`; `none` when the string does not match. -/
def matchVersionRegex (v : GoString) :
    Option (GoString × GoString × GoString × GoString × GoString) :=
  let s := match v with
    | [] => v
    | c :: cs => if c == 'v' then cs else v
  let m1 := s.takeWhile strconv.isDigit
  if m1 = [] then none
  else
    let g2 := optDotClass strconv.isDigit (s.dropWhile strconv.isDigit)
    let g3 := optDotClass strconv.isDigit g2.2
    let g5 := optTagged '-' g3.2
    let g8 := optTagged '+' g5.2
    if g8.2 = [] then some (m1, g2.1, g3.1, g5.1, g8.1) else none

/-- A number group of the version expression (with its leading dot), empty meaning zero. -/
def parseDotSegment (m : GoString) : Option Nat :=
  if m = [] then some 0 else strconv.ParseUint (strings.TrimPrefix m ".".toList)

/-- The library's `NewVersion(v)`, the lenient parser: a leading `v` and missing minor or
patch numbers are accepted; `none` stands for a non-nil error. -/
def NewVersion (v : GoString) : Option Version :=
  match matchVersionRegex v with
  | none => none
  | some (m1, m2, m3, m5, m8) =>
    match strconv.ParseUint m1, parseDotSegment m2, parseDotSegment m3 with
    | some major, some minor, some patch =>
      if (m5 = [] || validatePrerelease m5) && (m8 = [] || validateMetadata m8) then
        some ⟨major, minor, patch, m5, m8, v⟩
      else none
    | _, _, _ => none

/-- The library's `Version.String()`. -/
def Version.String (v : Version) : GoString :=
  strconv.FormatUint v.major ++ ".".toList ++ strconv.FormatUint v.minor ++ ".".toList ++
    strconv.FormatUint v.patch ++
    (if v.pre = [] then [] else '-' :: v.pre) ++
    (if v.metadata = [] then [] else '+' :: v.metadata)

/-- The library's `compareSegment`. -/
def compareSegment (v o : Nat) : Int :=
  if v < o then -1 else if o < v then 1 else 0

/-- Go's `<` on strings: lexicographic order. -/
def strLess : GoString → GoString → Bool
  | [], [] => false
  | [], _ :: _ => true
  | _ :: _, [] => false
  | a :: as, b :: bs => if a < b then true else if b < a then false else strLess as bs

/-- The library's `comparePrePart`. -/
def comparePrePart (s o : GoString) : Int :=
  if s = o then 0
  else if s = [] then -1
  else if o = [] then 1
  else
    match strconv.ParseUint o, strconv.ParseUint s with
    | none, none => if strLess o s then 1 else -1
    | none, some _ => -1
    | some _, none => 1
    | some oi, some si => if oi < si then 1 else -1

/-- The loop of `comparePrerelease` once the left identifier list is exhausted: the
remaining right identifiers are compared with the empty placeholder. -/
def comparePreRest : List GoString → Int
  | [] => 0
  | o :: os => if comparePrePart [] o ≠ 0 then comparePrePart [] o else comparePreRest os

/-- The loop of `comparePrerelease` over the two identifier lists; a missing identifier is
the empty string. -/
def comparePreParts : List GoString → List GoString → Int
  | [], os => comparePreRest os
  | s :: ss, [] => if comparePrePart s [] ≠ 0 then comparePrePart s [] else comparePreParts ss []
  | s :: ss, o :: os =>
    if comparePrePart s o ≠ 0 then comparePrePart s o else comparePreParts ss os

/-- The library's `comparePrerelease`. -/
def comparePrerelease (v o : GoString) : Int :=
  comparePreParts (strings.Split v ".".toList) (strings.Split o ".".toList)

/-- The library's `Version.Compare`: -1, 0 or 1. -/
def Version.Compare (v o : Version) : Int :=
  if compareSegment v.major o.major ≠ 0 then compareSegment v.major o.major
  else if compareSegment v.minor o.minor ≠ 0 then compareSegment v.minor o.minor
  else if compareSegment v.patch o.patch ≠ 0 then compareSegment v.patch o.patch
  else if v.pre = [] && o.pre = [] then 0
  else if v.pre = [] then 1
  else if o.pre = [] then -1
  else comparePrerelease v.pre o.pre

/-- The library's `Version.LessThan`. -/
def Version.LessThan (v o : Version) : Bool := decide (v.Compare o < 0)

/-- The library's `Version.GreaterThan`. -/
def Version.GreaterThan (v o : Version) : Bool := decide (0 < v.Compare o)

/-- The library's `Version.Equal`. -/
def Version.Equal (v o : Version) : Bool := decide (v.Compare o = 0)

/-! ## `github.com/Masterminds/semver/v3`: constraints -/

/-- The library's `constraint` struct: one comparator of a constraint string. -/
structure constraint where
  con : Version
  orig : GoString
  origfunc : GoString
  minorDirty : Bool
  patchDirty : Bool
  dirty : Bool
deriving DecidableEq

/-- The library's `Constraints`: a disjunction (`||`) of conjunctions of comparators. -/
structure Constraints where
  constraints : List (List constraint)
deriving DecidableEq

/-- The class `\s` of Go regular expressions: tab, newline, form feed, return, space. -/
def isSpace (c : Char) : Bool :=
  c == ' ' || c == Char.ofNat 9 || c == Char.ofNat 10 || c == Char.ofNat 12 ||
    c == Char.ofNat 13

/-- The class `[0-9|x|X|\*]` of the library's `cvRegex`. -/
def isCVChar (c : Char) : Bool :=
  strconv.isDigit c || c == '|' || c == 'x' || c == 'X' || c == '*'

/-- The operator alternation of the library's constraint expressions, in its order:
`=||!=|>|<|>=|=>|<=|=<|~|~>|\^`. -/
def ops : List GoString :=
  ["=".toList, [], "!=".toList, ">".toList, "<".toList, ">=".toList, "=>".toList,
    "<=".toList, "=<".toList, "~".toList, "~>".toList, "^".toList]

/-- The groups of a match of `cvRegex` that the library reads. -/
structure CVMatch where
  whole : GoString
  major : GoString
  minor : GoString
  patch : GoString
  preGroup : GoString
  rest : GoString
deriving DecidableEq

/-- Longest match of the library's `cvRegex`,
`v?([0-9|x|X|\*]+)(\.[0-9|x|X|\*]+)?(\.[0-9|x|X|\*]+)?(-(PRE))?(\+(META))?`, at the head
of `s`.  `minor` and `patch` keep their dot, `preGroup` its dash. -/
def matchCV (s : GoString) : Option CVMatch :=
  let s1 := match s with
    | [] => s
    | c :: cs => if c == 'v' then cs else s
  let major := s1.takeWhile isCVChar
  if major = [] then none
  else
    let g4 := optDotClass isCVChar (s1.dropWhile isCVChar)
    let g5 := optDotClass isCVChar g4.2
    let g6 := optTagged '-' g5.2
    let g9 := optTagged '+' g6.2
    some ⟨s.take (s.length - g9.2.length), major, g4.1, g5.1,
      (if g6.1 = [] then [] else '-' :: g6.1), g9.2⟩

/-- Match of `(OPS)\s*(CV)` at the head of `s`: the operators are tried in their order and
the first one after which a version matches is taken. -/
def matchOpCV (s : GoString) : Option (GoString × CVMatch) :=
  ops.findSome? (fun op =>
    if op.isPrefixOf s then
      (matchCV ((s.drop op.length).dropWhile isSpace)).map (fun m => (op, m))
    else none)

/-- Match of the library's `constraintRegex`, `^\s*(OPS)\s*(CV)\s*$`. -/
def matchConstraintRegex (c : GoString) : Option (GoString × CVMatch) :=
  match matchOpCV (c.dropWhile isSpace) with
  | none => none
  | some (op, m) => if m.rest.dropWhile isSpace = [] then some (op, m) else none

/-- The library's `isX`. -/
def isX (x : GoString) : Bool := x = "x".toList || x = "*".toList || x = "X".toList

/-- The library's `parseConstraint(c)`; `none` stands for a non-nil error. -/
def parseConstraint (c : GoString) : Option constraint :=
  if 0 < c.length then
    match matchConstraintRegex c with
    | none => none
    | some (op, m) =>
      let r : GoString × Bool × Bool × Bool :=
        if isX m.major || m.major = [] then
          ("0.0.0".toList ++ m.preGroup, false, false, true)
        else if isX (strings.TrimPrefix m.minor ".".toList) || m.minor = [] then
          (m.major ++ ".0.0".toList ++ m.preGroup, true, false, true)
        else if isX (strings.TrimPrefix m.patch ".".toList) || m.patch = [] then
          (m.major ++ m.minor ++ ".0".toList ++ m.preGroup, false, true, true)
        else (m.whole, false, false, false)
      match NewVersion r.1 with
      | none => none
      | some con => some ⟨con, c, op, r.2.1, r.2.2.1, r.2.2.2⟩
  else
    match StrictNewVersion "0.0.0".toList with
    | none => none
    | some con => some ⟨con, c, [], false, false, true⟩

/-- Match of the library's `constraintRangeRegex`, `\s*(CV)\s+-\s+(CV)\s*`, at the head of
`s`: the matched text and the texts of the two versions. -/
def matchRangeAt (s : GoString) : Option (GoString × GoString × GoString) :=
  match matchCV (s.dropWhile isSpace) with
  | none => none
  | some a =>
    let w1 := a.rest.dropWhile isSpace
    if a.rest.length = w1.length then none
    else
      match w1 with
      | [] => none
      | d :: r2 =>
        let w2 := r2.dropWhile isSpace
        if d == '-' && decide (w2.length < r2.length) then
          match matchCV w2 with
          | none => none
          | some b =>
            some (s.take (s.length - (b.rest.dropWhile isSpace).length), a.whole, b.whole)
        else none

/-- All matches of `constraintRangeRegex` in a string, leftmost first and not overlapping;
`skip` is the number of characters of the last match still to pass. -/
def findRanges : Nat → GoString → List (GoString × GoString × GoString)
  | _, [] => []
  | skip + 1, _ :: cs => findRanges skip cs
  | 0, c :: cs =>
    match matchRangeAt (c :: cs) with
    | some m => m :: findRanges (m.1.length - 1) cs
    | none => findRanges 0 cs

/-- The library's `rewriteRange`: every hyphen range `a - b` becomes `>= a, <= b `. -/
def rewriteRange (i : GoString) : GoString :=
  (findRanges 0 i).foldl
    (fun o v => strings.ReplaceFirst o v.1
      (">= ".toList ++ v.2.1 ++ ", <= ".toList ++ v.2.2 ++ " ".toList)) i

/-- The tail of the library's `validConstraintRegex` after a comparator,
`\s*((?:\s+|,\s*)(OPS)\s*(CV)\s*)*$`. -/
def validTail : Nat → GoString → Bool
  | 0, s => s.dropWhile isSpace = []
  | fuel + 1, s =>
    match s.dropWhile isSpace with
    | [] => true
    | c :: cs =>
      if c == ',' then
        match matchOpCV (cs.dropWhile isSpace) with
        | some (_, m) => validTail fuel m.rest
        | none => false
      else if (c :: cs).length < s.length then
        match matchOpCV (c :: cs) with
        | some (_, m) => validTail fuel m.rest
        | none => false
      else false

/-- Match of the library's `validConstraintRegex`,
`^(\s*(OPS)\s*(CV)\s*)((?:\s+|,\s*)(OPS)\s*(CV)\s*)*$`. -/
def validConstraint (v : GoString) : Bool :=
  match matchOpCV (v.dropWhile isSpace) with
  | none => false
  | some (_, m) => validTail v.length m.rest

/-- All matches of the library's `findConstraintRegex`, `(OPS)\s*(CV)`, in a string,
leftmost first and not overlapping. -/
def findConstraints : Nat → GoString → List GoString
  | _, [] => []
  | skip + 1, _ :: cs => findConstraints skip cs
  | 0, c :: cs =>
    match matchOpCV (c :: cs) with
    | some (_, m) =>
      (c :: cs).take ((c :: cs).length - m.rest.length) ::
        findConstraints ((c :: cs).length - m.rest.length - 1) cs
    | none => findConstraints 0 cs

/-- One `||` alternative of `NewConstraint`: validate it, find its comparators and parse
each of them. -/
def parseAlternative (v : GoString) : Option (List constraint) :=
  if validConstraint v then
    let cs := findConstraints 0 v
    (if cs = [] then [v] else cs).mapM parseConstraint
  else none

/-- The library's `NewConstraint(c)`; `none` stands for a non-nil error. -/
def NewConstraint (c : GoString) : Option Constraints :=
  ((strings.Split (rewriteRange c) "||".toList).mapM parseAlternative).map
    (fun o => ⟨o⟩)

/-- The pre-release guard shared by the library's comparators: a version with a
pre-release never satisfies a comparator whose own version has none. -/
def prereleaseBlocked (v : Version) (c : constraint) : Bool :=
  v.pre ≠ [] && c.con.pre = []

/-- The library's `constraintNotEqual`. -/
def constraintNotEqual (v : Version) (c : constraint) : Bool :=
  if c.dirty then
    if prereleaseBlocked v c then false
    else if c.con.major ≠ v.major then true
    else if c.con.minor ≠ v.minor && !c.minorDirty then true
    else if c.minorDirty then false
    else if c.con.patch ≠ v.patch && !c.patchDirty then true
    else if c.patchDirty then
      (if v.pre ≠ [] || c.con.pre ≠ [] then decide (comparePrerelease v.pre c.con.pre ≠ 0)
       else false)
    else !(v.Equal c.con)
  else !(v.Equal c.con)

/-- The library's `constraintGreaterThan`. -/
def constraintGreaterThan (v : Version) (c : constraint) : Bool :=
  if prereleaseBlocked v c then false
  else if !c.dirty then decide (v.Compare c.con = 1)
  else if c.con.major < v.major then true
  else if v.major < c.con.major then false
  else if c.minorDirty then false
  else if c.patchDirty then decide (c.con.minor < v.minor)
  else decide (v.Compare c.con = 1)

/-- The library's `constraintLessThan`. -/
def constraintLessThan (v : Version) (c : constraint) : Bool :=
  if prereleaseBlocked v c then false else decide (v.Compare c.con < 0)

/-- The library's `constraintGreaterThanEqual`. -/
def constraintGreaterThanEqual (v : Version) (c : constraint) : Bool :=
  if prereleaseBlocked v c then false else decide (0 ≤ v.Compare c.con)

/-- The library's `constraintLessThanEqual`. -/
def constraintLessThanEqual (v : Version) (c : constraint) : Bool :=
  if prereleaseBlocked v c then false
  else if !c.dirty then decide (v.Compare c.con ≤ 0)
  else if c.con.major < v.major then false
  else if v.major = c.con.major && decide (c.con.minor < v.minor) && !c.minorDirty then false
  else true

/-- The library's `constraintTilde`. -/
def constraintTilde (v : Version) (c : constraint) : Bool :=
  if prereleaseBlocked v c then false
  else if v.LessThan c.con then false
  else if c.con.major = 0 && c.con.minor = 0 && c.con.patch = 0 &&
      !c.minorDirty && !c.patchDirty then true
  else if v.major ≠ c.con.major then false
  else if v.minor ≠ c.con.minor && !c.minorDirty then false
  else true

/-- The library's `constraintTildeOrEqual`. -/
def constraintTildeOrEqual (v : Version) (c : constraint) : Bool :=
  if prereleaseBlocked v c then false
  else if c.dirty then constraintTilde v c
  else v.Equal c.con

/-- The library's `constraintCaret`. -/
def constraintCaret (v : Version) (c : constraint) : Bool :=
  if prereleaseBlocked v c then false
  else if v.LessThan c.con then false
  else if 0 < c.con.major || c.minorDirty then decide (v.major = c.con.major)
  else if c.con.major = 0 && decide (0 < v.major) then false
  else if 0 < c.con.minor || c.patchDirty then decide (v.minor = c.con.minor)
  else if c.con.minor = 0 && decide (0 < v.minor) then false
  else decide (c.con.patch = v.patch)

/-- The library's `constraint.check`: dispatch on the operator through `constraintOps`. -/
def constraint.check (c : constraint) (v : Version) : Bool :=
  if c.origfunc = [] || c.origfunc = "=".toList then constraintTildeOrEqual v c
  else if c.origfunc = "!=".toList then constraintNotEqual v c
  else if c.origfunc = ">".toList then constraintGreaterThan v c
  else if c.origfunc = "<".toList then constraintLessThan v c
  else if c.origfunc = ">=".toList || c.origfunc = "=>".toList then
    constraintGreaterThanEqual v c
  else if c.origfunc = "<=".toList || c.origfunc = "=<".toList then
    constraintLessThanEqual v c
  else if c.origfunc = "~".toList || c.origfunc = "~>".toList then constraintTilde v c
  else constraintCaret v c

/-- The library's `Constraints.Check`: some alternative has all its comparators satisfied. -/
def Constraints.Check (cs : Constraints) (v : Version) : Bool :=
  cs.constraints.any (fun o => o.all (fun c => c.check v))

end semver

/-! ## Go standard library: `sort` -/

namespace sort

/-- The inner loop of Go's `insertionSort`: the new element moves left past every
predecessor it is `less` than.  `rev` is the sorted part, last element first. -/
def insertLeft {α : Type} (less : α → α → Bool) (x : α) : List α → List α
  | [] => [x]
  | p :: ps => if less x p then p :: insertLeft less x ps else x :: p :: ps

/-- Go's `insertionSort(data, a, b)` on the whole of the data, with
`data.Less(i, j) = less data[i] data[j]`: every element in turn moves left past the
predecessors it is `less` than. -/
def insertionSort {α : Type} (less : α → α → Bool) (data : List α) : List α :=
  (data.foldl (fun rev x => insertLeft less x rev) []).reverse

/-- The stable choice for the parameter `tie` of `sort.Sort`: no element passes an element of
its own rank. -/
def keepOrder : Nat → Nat → Bool := fun _ _ => false

end sort

/-- Go `sort.Sort(data)` with `data.Less(i, j) = less data[i] data[j]`.  Up to twelve
elements Go sorts by insertion.  Beyond twelve it runs pdqsort, which is not stable: elements
that `less` does not tell apart come out in an order the documentation leaves open.  `tie`
stands for that order: `tie i j` says that the element which stood at position `i` ends in
front of an element of its own rank which stood at position `j`.  For every `tie` the
result is a rearrangement of the data, in order when `less` is a strict weak ordering; which
of the ordered rearrangements pdqsort picks is a matter of `tie` alone. -/
def sort.Sort {α : Type} (tie : Nat → Nat → Bool) (less : α → α → Bool) (data : List α) :
    List α :=
  if data.length ≤ 12 then sort.insertionSort less data
  else
    (sort.insertionSort
      (fun a b => less a.1 b.1 || (!less b.1 a.1 && tie a.2 b.2))
      (data.zip (List.range data.length))).map Prod.fst

/-! ## `pkg/registry/utils.go` -/

/-- The errors `GetTagMatchingVersionOrConstraint` returns. -/
inductive Error where
  /-- The error of `semver.NewConstraint`, returned as it is. -/
  | invalidConstraint (versionString : GoString)
  /-- `Could not locate a version matching provided version string %s`. -/
  | noMatchingVersion (versionString : GoString)
deriving DecidableEq

/-- `ContainsTag` of `utils.go`. -/
def ContainsTag (tags : List GoString) (tag : GoString) : Bool :=
  match tags with
  | [] => false
  | t :: rest => if tag = t then true else ContainsTag rest tag

/-- The constraint `semver.NewConstraint("*")` of `utils.go:49`; the error the code
discards there is nil. -/
def wildcardConstraint : semver.Constraints :=
  (semver.NewConstraint "*".toList).get (by decide)

/-- The first loop of `GetTagMatchingVersionOrConstraint` (`utils.go:53-57`): the first
tag equal to the request. -/
def exactMatch (versionString : GoString) : List GoString → Option GoString
  | [] => none
  | v :: rest => if versionString = v then some v else exactMatch versionString rest

/-- The second loop of `GetTagMatchingVersionOrConstraint` (`utils.go:69-77`): tags that
`semver.NewVersion` rejects are passed over, the first tag whose version satisfies the
constraint is returned. -/
def constraintMatch (constraint : semver.Constraints) : List GoString → Option GoString
  | [] => none
  | v :: rest =>
    match semver.NewVersion v with
    | none => constraintMatch constraint rest
    | some test => if constraint.Check test then some v else constraintMatch constraint rest

/-- The end of `GetTagMatchingVersionOrConstraint` (`utils.go:67-79`). -/
def matchOrFail (constraint : semver.Constraints) (tags : List GoString)
    (versionString : GoString) : GoString × Option Error :=
  match constraintMatch constraint tags with
  | some v => (v, none)
  | none => ([], some (Error.noMatchingVersion versionString))

/-- `GetTagMatchingVersionOrConstraint` of `utils.go`; the result is Go's pair
`(string, error)`, `none` being the nil error. -/
def GetTagMatchingVersionOrConstraint (tags : List GoString) (versionString : GoString) :
    GoString × Option Error :=
  if versionString = [] then matchOrFail wildcardConstraint tags versionString
  else
    match exactMatch versionString tags with
    | some v => (v, none)
    | none =>
      match semver.NewConstraint versionString with
      | none => ([], some (Error.invalidConstraint versionString))
      | some constraint => matchOrFail constraint tags versionString

/-- The value of `raw` that `parseReference` of `utils.go` passes to
`registry.ParseReference` (`utils.go:104-115`). -/
def parseReferenceRaw (raw : GoString) : GoString :=
  let parts := strings.Split raw ":".toList
  if decide (1 < parts.length) && !strings.Contains (parts.getLastD []) "/".toList then
    let tag := parts.getLastD []
    if tag ≠ [] then
      let newTag := strings.ReplaceAll tag "+".toList "_".toList
      strings.ReplaceAll raw tag newTag
    else raw
  else raw

/-! ## `pkg/registry/client.go` -/

/-- The loop of `Client.Tags` (`client.go:618-626`): the versions of the registry tags that
`semver.StrictNewVersion` accepts once `_` is turned back into `+`. -/
def Client.tagVersions (registryTags : List GoString) : List semver.Version :=
  registryTags.filterMap
    (fun tag => semver.StrictNewVersion (strings.ReplaceAll tag "_".toList "+".toList))

/-- `Client.Tags` of `client.go` after the registry has answered with `registryTags`
(`client.go:618-637`): parse, sort with `sort.Reverse(semver.Collection(...))`, render.
`tie` is the parameter of `sort.Sort`, the order it leaves versions of equal precedence
in. -/
def Client.Tags (tie : Nat → Nat → Bool) (registryTags : List GoString) :
    List GoString :=
  (sort.Sort tie (fun a b => semver.Version.LessThan b a) (Client.tagVersions registryTags)).map
    semver.Version.String

/-! ## Go standard library: `unicode` -/

namespace unicode

/-- Go `unicode.IsSpace(r)`: the Unicode White_Space property (tab to carriage return, space,
U+0085, U+00A0, U+1680, U+2000 to U+200A, U+2028, U+2029, U+202F, U+205F, U+3000). -/
def IsSpace (r : Char) : Bool :=
  let n := r.toNat
  decide (9 ≤ n ∧ n ≤ 13) || n == 32 || n == 133 || n == 160 || n == 5760 ||
    decide (8192 ≤ n ∧ n ≤ 8202) || n == 8232 || n == 8233 || n == 8239 || n == 8287 ||
    n == 12288

/-- Go `unicode.IsPrint(r)`: letters, marks, numbers, punctuation, symbols and the ASCII
space.  Up to U+00FF the answer is that of Go's Latin-1 table (U+0020 to U+007E and U+00A1
to U+00FF without the soft hyphen U+00AD); above it the answer is read from `printTable`,
which stands for Go's Unicode range tables, not reproduced here. -/
def IsPrint (printTable : Char → Bool) (r : Char) : Bool :=
  let n := r.toNat
  if n ≤ 255 then decide (32 ≤ n ∧ n ≤ 126) || (decide (161 ≤ n) && n != 173)
  else printTable r

end unicode

/-! ## `oras.land/oras-go/pkg/registry` and `github.com/opencontainers/go-digest` -/

namespace oras

/-- The library's `Reference` struct. -/
structure Reference where
  Registry : GoString
  Repository : GoString
  Reference : GoString
deriving DecidableEq

/-- The errors of `ParseReference`, all wrapping `errdef.ErrInvalidReference`. -/
inductive RefError where
  | missingRepository
  | invalidRegistry
  | invalidRepository
  | invalidTag
deriving DecidableEq

/-- The class `[a-f0-9]` of go-digest's anchored hex expressions. -/
def isLowerHex (c : Char) : Bool :=
  strconv.isDigit c || (decide ('a' ≤ c) && decide (c ≤ 'f'))

/-- Number of hex digits go-digest wants after an available algorithm name. -/
def digestHexLength (algorithm : GoString) : Option Nat :=
  if algorithm = "sha256".toList then some 64
  else if algorithm = "sha384".toList then some 96
  else if algorithm = "sha512".toList then some 128
  else none

/-- go-digest `digest.Parse(s)` returns a nil error: an available algorithm, a colon, and
the lower-case hex digest of that algorithm's length. -/
def digestOK (s : GoString) : Bool :=
  let i := strings.Index s ":".toList
  if i ≤ 0 ∨ i + 1 = s.length then false
  else
    match digestHexLength (s.take i.toNat) with
    | none => false
    | some n =>
      decide ((s.drop (i.toNat + 1)).length = n) && (s.drop (i.toNat + 1)).all isLowerHex

/-- The class `[a-z0-9]` of the library's `repositoryRegexp`. -/
def isRepoAlnum (c : Char) : Bool :=
  strconv.isDigit c || (decide ('a' ≤ c) && decide (c ≤ 'z'))

/-- Where a scan of `repositoryRegexp` stands inside a path component. -/
inductive RepoState where
  /-- At the start of a component: `[a-z0-9]` must follow. -/
  | start
  /-- After `[a-z0-9]`. -/
  | alnum
  /-- After the separator `.`: `[a-z0-9]` must follow. -/
  | dot
  /-- After one `_`: `[a-z0-9]` or a second `_` must follow. -/
  | underscore
  /-- After `__`: `[a-z0-9]` must follow. -/
  | underscore2
  /-- After a run of `-`: `[a-z0-9]` or `-` must follow. -/
  | dash
deriving DecidableEq

/-- A scan of the library's `repositoryRegexp`,
`^[a-z0-9]+(?:(?:[._]|__|[-]*)[a-z0-9]+)*(?:/[a-z0-9]+(?:(?:[._]|__|[-]*)[a-z0-9]+)*)*$`:
components of `[a-z0-9]` runs joined by `.`, `_`, `__` or dashes, separated by `/`. -/
def repoScan : RepoState → GoString → Bool
  | st, [] => st == RepoState.alnum
  | st, c :: cs =>
    if isRepoAlnum c then repoScan RepoState.alnum cs
    else
      match st with
      | RepoState.alnum =>
        if c == '/' then repoScan RepoState.start cs
        else if c == '.' then repoScan RepoState.dot cs
        else if c == '_' then repoScan RepoState.underscore cs
        else if c == '-' then repoScan RepoState.dash cs
        else false
      | RepoState.underscore => if c == '_' then repoScan RepoState.underscore2 cs else false
      | RepoState.dash => if c == '-' then repoScan RepoState.dash cs else false
      | _ => false

/-- The library's `repositoryRegexp.MatchString`. -/
def repositoryOK (s : GoString) : Bool := repoScan RepoState.start s

/-- The class `\w` of Go regular expressions: `[0-9A-Za-z_]`. -/
def isWord (c : Char) : Bool :=
  strconv.isDigit c || (decide ('A' ≤ c) && decide (c ≤ 'Z')) ||
    (decide ('a' ≤ c) && decide (c ≤ 'z')) || c == '_'

/-- The library's `tagRegexp.MatchString`, for `^[\w][\w.-]{0,127}$`. -/
def tagOK (s : GoString) : Bool :=
  match s with
  | [] => false
  | c :: cs =>
    isWord c && decide (cs.length ≤ 127) && cs.all (fun d => isWord d || d == '.' || d == '-')

/-- The splitting part of the library's `ParseReference`: registry up to the first `/`;
in the rest a digest after the first `@` (a tag in front of it is dropped), else a tag after
the first `:`.  `none` when there is no `/`. -/
def splitReference (raw : GoString) : Option Reference :=
  match strings.SplitN raw "/".toList 2 with
  | [registry, path] =>
    if strings.Index path "@".toList ≠ -1 then
      let repository := path.take (strings.Index path "@".toList).toNat
      some ⟨registry,
        (if strings.Index repository ":".toList ≠ -1 then
          repository.take (strings.Index repository ":".toList).toNat
         else repository),
        path.drop ((strings.Index path "@".toList).toNat + 1)⟩
    else if strings.Index path ":".toList ≠ -1 then
      some ⟨registry, path.take (strings.Index path ":".toList).toNat,
        path.drop ((strings.Index path ":".toList).toNat + 1)⟩
    else some ⟨registry, path, []⟩
  | _ => none

/-- The library's `Reference.ValidateReference`: empty, a digest, or a tag. -/
def referenceOK (reference : GoString) : Bool :=
  reference = [] || digestOK reference || tagOK reference

/-- The library's `Reference.Validate`; `none` stands for a nil error.  `hostOK registry`
stands for the check of `ValidateRegistry`, that Go's `url.ParseRequestURI` accepts
`dummy://` followed by the registry and reports the registry as its host. -/
def Validate (hostOK : GoString → Bool) (r : Reference) : Option RefError :=
  if !hostOK r.Registry then some RefError.invalidRegistry
  else if !repositoryOK r.Repository then some RefError.invalidRepository
  else if !referenceOK r.Reference then some RefError.invalidTag
  else none

/-- The library's `ParseReference(raw)`, Go's pair `(Reference, error)`; on an error the
reference is the zero value. -/
def ParseReference (hostOK : GoString → Bool) (raw : GoString) : Reference × Option RefError :=
  match splitReference raw with
  | none => (⟨[], [], []⟩, some RefError.missingRepository)
  | some res =>
    match Validate hostOK res with
    | some err => (⟨[], [], []⟩, some err)
    | none => (res, none)

end oras
/-! ## `github.com/opencontainers/image-spec/specs-go/v1` -/

namespace ocispec

/-- The library's `AnnotationCreated`. -/
def AnnotationCreated : GoString := "org.opencontainers.image.created".toList

/-- The library's `AnnotationAuthors`. -/
def AnnotationAuthors : GoString := "org.opencontainers.image.authors".toList

/-- The library's `AnnotationURL`. -/
def AnnotationURL : GoString := "org.opencontainers.image.url".toList

/-- The library's `AnnotationSource`. -/
def AnnotationSource : GoString := "org.opencontainers.image.source".toList

/-- The library's `AnnotationVersion`. -/
def AnnotationVersion : GoString := "org.opencontainers.image.version".toList

/-- The library's `AnnotationTitle`. -/
def AnnotationTitle : GoString := "org.opencontainers.image.title".toList

/-- The library's `AnnotationDescription`. -/
def AnnotationDescription : GoString := "org.opencontainers.image.description".toList

/-- The library's `Descriptor` struct, without the fields the repository never reads. -/
structure Descriptor where
  MediaType : GoString
  Digest : GoString
  Size : Int
deriving DecidableEq

end ocispec

/-! ## `pkg/common/metadata.go` -/

/-- The struct `Maintainer` of `metadata.go`. -/
structure Maintainer where
  Name : GoString
  Email : GoString
  URL : GoString
deriving DecidableEq

/-- The struct `Metadata` of `metadata.go`.  `Maintainers` is a slice of pointers, `none`
being the nil pointer; `Annotations` is a Go map, given as its entries in the order an
iteration visits them; `Type_` is the Go field `Type`, a reserved word in Lean. -/
structure Metadata where
  Name : GoString
  Home : GoString
  Sources : List GoString
  Version : GoString
  Description : GoString
  Keywords : List GoString
  Maintainers : List (Option Maintainer)
  Icon : GoString
  APIVersion : GoString
  Condition : GoString
  Tags : GoString
  Deprecated : Bool
  Annotations : List (GoString × GoString)
  Type_ : GoString
deriving DecidableEq

/-- The values of type `ValidationError` that `Validate` returns. -/
inductive ValidationError where
  /-- `metadata is required`. -/
  | metadataRequired
  /-- `'apiVersion' is required`. -/
  | apiVersionRequired
  /-- `'name' is required`. -/
  | nameRequired
  /-- `'version' is required`. -/
  | versionRequired
  /-- `'version' %q is invalid`. -/
  | versionInvalid (version : GoString)
  /-- `maintainers must not contain empty or null nodes`. -/
  | nullMaintainer
deriving DecidableEq

/-- `isValidSemver` of `metadata.go`. -/
def isValidSemver (v : GoString) : Bool := (semver.NewVersion v).isSome

/-- `isValidWASMType` of `metadata.go`. -/
def isValidWASMType (i : GoString) : Bool :=
  i = [] || i = "authn".toList || i = "authz".toList

/-- `sanitizeString` of `metadata.go`: `strings.Map` turns every white-space character into
one space, keeps every other printable character and drops the rest. -/
def sanitizeString (printTable : Char → Bool) (str : GoString) : GoString :=
  str.filterMap (fun r =>
    if unicode.IsSpace r then some ' '
    else if unicode.IsPrint printTable r then some r
    else none)

/-- `Maintainer.Validate` of `metadata.go`: the maintainer after the call and the error. -/
def Maintainer.Validate (printTable : Char → Bool) (m : Option Maintainer) :
    Option Maintainer × Option ValidationError :=
  match m with
  | none => (none, some ValidationError.nullMaintainer)
  | some m =>
    (some ⟨sanitizeString printTable m.Name, sanitizeString printTable m.Email,
      sanitizeString printTable m.URL⟩, none)

/-- The loop over the maintainers in `Metadata.Validate` (`metadata.go:134-138`): it stops at
the first error and leaves the later maintainers as they were. -/
def validateMaintainers (printTable : Char → Bool) :
    List (Option Maintainer) → List (Option Maintainer) × Option ValidationError
  | [] => ([], none)
  | m :: rest =>
    match (Maintainer.Validate printTable m).2 with
    | some err => ((Maintainer.Validate printTable m).1 :: rest, some err)
    | none =>
      ((Maintainer.Validate printTable m).1 :: (validateMaintainers printTable rest).1,
        (validateMaintainers printTable rest).2)

/-- The fields `Metadata.Validate` sanitizes before its checks (`metadata.go:108-119`). -/
def Metadata.sanitized (printTable : Char → Bool) (md : Metadata) : Metadata :=
  { md with
    Name := sanitizeString printTable md.Name
    Description := sanitizeString printTable md.Description
    Home := sanitizeString printTable md.Home
    Icon := sanitizeString printTable md.Icon
    Condition := sanitizeString printTable md.Condition
    Tags := sanitizeString printTable md.Tags
    Sources := md.Sources.map (sanitizeString printTable)
    Keywords := md.Keywords.map (sanitizeString printTable) }

/-- `Metadata.Validate` of `metadata.go`, on a pointer that may be nil: the metadata after
the call and the error, `none` being the nil error. -/
def Metadata.Validate (printTable : Char → Bool) (md : Option Metadata) :
    Option Metadata × Option ValidationError :=
  match md with
  | none => (none, some ValidationError.metadataRequired)
  | some md =>
    let md := md.sanitized printTable
    if md.APIVersion = [] then (some md, some ValidationError.apiVersionRequired)
    else if md.Name = [] then (some md, some ValidationError.nameRequired)
    else if md.Version = [] then (some md, some ValidationError.versionRequired)
    else if !isValidSemver md.Version then
      (some md, some (ValidationError.versionInvalid md.Version))
    else
      (some { md with Maintainers := (validateMaintainers printTable md.Maintainers).1 },
        (validateMaintainers printTable md.Maintainers).2)

/-! ## `pkg/registry/constants.go` and `utils.go`, continued -/

/-- `OCIScheme` of `constants.go`. -/
def OCIScheme : GoString := "oci".toList

/-- `WASMMetadataMediaType` of `constants.go`. -/
def WASMMetadataMediaType : GoString := "application/vnd.wasm.config.v1+json".toList

/-- `WASMLayerMediaType` of `constants.go`. -/
def WASMLayerMediaType : GoString := "application/vnd.wasm.content.layer.v1+wasm".toList

/-- `IsOCI` of `utils.go`. -/
def IsOCI (url : GoString) : Bool := strings.HasPrefix url (OCIScheme ++ "://".toList)

/-- `parseReference` of `utils.go`: the cleaned reference goes to `registry.ParseReference`. -/
def parseReference (hostOK : GoString → Bool) (raw : GoString) :
    oras.Reference × Option oras.RefError :=
  oras.ParseReference hostOK (parseReferenceRaw raw)

/-- A Go `map[string]string`, as its lookup; `none` is an absent key. -/
abbrev GoMap := GoString → Option GoString

/-- The assignment `m[k] = v` on a Go map. -/
def GoMap.set (m : GoMap) (k v : GoString) : GoMap := fun x => if x = k then some v else m x

/-- `immutableOciAnnotations` of `utils.go`. -/
def immutableOciAnnotations : List GoString :=
  [ocispec.AnnotationVersion, ocispec.AnnotationTitle]

/-- `addToMap` of `utils.go`: the item is added when its value, white space trimmed, is not
empty. -/
def addToMap (inputMap : GoMap) (newKey newValue : GoString) : GoMap :=
  if 0 < (strings.TrimSpace unicode.IsSpace newValue).length then inputMap.set newKey newValue
  else inputMap

/-- What one turn of the maintainer loop of `generateChartOCIAnnotations` writes for a
maintainer, the separator apart (`utils.go:188-196`). -/
def maintainerEntry (maintainer : Maintainer) : GoString :=
  (if 0 < maintainer.Name.length then maintainer.Name else []) ++
    (if 0 < maintainer.Email.length then " (".toList ++ maintainer.Email ++ ")".toList else [])

/-- The maintainer loop of `generateChartOCIAnnotations` (`utils.go:186-202`): the text of
the string builder; `none` when a nil maintainer is dereferenced. -/
def maintainerText : List (Option Maintainer) → Option GoString
  | [] => some []
  | none :: _ => none
  | some maintainer :: rest =>
    match maintainerText rest with
    | none => none
    | some tail =>
      some (maintainerEntry maintainer ++ (if rest ≠ [] then ", ".toList else []) ++ tail)

/-- `generateChartOCIAnnotations` of `utils.go`; `now` is the text of
`utils.Now().UTC().Format(time.RFC3339)`.  `none` when a nil maintainer is dereferenced. -/
def generateChartOCIAnnotations (meta : Metadata) (test : Bool) (now : GoString) :
    Option GoMap :=
  let m0 : GoMap := fun _ => none
  let m1 := addToMap m0 ocispec.AnnotationDescription meta.Description
  let m2 := addToMap m1 ocispec.AnnotationTitle meta.Name
  let m3 := addToMap m2 ocispec.AnnotationVersion meta.Version
  let m4 := addToMap m3 ocispec.AnnotationURL meta.Home
  let m5 := if !test then addToMap m4 ocispec.AnnotationCreated now else m4
  let m6 :=
    match meta.Sources with
    | [] => m5
    | source :: _ => addToMap m5 ocispec.AnnotationSource source
  if 0 < meta.Maintainers.length then
    match maintainerText meta.Maintainers with
    | none => none
    | some text => some (addToMap m6 ocispec.AnnotationAuthors text)
  else some m6

/-- `generateOCIAnnotations` of `utils.go`: the annotations of the metadata are copied over
the generated ones, the immutable keys apart. -/
def generateOCIAnnotations (meta : Metadata) (test : Bool) (now : GoString) : Option GoMap :=
  match generateChartOCIAnnotations meta test now with
  | none => none
  | some ociAnnotations =>
    some (meta.Annotations.foldl
      (fun acc kv => if immutableOciAnnotations.contains kv.1 then acc else acc.set kv.1 kv.2)
      ociAnnotations)

/-! ## `pkg/registry/client.go`, continued -/

/-- The messages of the descriptor checks of `Client.Pull`. -/
def tooFewDescriptorsMessage (minNumDescriptors numDescriptors : Nat) : GoString :=
  "manifest does not contain minimum number of descriptors (".toList ++
    strconv.FormatUint minNumDescriptors ++ "), descriptors found: ".toList ++
    strconv.FormatUint numDescriptors

/-- The loop of `Client.Pull` over the descriptors (`client.go:390-399`): the last
descriptor of each of the two media types is kept. -/
def selectDescriptors (descriptors : List ocispec.Descriptor) :
    Option ocispec.Descriptor × Option ocispec.Descriptor :=
  descriptors.foldl
    (fun acc d =>
      if d.MediaType = WASMMetadataMediaType then (some d, acc.2)
      else if d.MediaType = WASMLayerMediaType then (acc.1, some d)
      else acc)
    (none, none)

/-- The descriptor checks of `Client.Pull` (`client.go:382-407`) on the manifest descriptor
and the layer descriptors the copy reported: the config and layer descriptors it goes on
with, or the message of the error it returns. -/
def Client.pullDescriptors (manifest : ocispec.Descriptor) (layers : List ocispec.Descriptor) :
    Option (ocispec.Descriptor × ocispec.Descriptor) × Option GoString :=
  let descriptors := [manifest] ++ layers
  if descriptors.length < 2 then (none, some (tooFewDescriptorsMessage 2 descriptors.length))
  else
    match selectDescriptors descriptors with
    | (none, _) =>
      (none, some ("could not load config with mediatype ".toList ++ WASMMetadataMediaType))
    | (some _, none) =>
      (none, some ("manifest does not contain a layer with mediatype ".toList ++
        WASMLayerMediaType))
    | (some configDescriptor, some wasmDescriptor) =>
      (some (configDescriptor, wasmDescriptor), none)

/-! ## `pkg/downloader`, `pkg/publisher`, `cmd/download.go`, `pkg/server/bridge.go` -/

/-- The reference `OCIGetter.get` hands to `Client.Pull` (`ocigetter.go:43`). -/
def OCIGetter.ref (href : GoString) : GoString :=
  strings.TrimPrefix href (OCIScheme ++ "://".toList)

/-- The errors of `Pull.Run` and `Push.Run`. -/
inductive RunError where
  /-- `%q is not a valid OCI reference`. -/
  | notValidOCIReference (remote : GoString)
  /-- `only OCI registries are supported`. -/
  | onlyOCISupported
  /-- An error of the download or upload that follows the check. -/
  | downstream (message : GoString)
deriving DecidableEq

/-- `Pull.Run` of `pull.go`.  `downloadTo remote` stands for the call of
`WASMDownloader.DownloadTo` with the options of the pull: the saved path, the text written
to `out`, and the error. -/
def Pull.Run (downloadTo : GoString → GoString × GoString × Option GoString)
    (remote : GoString) : GoString × Option RunError :=
  if !IsOCI remote then ([], some (RunError.notValidOCIReference remote))
  else
    match downloadTo remote with
    | (_, out, some err) => (out, some (RunError.downstream err))
    | (saved, _, none) => (saved, none)

/-- `Push.Run` of `push.go`.  `uploadTo` stands for the call of `WASMUploader.UploadTo`: the
text written to `out` and the error. -/
def Push.Run (uploadTo : GoString → GoString → GoString → GoString × Option GoString)
    (wasmExe metadataFile remote : GoString) : GoString × Option RunError :=
  if !IsOCI remote then ([], some RunError.onlyOCISupported)
  else
    ((uploadTo wasmExe metadataFile remote).1,
      (uploadTo wasmExe metadataFile remote).2.map RunError.downstream)

/-- `getVersionFromRef` of `cmd/download.go`. -/
def getVersionFromRef (hostOK : GoString → Bool) (ref : GoString) :
    GoString × Option oras.RefError :=
  let refNoScheme := strings.TrimPrefix ref (OCIScheme ++ "://".toList)
  match oras.ParseReference hostOK refNoScheme with
  | (_, some err) => ([], some err)
  | (parsedReference, none) =>
    if parsedReference.Reference ≠ [] && (semver.NewVersion parsedReference.Reference).isSome
    then (parsedReference.Reference, none)
    else (">0.0.0-0".toList, none)

/-- The version computed inside `DownloadWASMExtension` (`bridge.go:27-36`). -/
def DownloadWASMExtension.version (hostOK : GoString → Bool) (ref : GoString) :
    GoString × Option oras.RefError :=
  let version := ">0.0.0-0".toList
  let refNoScheme := strings.TrimPrefix ref (OCIScheme ++ "://".toList)
  match oras.ParseReference hostOK refNoScheme with
  | (_, some err) => ([], some err)
  | (parsedReference, none) =>
    ((if parsedReference.Reference ≠ [] && (semver.NewVersion parsedReference.Reference).isSome
      then parsedReference.Reference else version), none)

/-! ## `cmd/download.go` and `pkg/server/bridge.go`: the calls around the pull -/

/-- `CommonPullOptions` of `options.go`, without the embedded `RegistryParams`: the fields
the flags of `AddDownloadFlags` fill. -/
structure CommonPullOptions where
  Password : GoString
  PassCredentialsAll : Bool
  Username : GoString
  Verify : Bool
  Version : GoString
deriving DecidableEq

/-- `AddDownloadFlags` of `options_flags.go`, after the command line is parsed: `flag name`
is the value given to `--name`, `none` when the flag is not given; every default is the zero
value. -/
def AddDownloadFlags (flag : GoString → Option GoString) : CommonPullOptions :=
  { Version := (flag "version".toList).getD []
    Verify := flag "verify".toList = some "true".toList
    Username := (flag "username".toList).getD []
    Password := (flag "password".toList).getD []
    PassCredentialsAll := flag "pass-credentials".toList = some "true".toList }

/-- The fields of `downloader.Pull` that `WithVersion` and `WithDestDir` set. -/
structure PullAction where
  Version : GoString
  DestDir : GoString
deriving DecidableEq

/-- The errors of the download command and of `DownloadWASMExtension`. -/
inductive BridgeError where
  /-- `when creating registry client: %w`. -/
  | registryClient (cause : GoString)
  /-- `invalid OCI reference: %s`. -/
  | invalidOCIReference (ref : GoString)
  /-- The error of `reg.ParseReference`, returned as it is. -/
  | reference (err : oras.RefError)
  /-- The error of `puller.Run`, returned as it is. -/
  | pull (err : RunError)
deriving DecidableEq

/-- The pull action `RunE` of `newDownloadCmd` builds (`download.go:40-64`).  `newClient` is
the error of `registry.NewClientWithParams`, `none` when the client is created; `r` is the
options the flags filled, `destDir` the value of `--destination`, `ref` the first
argument. -/
def newDownloadCmd.puller (hostOK : GoString → Bool) (newClient : Option GoString)
    (_r : CommonPullOptions) (destDir ref : GoString) : Option PullAction × Option BridgeError :=
  match newClient with
  | some cause => (none, some (BridgeError.registryClient cause))
  | none =>
    if !IsOCI ref then (none, some (BridgeError.invalidOCIReference ref))
    else
      match getVersionFromRef hostOK ref with
      | (_, some err) => (none, some (BridgeError.reference err))
      | (version, none) => (some ⟨version, destDir⟩, none)

/-- A Go `interface{}` value as `DownloadWASMExtension` meets it: the nil interface or a
string. -/
inductive AnyValue where
  | nil
  | str (s : GoString)
deriving DecidableEq

/-- The type assertion `raw.(string)`: `none` stands for the run-time panic on a value that
is not a string. -/
def AnyValue.assertString : AnyValue → Option GoString
  | AnyValue.nil => none
  | AnyValue.str s => some s

/-- The function `DownloadWASMExtension` passes to `server.downloads.Do`
(`bridge.go:16-54`).  `newClient` is the error of `registry.NewClientWithParams`;
`run version dir ref` stands for `puller.Run(ref)` on the pull built with `WithVersion` and
`WithDestDir`. -/
def DownloadWASMExtension.fetch (hostOK : GoString → Bool) (newClient : Option GoString)
    (run : GoString → GoString → GoString → GoString × Option RunError)
    (ref dir : GoString) : AnyValue × Option BridgeError :=
  match newClient with
  | some cause => (AnyValue.nil, some (BridgeError.registryClient cause))
  | none =>
    if !IsOCI ref then (AnyValue.nil, some (BridgeError.invalidOCIReference ref))
    else
      match DownloadWASMExtension.version hostOK ref with
      | (_, some err) => (AnyValue.str [], some (BridgeError.reference err))
      | (version, none) =>
        match run version dir ref with
        | (_, some err) => (AnyValue.str [], some (BridgeError.pull err))
        | (savedFilename, none) => (AnyValue.str savedFilename, none)

/-- `DownloadWASMExtension` of `bridge.go` for a call that runs its function itself:
`downloads.Do` hands back what the function returned, then `raw.(string)` is evaluated.
`none` stands for a run-time panic. -/
def DownloadWASMExtension (hostOK : GoString → Bool) (newClient : Option GoString)
    (run : GoString → GoString → GoString → GoString × Option RunError)
    (ref dir : GoString) : Option (GoString × Option BridgeError) :=
  match (DownloadWASMExtension.fetch hostOK newClient run ref dir).1.assertString with
  | none => none
  | some path => some (path, (DownloadWASMExtension.fetch hostOK newClient run ref dir).2)

/-! ## Go standard library: errors, `path/filepath` and the file system -/

/-- The bytes of a file or of a blob. -/
abbrev Bytes := List Nat

/-- A Go `error` value, as far as `files.go` tells errors apart. -/
inductive GoError where
  /-- A `syscall.Errno`. -/
  | errno (code : Nat)
  /-- An `*os.LinkError` with its fields `Op`, `Old`, `New` and `Err`. -/
  | linkError (op old new : GoString) (err : GoError)
  /-- An `*fs.PathError` with its fields `Op`, `Path` and `Err`. -/
  | pathError (op path : GoString) (err : GoError)
  /-- An error made by `errors.New` or by `fmt.Errorf` without `%w`. -/
  | text (message : GoString)
  /-- An error made by `fmt.Errorf` with `%w`: the text in front of the wrapped error, and
  the wrapped error. -/
  | wrap (message : GoString) (err : GoError)
deriving DecidableEq

namespace syscall

/-- The errno `ENOENT`. -/
def ENOENT : GoError := GoError.errno 2

/-- The errno `EEXIST`. -/
def EEXIST : GoError := GoError.errno 17

/-- The errno `EXDEV`, the cross-device link error. -/
def EXDEV : GoError := GoError.errno 18

/-- The errno `ENOTDIR`. -/
def ENOTDIR : GoError := GoError.errno 20

/-- The errno `EISDIR`. -/
def EISDIR : GoError := GoError.errno 21

end syscall

namespace strings

/-- Go `strings.LastIndexByte(s, c)`: the position of the last `c`, `-1` when there is
none. -/
def LastIndexByte : GoString → Char → Int
  | [], _ => -1
  | x :: xs, c =>
    if LastIndexByte xs c ≠ -1 then LastIndexByte xs c + 1
    else if x = c then 0 else -1

end strings

namespace filepath

/-- Go `filepath.Split(path)` on Unix: the directory up to and with the last `/`, and the
file after it. -/
def Split (path : GoString) : GoString × GoString :=
  ((path.reverse.dropWhile (fun c => c != '/')).reverse,
    (path.reverse.takeWhile (fun c => c != '/')).reverse)

/-- Go `filepath.Base(path)` on Unix: the last element of the path, trailing slashes
removed first; `.` for the empty path and `/` for a path of slashes only. -/
def Base (path : GoString) : GoString :=
  if path = [] then ".".toList
  else
    let stripped := path.reverse.dropWhile (fun c => c == '/')
    let last := (stripped.takeWhile (fun c => c != '/')).reverse
    if last = [] then "/".toList else last

/-- The loop of Go `filepath.Clean` over the elements of a path, the kept elements held last
first: empty elements and `.` are dropped, `..` removes the element before it, and is kept
in a path that is not rooted when there is nothing to remove. -/
def cleanElements (rooted : Bool) : List GoString → List GoString → List GoString
  | [], kept => kept
  | elem :: rest, kept =>
    if elem = [] ∨ elem = ".".toList then cleanElements rooted rest kept
    else if elem = "..".toList then
      match kept with
      | top :: below =>
        if top = "..".toList then cleanElements rooted rest (elem :: kept)
        else cleanElements rooted rest below
      | [] => if rooted then cleanElements rooted rest [] else cleanElements rooted rest [elem]
    else cleanElements rooted rest (elem :: kept)

/-- Go `filepath.Clean(path)` on Unix. -/
def Clean (path : GoString) : GoString :=
  if path = [] then ".".toList
  else
    let rooted := path.head? == some '/'
    let kept := (cleanElements rooted (strings.Split path "/".toList) []).reverse
    if rooted then '/' :: List.intercalate "/".toList kept
    else if kept = [] then ".".toList else List.intercalate "/".toList kept

/-- Go `filepath.Join(a, b)`: the non-empty elements joined with `/`, then cleaned. -/
def Join (a b : GoString) : GoString :=
  if a ≠ [] then Clean (a ++ "/".toList ++ b)
  else if b ≠ [] then Clean b
  else []

end filepath

namespace os

/-- A file-system entry: a regular file with its content and permission bits, or a
directory.  Symbolic links are left out of the model. -/
inductive Node where
  | file (data : Bytes) (mode : Nat)
  | dir (mode : Nat)
deriving DecidableEq

/-- The file system: the entry at each path. -/
abbrev FS := GoString → Option Node

/-- The file system with the entry at `path` replaced. -/
def FS.set (fs : FS) (path : GoString) (n : Option Node) : FS :=
  fun p => if p = path then n else fs p

/-- An execution so far: the file-system states an observer could have seen, oldest first,
and the state now. -/
structure Exec where
  past : List FS
  now : FS

/-- Every state of an execution, oldest first. -/
def Exec.states (e : Exec) : List FS := e.past ++ [e.now]

/-- One system call that changes the file system. -/
def Exec.step (e : Exec) (fs : FS) : Exec := ⟨e.past ++ [e.now], fs⟩

/-- One system call that changes the entry at one path. -/
def Exec.put (e : Exec) (path : GoString) (n : Option Node) : Exec :=
  e.step (e.now.set path n)

/-- The places where `files.go` calls the operating system. -/
inductive Site where
  | createTemp
  | copy
  | close
  | chmod
  | stat
  | rename
  | isDir
  | lstat
  | open
  | create
  | copyOut
  | closeOut
  | statSrc
  | chmodDst
  | removeAll
deriving DecidableEq

/-- What lies outside the program: the directory of `os.TempDir`, the random part of the
temporary name, the mode `os.Create` gives a new file, the buffer of `io.Copy`, the errors
the operating system answers with at each call (`none` where it does not fail for a reason
of its own), the number of buffers an `io.Copy` writes before its error, and `CopyDir`, which
is not modelled. -/
structure World where
  tempDir : GoString
  random : GoString
  createMode : Nat
  bufSize : Nat
  fault : Site → Option GoError
  stops : Nat
  copyDir : Exec → GoString → GoString → Exec × Option GoError

/-- Go `os.Stat` and `os.Lstat`; they agree without symbolic links. -/
def Stat (w : World) (site : Site) (fs : FS) (name : GoString) : Option Node × Option GoError :=
  match w.fault site with
  | some err => (none, some err)
  | none =>
    match fs name with
    | none => (none, some (GoError.pathError "stat".toList name syscall.ENOENT))
    | some n => (some n, none)

/-- Go `os.prefixAndSuffix(pattern)`; `none` stands for `errPatternHasSeparator`. -/
def prefixAndSuffix (pattern : GoString) : Option (GoString × GoString) :=
  if pattern.contains '/' then none
  else if strings.LastIndexByte pattern '*' ≠ -1 then
    some (pattern.take (strings.LastIndexByte pattern '*').toNat,
      pattern.drop ((strings.LastIndexByte pattern '*').toNat + 1))
  else some (pattern, [])

/-- Go `os.joinPath(dir, name)`. -/
def joinPath (dir name : GoString) : GoString :=
  if dir.getLast? = some '/' then dir ++ name else dir ++ "/".toList ++ name

/-- Go `os.CreateTemp(dir, pattern)`: the execution, the name of the new file, and the
error.  The random part is that of the attempt that is not retried. -/
def CreateTemp (w : World) (e : Exec) (dir pattern : GoString) :
    Exec × GoString × Option GoError :=
  match prefixAndSuffix pattern with
  | none =>
    (e, [], some (GoError.pathError "createtemp".toList pattern
      (GoError.text "pattern contains path separator".toList)))
  | some (pre, suf) =>
    let name := joinPath (if dir = [] then w.tempDir else dir) pre ++ w.random ++ suf
    match w.fault Site.createTemp with
    | some err => (e, [], some err)
    | none =>
      if (e.now name).isSome then
        (e, [], some (GoError.pathError "createtemp".toList
          (joinPath (if dir = [] then w.tempDir else dir) pre ++ "*".toList ++ suf)
          syscall.EEXIST))
      else (e.put name (some (Node.file [] 384)), name, none)

/-- Number of buffers `io.Copy` needs for `n` bytes. -/
def chunkCount (n bufSize : Nat) : Nat := (n + bufSize - 1) / bufSize

/-- The writes of an `io.Copy` into the open file at `path`: after each of the first `k`
buffers the file holds the bytes written so far. -/
def writeChunks (e : Exec) (path : GoString) (mode : Nat) (data : Bytes) (bufSize k : Nat) :
    Exec :=
  (List.range k).foldl
    (fun e i => e.put path (some (Node.file (data.take ((i + 1) * bufSize)) mode))) e

/-- Go `io.Copy` of `data` into the file at `path`, opened empty: buffer after buffer; on an
error of the operating system the copy stops after `stops` buffers at most. -/
def ioCopy (w : World) (site : Site) (e : Exec) (path : GoString) (data : Bytes) :
    Exec × Option GoError :=
  let mode := match e.now path with
    | some (Node.file _ m) => m
    | _ => 0
  match w.fault site with
  | some err =>
    (writeChunks e path mode data w.bufSize (min w.stops (chunkCount data.length w.bufSize)),
      some err)
  | none => (writeChunks e path mode data w.bufSize (chunkCount data.length w.bufSize), none)

/-- Go `os.Chmod(name, mode)`. -/
def Chmod (w : World) (site : Site) (e : Exec) (name : GoString) (mode : Nat) :
    Exec × Option GoError :=
  match w.fault site with
  | some err => (e, some err)
  | none =>
    match e.now name with
    | none => (e, some (GoError.pathError "chmod".toList name syscall.ENOENT))
    | some (Node.file data _) => (e.put name (some (Node.file data mode)), none)
    | some (Node.dir _) => (e.put name (some (Node.dir mode)), none)

/-- Go `os.Rename(src, dst)`: one step that moves the entry, replacing the destination. -/
def Rename (w : World) (e : Exec) (src dst : GoString) : Exec × Option GoError :=
  match w.fault Site.rename with
  | some err => (e, some err)
  | none =>
    match e.now src, e.now dst with
    | none, _ => (e, some (GoError.linkError "rename".toList src dst syscall.ENOENT))
    | some (Node.file _ _), some (Node.dir _) =>
      (e, some (GoError.linkError "rename".toList src dst syscall.EISDIR))
    | some (Node.dir _), some (Node.file _ _) =>
      (e, some (GoError.linkError "rename".toList src dst syscall.ENOTDIR))
    | some n, _ => (e.step ((e.now.set src none).set dst (some n)), none)

/-- Go `os.Create(name)`: the file is created, or truncated when it is there. -/
def Create (w : World) (e : Exec) (name : GoString) : Exec × Option GoError :=
  match w.fault Site.create with
  | some err => (e, some err)
  | none =>
    match e.now name with
    | some (Node.dir _) => (e, some (GoError.pathError "open".toList name syscall.EISDIR))
    | some (Node.file _ mode) => (e.put name (some (Node.file [] mode)), none)
    | none => (e.put name (some (Node.file [] w.createMode)), none)

/-- Go `os.RemoveAll(path)`; what a directory holds is not modelled. -/
def RemoveAll (w : World) (e : Exec) (path : GoString) : Exec × Option GoError :=
  match w.fault Site.removeAll with
  | some err => (e, some err)
  | none => if (e.now path).isSome then (e.put path none, none) else (e, none)

end os

/-! ## `pkg/utils/files.go` -/

/-- `IsDir` of `files.go`. -/
def IsDir (w : os.World) (fs : os.FS) (name : GoString) : Bool × Option GoError :=
  match os.Stat w os.Site.isDir fs name with
  | (_, some err) => (false, some err)
  | (some (os.Node.dir _), none) => (true, none)
  | (_, none) => (false, some (GoError.text (name ++ " is not a directory".toList)))

/-- `copyFile` of `files.go` (`files.go:189-240`), without the branch for a symbolic link:
the destination is created or truncated, filled buffer by buffer, and given the mode of the
source. -/
def copyFile (w : os.World) (e : os.Exec) (src dst : GoString) : os.Exec × Option GoError :=
  match os.Stat w os.Site.lstat e.now src with
  | (_, some err) => (e, some (GoError.wrap "symlink check failed: ".toList err))
  | (_, none) =>
    match os.Stat w os.Site.open e.now src with
    | (_, some err) => (e, some err)
    | (none, none) => (e, some (GoError.pathError "open".toList src syscall.ENOENT))
    | (some input, none) =>
      match os.Create w e dst with
      | (e1, some err) => (e1, some err)
      | (e1, none) =>
        match input with
        | os.Node.dir _ => (e1, some (GoError.pathError "read".toList src syscall.EISDIR))
        | os.Node.file data _ =>
          match os.ioCopy w os.Site.copyOut e1 dst data with
          | (e2, some err) => (e2, some err)
          | (e2, none) =>
            match w.fault os.Site.closeOut with
            | some err => (e2, some err)
            | none =>
              match os.Stat w os.Site.statSrc e2.now src with
              | (_, some err) => (e2, some err)
              | (none, none) => (e2, some (GoError.pathError "stat".toList src syscall.ENOENT))
              | (some (os.Node.file _ mode), none) => os.Chmod w os.Site.chmodDst e2 dst mode
              | (some (os.Node.dir mode), none) => os.Chmod w os.Site.chmodDst e2 dst mode

/-- `renameByCopy` of `files.go`. -/
def renameByCopy (w : os.World) (e : os.Exec) (src dst : GoString) :
    os.Exec × Option GoError :=
  let copied : os.Exec × Option GoError :=
    if (IsDir w e.now src).1 then
      match w.copyDir e src dst with
      | (e1, some cerr) => (e1, some (GoError.wrap "copying directory failed: ".toList cerr))
      | (e1, none) => (e1, none)
    else
      match copyFile w e src dst with
      | (e1, some cerr) => (e1, some (GoError.wrap "copying file failed: ".toList cerr))
      | (e1, none) => (e1, none)
  match copied with
  | (e1, some cerr) =>
    (e1, some (GoError.wrap ("rename fallback failed: cannot rename ".toList ++ src ++
      " to ".toList ++ dst ++ ": ".toList) cerr))
  | (e1, none) =>
    match os.RemoveAll w e1 src with
    | (e2, some err) =>
      (e2, some (GoError.wrap ("cannot delete ".toList ++ src ++ ": ".toList) err))
    | (e2, none) => (e2, none)

/-- `renameFallback` of `files.go`. -/
def renameFallback (w : os.World) (e : os.Exec) (err : GoError) (src dst : GoString) :
    os.Exec × Option GoError :=
  match err with
  | GoError.linkError _ _ _ inner =>
    if inner ≠ syscall.EXDEV then
      (e, some (GoError.wrap ("link error: cannot rename ".toList ++ src ++ " to ".toList ++
        dst ++ ": ".toList) err))
    else renameByCopy w e src dst
  | _ => (e, some err)

/-- `RenameWithFallback` of `files.go`. -/
def RenameWithFallback (w : os.World) (e : os.Exec) (src dst : GoString) :
    os.Exec × Option GoError :=
  match os.Stat w os.Site.stat e.now src with
  | (_, some err) =>
    (e, some (GoError.wrap ("cannot stat ".toList ++ src ++ ": ".toList) err))
  | (_, none) =>
    match os.Rename w e src dst with
    | (e1, none) => (e1, none)
    | (e1, some err) => renameFallback w e1 err src dst

/-- `AtomicWriteFile` of `files.go`, run on the file system `fs` with the bytes `data` of
the reader: every file-system state of the execution, and the error. -/
def AtomicWriteFile (w : os.World) (fs : os.FS) (filename : GoString) (data : Bytes)
    (mode : Nat) : os.Exec × Option GoError :=
  match os.CreateTemp w ⟨[], fs⟩ (filepath.Split filename).1 (filepath.Split filename).2 with
  | (e1, _, some err) => (e1, some err)
  | (e1, tempName, none) =>
    match os.ioCopy w os.Site.copy e1 tempName data with
    | (e2, some err) => (e2, some err)
    | (e2, none) =>
      match w.fault os.Site.close with
      | some err => (e2, some err)
      | none =>
        match os.Chmod w os.Site.chmod e2 tempName mode with
        | (e3, some err) => (e3, some err)
        | (e3, none) => RenameWithFallback w e3 tempName filename

/-! ## `pkg/downloader/downloader.go` -/

namespace url

/-- Go's `url.URL`, the fields the downloader reads. -/
structure URL where
  Scheme : GoString
  Host : GoString
  Path : GoString
deriving DecidableEq

end url

/-- The errors of `WASMDownloader.DownloadTo`. -/
inductive DownloadError where
  /-- `invalid chart URL format: %s`. -/
  | invalidURLFormat (ref : GoString)
  /-- `invalid URL: not an OCI`. -/
  | notOCI (ref : GoString)
  /-- The error of `registry.ParseReference` in `Client.Tags`. -/
  | reference (err : oras.RefError)
  /-- The error of `registry.Tags`. -/
  | registry (message : GoString)
  /-- `Unable to locate any tags in provided repository: %s`. -/
  | noTags (ref : GoString)
  /-- The error of `GetTagMatchingVersionOrConstraint`. -/
  | tag (err : Error)
  /-- The error of `Getters.ByScheme` or of the getter. -/
  | getter (message : GoString)
  /-- The error of `AtomicWriteFile`. -/
  | write (err : GoError)
deriving DecidableEq

/-- The whole of `Client.Tags` (`client.go:599-637`): `listTags` stands for the answer of the
registry to `registry.Tags` for the parsed reference, `tie` for what `sort.Sort` does with
versions of equal precedence. -/
def Client.TagsOfReference (hostOK : GoString → Bool)
    (tie : Nat → Nat → Bool)
    (listTags : oras.Reference → List GoString × Option GoString) (ref : GoString) :
    List GoString × Option DownloadError :=
  match oras.ParseReference hostOK ref with
  | (_, some err) => ([], some (DownloadError.reference err))
  | (parsedReference, none) =>
    match listTags parsedReference with
    | (_, some err) => ([], some (DownloadError.registry err))
    | (registryTags, none) => (Client.Tags tie registryTags, none)

/-- The tag `getOciURI` settles on (`downloader.go:96-118`). -/
def WASMDownloader.resolveTag (hostOK : GoString → Bool)
    (tie : Nat → Nat → Bool)
    (listTags : oras.Reference → List GoString × Option GoString) (ref version : GoString) :
    GoString × Option DownloadError :=
  if (semver.NewVersion version).isSome then (version, none)
  else
    match Client.TagsOfReference hostOK tie listTags
        (strings.TrimPrefix ref (OCIScheme ++ "://".toList)) with
    | (_, some err) => ([], some err)
    | (tags, none) =>
      if tags.length = 0 then ([], some (DownloadError.noTags ref))
      else
        match GetTagMatchingVersionOrConstraint tags version with
        | (_, some err) => ([], some (DownloadError.tag err))
        | (tag, none) => (tag, none)

/-- `WASMDownloader.getOciURI` of `downloader.go`. -/
def WASMDownloader.getOciURI (hostOK : GoString → Bool)
    (tie : Nat → Nat → Bool)
    (listTags : oras.Reference → List GoString × Option GoString) (ref version : GoString)
    (u : url.URL) : Option url.URL × Option DownloadError :=
  match WASMDownloader.resolveTag hostOK tie listTags ref version with
  | (_, some err) => (none, some err)
  | (tag, none) =>
    let comps := strings.Split u.Path ":".toList
    (some { u with Path := comps.headD [] ++ ":".toList ++ tag }, none)

/-- `WASMDownloader.ResolveWASMExtVersion` of `downloader.go`; `urlParse` and `urlString`
stand for Go's `url.Parse` and `URL.String`. -/
def WASMDownloader.ResolveWASMExtVersion (hostOK : GoString → Bool)
    (tie : Nat → Nat → Bool)
    (listTags : oras.Reference → List GoString × Option GoString)
    (urlParse : GoString → Option url.URL) (urlString : url.URL → GoString)
    (ref version : GoString) : Option url.URL × Option DownloadError :=
  match urlParse ref with
  | none => (none, some (DownloadError.invalidURLFormat ref))
  | some u =>
    if !IsOCI (urlString u) then (none, some (DownloadError.notOCI ref))
    else WASMDownloader.getOciURI hostOK tie listTags ref version u

/-- `WASMDownloader.DownloadTo` of `downloader.go`: the path it returns, the execution on the
file system, and the error; `none` stands for a run-time panic, of a slice out of range or of
a nil URL.  `get scheme href` stands for `Getters.ByScheme` followed by the getter. -/
def WASMDownloader.DownloadTo (hostOK : GoString → Bool)
    (tie : Nat → Nat → Bool)
    (listTags : oras.Reference → List GoString × Option GoString)
    (urlParse : GoString → Option url.URL) (urlString : url.URL → GoString)
    (get : GoString → GoString → Bytes × Option GoString) (w : os.World) (fs : os.FS)
    (ref version dest : GoString) : Option (GoString × os.Exec × Option DownloadError) :=
  match WASMDownloader.ResolveWASMExtVersion hostOK tie listTags urlParse urlString ref version with
  | (_, some err) => some ([], ⟨[], fs⟩, some err)
  | (none, none) => none
  | (some u, none) =>
    match get u.Scheme (urlString u) with
    | (_, some err) => some ([], ⟨[], fs⟩, some (DownloadError.getter err))
    | (data, none) =>
      let name := filepath.Base u.Path
      let idx := strings.LastIndexByte name ':'
      if idx < 0 then none
      else
        let destfile := filepath.Join dest
          (name.take idx.toNat ++ "-".toList ++ name.drop (idx.toNat + 1) ++ ".wasm".toList)
        match AtomicWriteFile w fs destfile data 420 with
        | (e, some err) => some (destfile, e, some (DownloadError.write err))
        | (e, none) => some (destfile, e, none)

/-! ## `oras.land/oras-go`: the memory store -/

namespace ocispec

/-- The library's `MediaTypeImageManifest`. -/
def MediaTypeImageManifest : GoString := "application/vnd.oci.image.manifest.v1+json".toList

/-- The library's `Manifest` struct: the config, the layers and the annotations. -/
structure Manifest where
  Config : Descriptor
  Layers : List Descriptor
  Annotations : GoMap

end ocispec

namespace content

/-- The library's `content.Memory`: the blobs by digest and the manifest descriptors by
reference. -/
structure Store where
  blobs : GoString → Option Bytes
  refs : GoString → Option ocispec.Descriptor

/-- The library's `content.NewMemory()`. -/
def NewMemory : Store := ⟨fun _ => none, fun _ => none⟩

/-- The library's `Memory.Set(desc, content)`: the blob is kept under the digest of the
descriptor. -/
def Store.Set (s : Store) (desc : ocispec.Descriptor) (data : Bytes) : Store :=
  { s with blobs := fun d => if d = desc.Digest then some data else s.blobs d }

/-- The library's `Memory.Add(name, mediaType, content)` with the empty name; `digest` stands
for `digest.FromBytes`. -/
def Store.Add (digest : Bytes → GoString) (s : Store) (mediaType : GoString) (data : Bytes) :
    ocispec.Descriptor × Store :=
  (⟨mediaType, digest data, data.length⟩, s.Set ⟨mediaType, digest data, data.length⟩ data)

/-- The library's `GenerateManifest(config, annotations, descs...)`: the bytes of the
manifest and its descriptor; `encode` stands for the JSON encoding of the manifest. -/
def GenerateManifest (digest : Bytes → GoString) (encode : ocispec.Manifest → Bytes)
    (config : ocispec.Descriptor) (annotations : GoMap) (descs : List ocispec.Descriptor) :
    Bytes × ocispec.Descriptor :=
  (encode ⟨config, descs, annotations⟩,
    ⟨ocispec.MediaTypeImageManifest, digest (encode ⟨config, descs, annotations⟩),
      (encode ⟨config, descs, annotations⟩).length⟩)

/-- The library's `Memory.StoreManifest(ref, desc, manifest)`. -/
def Store.StoreManifest (s : Store) (ref : GoString) (desc : ocispec.Descriptor)
    (manifest : Bytes) : Store :=
  { blobs := (s.Set desc manifest).blobs
    refs := fun r => if r = ref then some desc else s.refs r }

end content

namespace oras

/-- The library's `Reference.String()`. -/
def Reference.String (r : ProxyWasmOci.oras.Reference) : GoString :=
  if r.Repository = [] then r.Registry
  else if r.Reference = [] then r.Registry ++ "/".toList ++ r.Repository
  else if digestOK r.Reference then
    r.Registry ++ "/".toList ++ r.Repository ++ "@".toList ++ r.Reference
  else r.Registry ++ "/".toList ++ r.Repository ++ ":".toList ++ r.Reference

end oras

/-! ## `pkg/registry/client.go`: `Push` -/

/-- The errors of `Client.Push`. -/
inductive ClientError where
  /-- The error of `parseReference`. -/
  | reference (err : oras.RefError)
  /-- The error of `c.resolver`. -/
  | resolver (message : GoString)
  /-- The error of `oras.Copy`. -/
  | copy (message : GoString)
deriving DecidableEq

/-- The summaries of `PushResult`. -/
structure DescriptorPushSummary where
  Digest : GoString
  Size : Int
deriving DecidableEq

/-- `PushResult` of `client.go`; `Meta` is the metadata of its `WASMExt`. -/
structure PushResult where
  Manifest : DescriptorPushSummary
  Config : DescriptorPushSummary
  WASMExt : DescriptorPushSummary
  Meta : Metadata
  Ref : GoString
deriving DecidableEq

/-- How a call into the library ends: with a run-time panic, with an error, or with the nil
error. -/
inductive CopyOutcome where
  | panics
  | fails (message : GoString)
  | done
deriving DecidableEq

/-- What lies outside `Client.Push`: the check of a registry host, `digest.FromBytes`, the
JSON encoding of a manifest and of the metadata, the error of `c.resolver`, the text of the
time stamp, and `oras.Copy` from the memory store to the registry under a reference.  The
copy runs in the library and over the network; nothing is assumed of how it ends. -/
structure Transport where
  hostOK : GoString → Bool
  digest : Bytes → GoString
  encode : ocispec.Manifest → Bytes
  marshal : Metadata → Bytes
  resolver : Option GoString
  now : GoString
  copy : content.Store → GoString → CopyOutcome

/-- `Client.Push` of `client.go`: the result or the error; `none` stands for a run-time
panic, of the nil maintainer that `generateOCIAnnotations` dereferences or of the library's
copy. -/
def Client.Push (t : Transport) (data : Bytes) (meta : Metadata) (ref : GoString)
    (test : Bool) : Option (Except ClientError PushResult) :=
  match parseReference t.hostOK ref with
  | (_, some err) => some (Except.error (ClientError.reference err))
  | (parsedRef, none) =>
    let memoryStore := content.NewMemory
    let added := content.Store.Add t.digest memoryStore WASMLayerMediaType data
    let wasmExeDescriptor := added.1
    let metaBytes := t.marshal meta
    let addedMeta := content.Store.Add t.digest added.2 WASMMetadataMediaType metaBytes
    let metaDescriptor := addedMeta.1
    match generateOCIAnnotations meta test t.now with
    | none => none
    | some ociAnnotations =>
      let generated := content.GenerateManifest t.digest t.encode metaDescriptor
        ociAnnotations [wasmExeDescriptor]
      let stored := addedMeta.2.StoreManifest parsedRef.String generated.2 generated.1
      match t.resolver with
      | some err => some (Except.error (ClientError.resolver err))
      | none =>
        match t.copy stored parsedRef.String with
        | CopyOutcome.panics => none
        | CopyOutcome.fails message => some (Except.error (ClientError.copy message))
        | CopyOutcome.done =>
          some (Except.ok
            { Manifest := ⟨generated.2.Digest, generated.2.Size⟩
              Config := ⟨metaDescriptor.Digest, metaDescriptor.Size⟩
              WASMExt := ⟨wasmExeDescriptor.Digest, wasmExeDescriptor.Size⟩
              Meta := meta
              Ref := parsedRef.String })

/-! ## Specification predicates -/

/-- A tag satisfies a constraint when `semver.NewVersion` accepts it and the constraint
checks its version. -/
def Satisfies (c : semver.Constraints) (t : GoString) : Prop :=
  ∃ w, semver.NewVersion t = some w ∧ c.Check w = true

/-- The tag `t` is the earliest satisfying tag of `tags`: it stands in the list, satisfies
the constraint, and no tag before it does. -/
def EarliestSatisfying (c : semver.Constraints) (tags : List GoString) (t : GoString) : Prop :=
  ∃ front back, tags = front ++ t :: back ∧ Satisfies c t ∧ ∀ u ∈ front, ¬ Satisfies c u

/-- A decimal numeral in shortest form: digits only, not empty, no leading zero unless it is
the single digit `0`. -/
def Canonical (s : GoString) : Prop :=
  s ≠ [] ∧ (∀ c ∈ s, strconv.isDigit c = true) ∧ (1 < s.length → s.head? ≠ some '0')

/-- A pre-release identifier of the Semantic Versioning 2.0.0 grammar: not empty, made of
`[0-9A-Za-z-]`, and without leading zero when it is numeric. -/
def IsPrereleaseIdentifier (p : GoString) : Prop :=
  p ≠ [] ∧ (∀ c ∈ p, semver.isIdentChar c = true) ∧
    ((∀ c ∈ p, strconv.isDigit c = true) → 1 < p.length → p.head? ≠ some '0')

/-- A build identifier of the Semantic Versioning 2.0.0 grammar: not empty, made of
`[0-9A-Za-z-]`. -/
def IsBuildIdentifier (p : GoString) : Prop :=
  p ≠ [] ∧ ∀ c ∈ p, semver.isIdentChar c = true

/-- The text `major.minor.patch[-pre][+build]` of the Semantic Versioning 2.0.0 grammar,
from its three numerals and its dot-separated identifier lists. -/
def renderSemVer (a b c : GoString) (pre build : List GoString) : GoString :=
  a ++ '.' :: (b ++ '.' :: (c ++
    ((if pre = [] then [] else '-' :: List.intercalate ['.'] pre) ++
      (if build = [] then [] else '+' :: List.intercalate ['.'] build))))

/-- A valid semantic version in the sense of Semantic Versioning 2.0.0 whose three numbers
satisfy `limit`. -/
def IsSemVerWith (limit : Nat → Prop) (s : GoString) : Prop :=
  ∃ (a b c : GoString) (pre build : List GoString),
    Canonical a ∧ Canonical b ∧ Canonical c ∧
    (∀ p ∈ pre, IsPrereleaseIdentifier p) ∧ (∀ p ∈ build, IsBuildIdentifier p) ∧
    limit (strconv.decimalValue a) ∧ limit (strconv.decimalValue b) ∧
    limit (strconv.decimalValue c) ∧ s = renderSemVer a b c pre build

/-- A valid semantic version in the sense of Semantic Versioning 2.0.0. -/
def IsSemVer (s : GoString) : Prop := IsSemVerWith (fun _ => True) s

/-- A valid semantic version whose major, minor and patch numbers are below `2 ^ 64`. -/
def IsSemVer64 (s : GoString) : Prop := IsSemVerWith (fun n => n < 2 ^ 64) s

/-! ## Order predicates -/

/-- The class of a pre-release identifier in `comparePrePart`: empty, numeric, other. -/
def partClass (p : GoString) : Nat :=
  if p = [] then 0 else if (strconv.ParseUint p).isSome then 1 else 2

/-- The number of a numeric pre-release identifier. -/
def partValue (p : GoString) : Nat := (strconv.ParseUint p).getD 0

/-- A pre-release identifier as `validatePrerelease` leaves it: when it reads as a number it
has no leading zero. -/
def PartOK (p : GoString) : Prop := ∀ n, strconv.ParseUint p = some n → Canonical p

/-- A three-way comparison that is a total preorder on the set `S`: swapping the arguments
negates the result, and `0 ≤ cmp x y` (`x` not below `y`) is transitive. -/
def IsCmp {α : Type} (S : α → Prop) (cmp : α → α → Int) : Prop :=
  (∀ x y, S x → S y → cmp x y = - cmp y x) ∧
    (∀ x y z, S x → S y → S z → 0 ≤ cmp x y → 0 ≤ cmp y z → 0 ≤ cmp x z)

/-- A version as `StrictNewVersion` leaves it: every identifier of its pre-release that reads
as a number has no leading zero. -/
def VersionOK (v : semver.Version) : Prop := ∀ p ∈ strings.Split v.pre ".".toList, PartOK p

/-- The last step of `Version.Compare`, on the pre-release strings. -/
def comparePre (v o : semver.Version) : Int :=
  if v.pre = [] && o.pre = [] then 0
  else if v.pre = [] then 1
  else if o.pre = [] then -1
  else semver.comparePrerelease v.pre o.pre

/-- A character the lenient version expression can read: `[0-9A-Za-z-]`, `.` or `+`. -/
def IsVersionChar (c : Char) : Prop := semver.isIdentChar c = true ∨ c = '.' ∨ c = '+'

/-- A string in which every character is printable for Go's `unicode.IsPrint`. -/
def IsSanitized (printTable : Char → Bool) (s : GoString) : Prop :=
  ∀ c ∈ s, unicode.IsPrint printTable c = true

/-- A metadata with the three required fields only. -/
def minimalMetadata : Metadata :=
  { Name := "filter".toList, Home := [], Sources := [], Version := "1.0.0".toList,
    Description := [], Keywords := [], Maintainers := [], Icon := [],
    APIVersion := "v1".toList, Condition := [], Tags := [], Deprecated := false,
    Annotations := [], Type_ := [] }

/-- A metadata with a control character in its name, a tab in its description, and one
maintainer. -/
def untidyMetadata : Metadata :=
  { minimalMetadata with
    Name := "fil".toList ++ [Char.ofNat 7] ++ "ter".toList
    Description := "a".toList ++ [Char.ofNat 9] ++ "b".toList
    Sources := ["s".toList ++ [Char.ofNat 0]]
    Maintainers := [some ⟨"Al".toList ++ [Char.ofNat 1], "a@x.com".toList, []⟩] }

/-- What `Validate` makes of `untidyMetadata`. -/
def tidiedMetadata : Metadata :=
  { minimalMetadata with
    Description := "a b".toList
    Sources := ["s".toList]
    Maintainers := [some ⟨"Al".toList, "a@x.com".toList, []⟩] }

/-- A metadata whose API version, type and annotation value each hold the control
character U+0000. -/
def controlCharMetadata : Metadata :=
  { minimalMetadata with
    APIVersion := "v1".toList ++ [Char.ofNat 0]
    Type_ := "authn".toList ++ [Char.ofNat 0]
    Annotations := [("k".toList, "x".toList ++ [Char.ofNat 0])] }

/-- A value `addToMap` skips: nothing is left of it once white space is trimmed. -/
def IsBlank (s : GoString) : Prop := strings.TrimSpace unicode.IsSpace s = []

instance (s : GoString) : Decidable (IsBlank s) :=
  inferInstanceAs (Decidable (strings.TrimSpace unicode.IsSpace s = []))

/-- An entry of the authors annotation in the words of the specification: the name,
followed by the email in parentheses when the email is not empty. -/
def authorEntry (maintainer : Maintainer) : GoString :=
  maintainer.Name ++
    (if maintainer.Email = [] then [] else " (".toList ++ maintainer.Email ++ ")".toList)

/-- The authors annotation in the words of the specification: the entries joined with a
comma and a space. -/
def authorsText (maintainers : List Maintainer) : GoString :=
  List.intercalate ", ".toList (maintainers.map authorEntry)

/-- A metadata whose own annotations try to set the title and the version. -/
def overridingMetadata : Metadata :=
  { minimalMetadata with
    Annotations := [(ocispec.AnnotationTitle, "other".toList),
      (ocispec.AnnotationVersion, "9.9.9".toList), ("k".toList, "v".toList)] }

/-- The metadata of the example with the maintainers Alice and Bob. -/
def aliceBobMetadata : Metadata :=
  { minimalMetadata with
    Maintainers := [some ⟨"Alice".toList, [], []⟩,
      some ⟨"Bob".toList, "bob@x.com".toList, []⟩] }

/-- A manifest descriptor of neither of the two media types. -/
def manifestDescriptor : ocispec.Descriptor :=
  ⟨"application/vnd.oci.image.manifest.v1+json".toList, "sha256:m".toList, 1⟩

/-- A descriptor of the config media type. -/
def configDescriptor : ocispec.Descriptor := ⟨WASMMetadataMediaType, "sha256:c".toList, 2⟩

/-- A descriptor of the layer media type. -/
def layerDescriptor : ocispec.Descriptor := ⟨WASMLayerMediaType, "sha256:w".toList, 3⟩

/-- A second descriptor of the layer media type. -/
def secondLayerDescriptor : ocispec.Descriptor := ⟨WASMLayerMediaType, "sha256:x".toList, 4⟩

/-- A second descriptor of the config media type. -/
def secondConfigDescriptor : ocispec.Descriptor :=
  ⟨WASMMetadataMediaType, "sha256:y".toList, 5⟩

/-- The descriptor `d` is the last one of the media type in the list. -/
def IsLastOfType (mediaType : GoString) (descriptors : List ocispec.Descriptor)
    (d : ocispec.Descriptor) : Prop :=
  ∃ front back, descriptors = front ++ d :: back ∧ d.MediaType = mediaType ∧
    ∀ x ∈ back, x.MediaType ≠ mediaType

/-- A world in which no system call fails for a reason of its own, with a buffer of two
bytes. -/
def calmWorld : os.World :=
  { tempDir := "/tmp".toList, random := "42".toList, createMode := 438, bufSize := 2,
    fault := fun _ => none, stops := 0, copyDir := fun e _ _ => (e, none) }

/-- The calm world, except that `os.Rename` answers with the cross-device link error. -/
def crossDeviceWorld : os.World :=
  { calmWorld with
    fault := fun site =>
      if site = os.Site.rename then
        some (GoError.linkError "rename".toList "/tmp/f42".toList "f".toList syscall.EXDEV)
      else none }

/-- A file system that holds the file `f` with three bytes and the mode `0o600`. -/
def oneFile : os.FS := fun p => if p = "f".toList then some (os.Node.file [1, 2, 3] 384) else none

/-- Every state of the execution shows the entry `v` at `path`. -/
def os.Exec.Keeps (e : os.Exec) (path : GoString) (v : Option os.Node) : Prop :=
  ∀ s ∈ e.states, s path = v

/-- A registry that answers every repository with the tags `1.0.0`, `latest`, `1.2.0`. -/
def threeTags : oras.Reference → List GoString × Option GoString :=
  fun _ => (["1.0.0".toList, "latest".toList, "1.2.0".toList], none)

/-- What `url.Parse` makes of `oci://h/org/r`. -/
def parsedExample : url.URL := ⟨"oci".toList, "h".toList, "/org/r".toList⟩

/-- The tag `t` is a newest match of the constraint among `tags`: it is listed, it satisfies
the constraint, and its version is not below the version of any listed tag that satisfies
the constraint. -/
def IsNewestMatch (c : semver.Constraints) (tags : List GoString) (t : GoString) : Prop :=
  t ∈ tags ∧ Satisfies c t ∧
    ∀ u ∈ tags, Satisfies c u → ∀ wt wu, semver.NewVersion t = some wt →
      semver.NewVersion u = some wu → 0 ≤ wt.Compare wu

/-- The constraint `GetTagMatchingVersionOrConstraint` checks the tags with
(`utils.go:47-49, 61`): the constraint `*` for the empty request, else what
`semver.NewConstraint` makes of the request; `none` when that fails. -/
def requestConstraint (request : GoString) : Option semver.Constraints :=
  if request = [] then some wildcardConstraint else semver.NewConstraint request

/-- The constraint of the fallback version `>0.0.0-0` of `getVersionFromRef`. -/
def fallbackConstraint : semver.Constraints :=
  (semver.NewConstraint ">0.0.0-0".toList).get (by decide)

/-- A transport whose copy always ends with the nil error: every host passes, the digest of
a blob is its bytes in decimal, every manifest is coded as the byte `1` and every metadata as
the bytes `2 2`. -/
def toyTransport : Transport :=
  { hostOK := fun _ => true
    digest := fun b => (b.map strconv.FormatUint).flatten
    encode := fun _ => [1]
    marshal := fun _ => [2, 2]
    resolver := none
    now := "2024-01-01T00:00:00Z".toList
    copy := fun _ _ => CopyOutcome.done }

/-- A metadata record whose only maintainer is the nil pointer. -/
def nilMaintainerMetadata : Metadata :=
  { minimalMetadata with Maintainers := [none] }

/-! # Theorems -/

open semver

/-! ## Helper lemmas: the two loops of `GetTagMatchingVersionOrConstraint` -/

theorem exactMatch_eq_some_iff (versionString : GoString) (tags : List GoString) (t : GoString) :
    exactMatch versionString tags = some t ↔ t = versionString ∧ versionString ∈ tags := by
  induction tags with
  | nil => simp [exactMatch]
  | cons v rest ih =>
    unfold exactMatch
    by_cases h : versionString = v
    · subst h
      simp [eq_comm]
    · simp only [h, if_false, ih, List.mem_cons, false_or]

theorem exactMatch_eq_none_iff (versionString : GoString) (tags : List GoString) :
    exactMatch versionString tags = none ↔ versionString ∉ tags := by
  induction tags with
  | nil => simp [exactMatch]
  | cons v rest ih =>
    unfold exactMatch
    by_cases h : versionString = v
    · subst h
      simp
    · simp only [h, if_false, ih, List.mem_cons, false_or]

theorem constraintMatch_eq_none_iff (c : Constraints) (tags : List GoString) :
    constraintMatch c tags = none ↔ ∀ u ∈ tags, ¬ Satisfies c u := by
  induction tags with
  | nil => simp [constraintMatch]
  | cons v rest ih =>
    unfold constraintMatch
    cases hv : NewVersion v with
    | none =>
      simp only [ih, List.mem_cons, forall_eq_or_imp]
      constructor
      · intro h
        exact ⟨fun ⟨w, hw, _⟩ => by simp [hv] at hw, h⟩
      · exact fun h => h.2
    | some test =>
      show (if c.Check test = true then some v else constraintMatch c rest) = none ↔ _
      cases hc : c.Check test with
      | true =>
        simp only [if_true, List.mem_cons, forall_eq_or_imp]
        constructor
        · intro h; cases h
        · intro h; exact absurd ⟨test, hv, hc⟩ h.1
      | false =>
        simp only [Bool.false_eq_true, if_false, ih, List.mem_cons, forall_eq_or_imp]
        constructor
        · intro h
          refine ⟨?_, h⟩
          rintro ⟨w, hw, hcw⟩
          rw [hv] at hw
          cases hw
          rw [hc] at hcw
          cases hcw
        · exact fun h => h.2

theorem constraintMatch_eq_some_iff (c : Constraints) (tags : List GoString) (t : GoString) :
    constraintMatch c tags = some t ↔ EarliestSatisfying c tags t := by
  induction tags with
  | nil =>
    simp only [constraintMatch]
    constructor
    · intro h; cases h
    · rintro ⟨front, back, h, _⟩
      simp at h
  | cons v rest ih =>
    have key : ¬ Satisfies c v → (EarliestSatisfying c (v :: rest) t ↔ EarliestSatisfying c rest t) := by
      intro hns
      constructor
      · rintro ⟨front, back, h, hs, hf⟩
        cases front with
        | nil =>
          simp only [List.nil_append, List.cons.injEq] at h
          rw [h.1] at hns
          exact absurd hs hns
        | cons a front =>
          simp only [List.cons_append, List.cons.injEq] at h
          exact ⟨front, back, h.2, hs, fun u hu => hf u (List.mem_cons_of_mem _ hu)⟩
      · rintro ⟨front, back, h, hs, hf⟩
        refine ⟨v :: front, back, by simp [h], hs, ?_⟩
        intro u hu
        rcases List.mem_cons.1 hu with rfl | hu
        · exact hns
        · exact hf u hu
    unfold constraintMatch
    cases hv : NewVersion v with
    | none =>
      have hns : ¬ Satisfies c v := fun ⟨w, hw, _⟩ => by simp [hv] at hw
      simp only [ih, key hns]
    | some test =>
      show (if c.Check test = true then some v else constraintMatch c rest) = some t ↔ _
      cases hc : c.Check test with
      | true =>
        simp only [if_true, Option.some.injEq]
        constructor
        · rintro rfl
          exact ⟨[], rest, rfl, ⟨test, hv, hc⟩, by simp⟩
        · rintro ⟨front, back, h, hs, hf⟩
          cases front with
          | nil =>
            simp only [List.nil_append, List.cons.injEq] at h
            exact h.1
          | cons a front =>
            simp only [List.cons_append, List.cons.injEq] at h
            exact absurd ⟨test, h.1 ▸ hv, hc⟩ (hf a (List.mem_cons_self _ _))
      | false =>
        have hns : ¬ Satisfies c v := by
          rintro ⟨w, hw, hcw⟩
          rw [hv] at hw
          cases hw
          rw [hc] at hcw
          cases hcw
        simp only [Bool.false_eq_true, if_false, ih, key hns]

theorem matchOrFail_eq_ok_iff (c : Constraints) (tags : List GoString) (vs t : GoString) :
    matchOrFail c tags vs = (t, none) ↔ EarliestSatisfying c tags t := by
  unfold matchOrFail
  cases h : constraintMatch c tags with
  | none =>
    simp only [Prod.mk.injEq, reduceCtorEq, and_false, false_iff]
    rw [← constraintMatch_eq_some_iff, h]
    simp
  | some v =>
    simp only [Prod.mk.injEq, and_true]
    rw [← constraintMatch_eq_some_iff, h]
    simp

theorem matchOrFail_of_none (c : Constraints) (tags : List GoString) (vs : GoString)
    (h : ∀ u ∈ tags, ¬ Satisfies c u) :
    matchOrFail c tags vs = ([], some (Error.noMatchingVersion vs)) := by
  unfold matchOrFail
  rw [(constraintMatch_eq_none_iff c tags).2 h]

theorem wildcardConstraint_eq :
    wildcardConstraint =
      ⟨[[⟨⟨0, 0, 0, [], [], "0.0.0".toList⟩, "*".toList, [], false, false, true⟩]]⟩ := by
  decide

theorem compareSegment_zero_nonneg (n : Nat) : 0 ≤ compareSegment n 0 := by
  unfold compareSegment
  split_ifs <;> omega

theorem wildcardConstraint_check (w : Version) :
    wildcardConstraint.Check w = decide (w.pre = []) := by
  rw [wildcardConstraint_eq]
  by_cases hp : w.pre = []
  · have hlt : ¬ (w.Compare ⟨0, 0, 0, [], [], "0.0.0".toList⟩ < 0) := by
      unfold Version.Compare
      have h1 := compareSegment_zero_nonneg w.major
      have h2 := compareSegment_zero_nonneg w.minor
      have h3 := compareSegment_zero_nonneg w.patch
      simp only [hp]
      split_ifs <;> simp_all
    simp [Constraints.Check, constraint.check, constraintTildeOrEqual, constraintTilde,
      prereleaseBlocked, Version.LessThan, hp]
    simpa using not_lt.1 hlt
  · simp [Constraints.Check, constraint.check, constraintTildeOrEqual, prereleaseBlocked, hp]

/-! ## Claims on `GetTagMatchingVersionOrConstraint` -/

/-- C1: for every tag list and every non-empty version string that occurs in the list,
`GetTagMatchingVersionOrConstraint` returns that string with a nil error, whatever its
syntax. -/
theorem C1_exact_match_wins (tags : List GoString) (v : GoString)
    (hne : v ≠ []) (hmem : v ∈ tags) :
    GetTagMatchingVersionOrConstraint tags v = (v, none) := by
  unfold GetTagMatchingVersionOrConstraint
  rw [if_neg hne, (exactMatch_eq_some_iff v tags v).2 ⟨rfl, hmem⟩]

/-- Witness of C1 on a tag that is no semantic version. -/
theorem C1_exact_match_wins_witness :
    "latest".toList ≠ [] ∧ "latest".toList ∈ ["1.0.0".toList, "latest".toList] ∧
      GetTagMatchingVersionOrConstraint ["1.0.0".toList, "latest".toList] "latest".toList =
        ("latest".toList, none) :=
  ⟨by decide, by decide,
    C1_exact_match_wins ["1.0.0".toList, "latest".toList] "latest".toList
      (by decide) (by decide)⟩

/-- C2: for a non-empty request that equals no tag and parses as the constraint `c`, the
call succeeds with `t` exactly when `t` stands in the list, parses as a version satisfying
`c`, and no tag before it parses as a version satisfying `c`; and it does succeed as soon as
some tag of the list satisfies `c`. -/
theorem C2_earliest_satisfying_tag (tags : List GoString) (request : GoString)
    (c : Constraints) (hne : request ≠ []) (hno : request ∉ tags)
    (hc : NewConstraint request = some c) :
    (∀ t, GetTagMatchingVersionOrConstraint tags request = (t, none) ↔
      ∃ front back, tags = front ++ t :: back ∧
        (∃ w, NewVersion t = some w ∧ c.Check w = true) ∧
        ∀ u ∈ front, ¬ ∃ w, NewVersion u = some w ∧ c.Check w = true) ∧
    ((∃ u ∈ tags, ∃ w, NewVersion u = some w ∧ c.Check w = true) →
      ∃ t, GetTagMatchingVersionOrConstraint tags request = (t, none)) := by
  have hrun : GetTagMatchingVersionOrConstraint tags request = matchOrFail c tags request := by
    unfold GetTagMatchingVersionOrConstraint
    rw [if_neg hne, (exactMatch_eq_none_iff request tags).2 hno, hc]
  rw [hrun]
  refine ⟨fun t => matchOrFail_eq_ok_iff c tags request t, ?_⟩
  rintro ⟨u, hu, hsat⟩
  cases hm : constraintMatch c tags with
  | none => exact absurd hsat ((constraintMatch_eq_none_iff c tags).1 hm u hu)
  | some t => exact ⟨t, by unfold matchOrFail; rw [hm]⟩

/-- Witness of C2: tags `0.9.0, 1.0.0, 1.2.0` and request `^1.0.0`. -/
theorem C2_earliest_satisfying_tag_witness :
    ∃ c, NewConstraint "^1.0.0".toList = some c ∧
      (∀ t, GetTagMatchingVersionOrConstraint
          ["0.9.0".toList, "1.0.0".toList, "1.2.0".toList] "^1.0.0".toList = (t, none) ↔
        ∃ front back, ["0.9.0".toList, "1.0.0".toList, "1.2.0".toList] = front ++ t :: back ∧
          (∃ w, NewVersion t = some w ∧ c.Check w = true) ∧
          ∀ u ∈ front, ¬ ∃ w, NewVersion u = some w ∧ c.Check w = true) ∧
      ((∃ u ∈ ["0.9.0".toList, "1.0.0".toList, "1.2.0".toList],
          ∃ w, NewVersion u = some w ∧ c.Check w = true) →
        ∃ t, GetTagMatchingVersionOrConstraint
          ["0.9.0".toList, "1.0.0".toList, "1.2.0".toList] "^1.0.0".toList = (t, none)) := by
  have hc : (NewConstraint "^1.0.0".toList).isSome = true := by decide
  obtain ⟨c, hc⟩ := Option.isSome_iff_exists.1 hc
  exact ⟨c, hc, C2_earliest_satisfying_tag ["0.9.0".toList, "1.0.0".toList, "1.2.0".toList]
    "^1.0.0".toList c (by decide) (by decide) hc⟩

/-- C3, as the code runs: with tags `1.0.0, 1.2.0, 2.0.0` in that order and request
`^1.0.0` the result is `1.0.0`, the first tag of the list that satisfies the constraint. -/
theorem C3_example_returns_first_match :
    GetTagMatchingVersionOrConstraint ["1.0.0".toList, "1.2.0".toList, "2.0.0".toList]
      "^1.0.0".toList = ("1.0.0".toList, none) := by
  decide

/-- C3, the claim as written fails: the result for tags `1.0.0, 1.2.0, 2.0.0` and request
`^1.0.0` is not `1.2.0`. -/
theorem C3_example_not_1_2_0 :
    (GetTagMatchingVersionOrConstraint ["1.0.0".toList, "1.2.0".toList, "2.0.0".toList]
      "^1.0.0".toList).1 ≠ "1.2.0".toList := by
  decide

/-- C4, as the code runs: a returned tag that differs from the request is accepted by the
lenient parser `semver.NewVersion`. -/
theorem C4_returned_tag_parses_leniently (tags : List GoString) (request t : GoString)
    (hret : GetTagMatchingVersionOrConstraint tags request = (t, none)) (hneq : t ≠ request) :
    ∃ w, NewVersion t = some w := by
  have hsat : ∀ c, matchOrFail c tags request = (t, none) → ∃ w, NewVersion t = some w := by
    intro c h
    obtain ⟨_, _, _, ⟨w, hw, _⟩, _⟩ := (matchOrFail_eq_ok_iff c tags request t).1 h
    exact ⟨w, hw⟩
  unfold GetTagMatchingVersionOrConstraint at hret
  split_ifs at hret with h0
  · exact hsat _ hret
  · cases hm : exactMatch request tags with
    | some v =>
      rw [hm] at hret
      have hv := ((exactMatch_eq_some_iff request tags v).1 hm).1
      simp only [Prod.mk.injEq, and_true] at hret
      exact absurd (hret ▸ hv) hneq
    | none =>
      rw [hm] at hret
      cases hc : NewConstraint request with
      | none =>
        rw [hc] at hret
        simp at hret
      | some c =>
        rw [hc] at hret
        exact hsat c hret

/-- Witness of C4 on the tag `v1.2.0`. -/
theorem C4_returned_tag_parses_leniently_witness :
    ∃ w, NewVersion "v1.2.0".toList = some w :=
  C4_returned_tag_parses_leniently ["v1.2.0".toList] [] "v1.2.0".toList (by decide) (by decide)

/-- C4, the claim as written fails: for the tag list `v1.2.0` and the empty request the
returned tag `v1.2.0` differs from the request and is no strict semantic version. -/
theorem C4_returned_tag_not_strict :
    GetTagMatchingVersionOrConstraint ["v1.2.0".toList] [] = ("v1.2.0".toList, none) ∧
      "v1.2.0".toList ≠ ([] : GoString) ∧ StrictNewVersion "v1.2.0".toList = none := by
  decide

/-- C5: when no tag equals the request and no tag satisfies the constraint of the request
(the wildcard for the empty request), the call returns the empty string and a non-nil
error; for the empty tag list it does so for every request. -/
theorem C5_error_when_nothing_matches :
    (∀ (tags : List GoString) (request : GoString),
      (∀ t ∈ tags, t ≠ request) →
      (∀ c, (if request = [] then some wildcardConstraint else NewConstraint request) = some c →
        ∀ t ∈ tags, ¬ ∃ w, NewVersion t = some w ∧ c.Check w = true) →
      (GetTagMatchingVersionOrConstraint tags request).1 = [] ∧
        (GetTagMatchingVersionOrConstraint tags request).2 ≠ none) ∧
    (∀ request : GoString,
      (GetTagMatchingVersionOrConstraint [] request).1 = [] ∧
        (GetTagMatchingVersionOrConstraint [] request).2 ≠ none) := by
  have main : ∀ (tags : List GoString) (request : GoString),
      (∀ t ∈ tags, t ≠ request) →
      (∀ c, (if request = [] then some wildcardConstraint else NewConstraint request) = some c →
        ∀ t ∈ tags, ¬ ∃ w, NewVersion t = some w ∧ c.Check w = true) →
      (GetTagMatchingVersionOrConstraint tags request).1 = [] ∧
        (GetTagMatchingVersionOrConstraint tags request).2 ≠ none := by
    intro tags request hno hsat
    unfold GetTagMatchingVersionOrConstraint
    by_cases h0 : request = []
    · rw [if_pos h0, matchOrFail_of_none _ _ _ (hsat wildcardConstraint (by rw [if_pos h0]))]
      simp
    · rw [if_neg h0,
        (exactMatch_eq_none_iff request tags).2 (fun hm => hno request hm rfl)]
      cases hc : NewConstraint request with
      | none => simp
      | some c =>
        show (matchOrFail c tags request).1 = [] ∧ (matchOrFail c tags request).2 ≠ none
        rw [matchOrFail_of_none _ _ _ (hsat c (by rw [if_neg h0, hc]))]
        simp
  refine ⟨main, fun request => main [] request ?_ ?_⟩
  · intro t ht; cases ht
  · intro c _ t ht; cases ht

/-- Witness of C5: the tag `2.0.0` does not satisfy `^1.0.0`. -/
theorem C5_error_when_nothing_matches_witness :
    (GetTagMatchingVersionOrConstraint ["2.0.0".toList] "^1.0.0".toList).1 = [] ∧
      (GetTagMatchingVersionOrConstraint ["2.0.0".toList] "^1.0.0".toList).2 ≠ none := by
  refine C5_error_when_nothing_matches.1 ["2.0.0".toList] "^1.0.0".toList (by decide) ?_
  intro c hc t ht
  have key : ((NewConstraint "^1.0.0".toList).all fun c =>
      (NewVersion "2.0.0".toList).all fun w => !c.Check w) = true := by decide
  rw [if_neg (by decide)] at hc
  rw [hc] at key
  rw [List.mem_singleton.1 ht]
  rintro ⟨w, hw, hcw⟩
  rw [hw] at key
  simp [hcw] at key

/-- C6, as the code runs: with the empty request the call succeeds with `t` exactly when
`t` is the first tag of the list that `semver.NewVersion` accepts as a version without a
pre-release part, and it fails exactly when the list has no such tag. -/
theorem C6_empty_request_first_release (tags : List GoString) :
    (∀ t, GetTagMatchingVersionOrConstraint tags [] = (t, none) ↔
      ∃ front back, tags = front ++ t :: back ∧
        (∃ w, NewVersion t = some w ∧ w.pre = []) ∧
        ∀ u ∈ front, ¬ ∃ w, NewVersion u = some w ∧ w.pre = []) ∧
    (GetTagMatchingVersionOrConstraint tags [] = ([], some (Error.noMatchingVersion [])) ↔
      ∀ u ∈ tags, ¬ ∃ w, NewVersion u = some w ∧ w.pre = []) := by
  have hsat : ∀ u, Satisfies wildcardConstraint u ↔ ∃ w, NewVersion u = some w ∧ w.pre = [] := by
    intro u
    unfold Satisfies
    simp only [wildcardConstraint_check, decide_eq_true_eq]
  have hrun : GetTagMatchingVersionOrConstraint tags [] =
      matchOrFail wildcardConstraint tags [] := by
    unfold GetTagMatchingVersionOrConstraint
    rw [if_pos rfl]
  rw [hrun]
  constructor
  · intro t
    rw [matchOrFail_eq_ok_iff]
    unfold EarliestSatisfying
    simp only [hsat]
  · unfold matchOrFail
    cases hm : constraintMatch wildcardConstraint tags with
    | none =>
      have := (constraintMatch_eq_none_iff _ _).1 hm
      simp only [hsat] at this
      simpa using this
    | some v =>
      have := (constraintMatch_eq_some_iff _ _ _).1 hm
      obtain ⟨front, back, hl, hs, _⟩ := this
      simp only [Prod.mk.injEq, reduceCtorEq, and_false, false_iff]
      intro hall
      exact hall v (by rw [hl]; simp) ((hsat v).1 hs)

/-- C6, the claim as written fails: the only tag `1.0.0-alpha` parses as a semantic
version, yet the call with the empty request fails. -/
theorem C6_prerelease_not_admitted :
    (NewVersion "1.0.0-alpha".toList).isSome = true ∧
      GetTagMatchingVersionOrConstraint ["1.0.0-alpha".toList] [] =
        ([], some (Error.noMatchingVersion [])) := by
  decide

/-! ## Helper lemmas: `strings` on a single-character separator -/

theorem isPrefixOf_append_sep (sep : Char) (tag q r : GoString) (hsep : sep ∉ tag) :
    tag.isPrefixOf (q ++ sep :: r) = tag.isPrefixOf q := by
  induction tag generalizing q with
  | nil => simp [List.isPrefixOf]
  | cons t ts ih =>
    have ht : t ≠ sep := fun h => hsep (by simp [h])
    have hts : sep ∉ ts := fun h => hsep (List.mem_cons_of_mem _ h)
    cases q with
    | nil => simp [List.isPrefixOf, ht]
    | cons a q => simp [List.isPrefixOf, ih q hts]

theorem length_le_of_isPrefixOf (tag q : GoString) (h : tag.isPrefixOf q = true) :
    tag.length ≤ q.length :=
  (List.isPrefixOf_iff_prefix.1 h).length_le

theorem replaceGo_skip_all (old new : GoString) (s : GoString) (skip : Nat)
    (h : s.length ≤ skip) : strings.replaceGo old new skip s = [] := by
  induction s generalizing skip with
  | nil => simp [strings.replaceGo]
  | cons c cs ih =>
    cases skip with
    | zero => simp at h
    | succ k =>
      simp only [strings.replaceGo]
      exact ih k (by simpa using h)

theorem replaceGo_self (tag new : GoString) (h : tag ≠ []) :
    strings.replaceGo tag new 0 tag = new := by
  cases tag with
  | nil => exact absurd rfl h
  | cons c cs =>
    have hp : (c :: cs).isPrefixOf (c :: cs) = true := List.isPrefixOf_iff_prefix.2 (List.prefix_refl _)
    simp only [strings.replaceGo, hp, if_true]
    rw [replaceGo_skip_all _ _ _ _ (by simp)]
    simp

theorem replaceGo_append_sep (sep : Char) (tag new : GoString) (hne : tag ≠ [])
    (hsep : sep ∉ tag) (p : GoString) (skip : Nat) (hskip : skip ≤ p.length) :
    strings.replaceGo tag new skip (p ++ sep :: tag) =
      strings.replaceGo tag new skip p ++ sep :: new := by
  induction p generalizing skip with
  | nil =>
    have h0 : skip = 0 := by simpa using hskip
    subst h0
    have hp : tag.isPrefixOf (sep :: tag) = false := by
      have := isPrefixOf_append_sep sep tag [] tag hsep
      simp only [List.nil_append] at this
      rw [this]
      cases tag with
      | nil => exact absurd rfl hne
      | cons t ts => simp [List.isPrefixOf]
    simp only [List.nil_append, strings.replaceGo, hp, Bool.false_eq_true, if_false,
      replaceGo_self tag new hne]
  | cons c p ih =>
    cases skip with
    | succ k =>
      simp only [List.cons_append, strings.replaceGo]
      exact ih k (by simpa using hskip)
    | zero =>
      have hpre := isPrefixOf_append_sep sep tag (c :: p) tag hsep
      simp only [List.cons_append] at hpre
      simp only [List.cons_append, strings.replaceGo, hpre, List.append_eq]
      by_cases hm : tag.isPrefixOf (c :: p) = true
      · have hlen := length_le_of_isPrefixOf _ _ hm
        simp only [hm, if_true]
        rw [ih (tag.length - 1) (by simp at hlen; omega)]
        simp
      · simp only [hm, if_false]
        rw [ih 0 (Nat.zero_le _)]
        simp

theorem replaceGo_single (a b : Char) (s : GoString) :
    strings.replaceGo [a] [b] 0 s = s.map (fun c => if c = a then b else c) := by
  induction s with
  | nil => simp [strings.replaceGo]
  | cons c cs ih =>
    by_cases h : c = a
    · subst h
      simp [strings.replaceGo, List.isPrefixOf, ih]
    · have h2 : ¬ a = c := fun e => h e.symm
      simp [strings.replaceGo, List.isPrefixOf, ih, h, h2]

theorem ReplaceAll_single (a b : Char) (s : GoString) :
    strings.ReplaceAll s [a] [b] = s.map (fun c => if c = a then b else c) := by
  unfold strings.ReplaceAll
  rw [if_neg (by simp), replaceGo_single]

theorem consHead_length (c : Char) (l : List GoString) (h : l ≠ []) :
    (strings.consHead c l).length = l.length := by
  cases l with
  | nil => exact absurd rfl h
  | cons a l => rfl

theorem consHead_getLastD (c : Char) (l : List GoString) (h : 1 < l.length) :
    (strings.consHead c l).getLastD [] = l.getLastD [] := by
  match l, h with
  | a :: b :: l, _ => simp [strings.consHead, List.getLastD]

theorem splitGo_no_sep (sep : Char) (tag : GoString) (hsep : sep ∉ tag) (k : Nat) :
    strings.splitGo [sep] k 0 tag = [tag] := by
  induction tag generalizing k with
  | nil => simp [strings.splitGo]
  | cons t ts ih =>
    have ht : ¬ sep = t := fun h => hsep (by simp [h])
    have hts : sep ∉ ts := fun h => hsep (List.mem_cons_of_mem _ h)
    cases k with
    | zero => simp [strings.splitGo]
    | succ k =>
      simp only [strings.splitGo, List.isPrefixOf, beq_iff_eq, ht, Bool.and_true,
        Bool.false_eq_true, if_false, decide_False]
      rw [ih hts (k + 1)]
      rfl

theorem splitGo_last (sep : Char) (tag : GoString) (hsep : sep ∉ tag) (p : GoString) (k : Nat)
    (hk : (p ++ sep :: tag).length ≤ k) :
    1 < (strings.splitGo [sep] k 0 (p ++ sep :: tag)).length ∧
      (strings.splitGo [sep] k 0 (p ++ sep :: tag)).getLastD [] = tag := by
  induction p generalizing k with
  | nil =>
    cases k with
    | zero => simp at hk
    | succ k =>
      simp only [List.nil_append, strings.splitGo, List.isPrefixOf, beq_self_eq_true,
        Bool.and_true, if_true, List.length_singleton, Nat.sub_self]
      rw [splitGo_no_sep sep tag hsep k]
      simp [List.getLastD]
  | cons c p ih =>
    cases k with
    | zero => simp at hk
    | succ k =>
      have hk2 : (p ++ sep :: tag).length ≤ k := by simp at hk ⊢; omega
      simp only [List.cons_append, strings.splitGo, List.isPrefixOf, Bool.and_true,
        List.length_singleton, Nat.sub_self, List.append_eq]
      by_cases hc : sep = c
      · subst hc
        simp only [beq_self_eq_true, if_true]
        obtain ⟨h1, h2⟩ := ih k hk2
        constructor
        · simp; omega
        · match hs : strings.splitGo [sep] k 0 (p ++ sep :: tag), h1, h2 with
          | a :: b :: l, _, h2 =>
            simpa [List.getLastD] using h2
      · have hc2 : (sep == c) = false := by simpa using hc
        simp only [hc2, Bool.false_eq_true, if_false]
        obtain ⟨h1, h2⟩ := ih (k + 1) (by omega)
        have hne : strings.splitGo [sep] (k + 1) 0 (p ++ sep :: tag) ≠ [] := by
          intro h; rw [h] at h1; simp at h1
        rw [consHead_length _ _ hne, consHead_getLastD _ _ h1]
        exact ⟨h1, h2⟩

theorem Split_last (sep : Char) (tag : GoString) (hsep : sep ∉ tag) (p : GoString) :
    1 < (strings.Split (p ++ sep :: tag) [sep]).length ∧
      (strings.Split (p ++ sep :: tag) [sep]).getLastD [] = tag := by
  unfold strings.Split
  rw [if_neg (by simp)]
  exact splitGo_last sep tag hsep p _ (le_refl _)

theorem Contains_single (c : Char) (s : GoString) :
    strings.Contains s [c] = true ↔ c ∈ s := by
  induction s with
  | nil => simp [strings.Contains, List.isPrefixOf]
  | cons a s ih =>
    simp only [strings.Contains, List.isPrefixOf, Bool.and_true, Bool.or_eq_true, beq_iff_eq,
      ih, List.mem_cons]


/-! ## Claims on `parseReference` -/

theorem parseReferenceRaw_tagged (p tag : GoString) (hne : tag ≠ []) (hcolon : ':' ∉ tag)
    (hslash : '/' ∉ tag) :
    parseReferenceRaw (p ++ ':' :: tag) =
      strings.ReplaceAll (p ++ ':' :: tag) tag (strings.ReplaceAll tag ['+'] ['_']) := by
  have hsplit := Split_last ':' tag hcolon p
  have hcont : strings.Contains tag ['/'] = false := by
    rw [← Bool.not_eq_true, Contains_single]
    exact hslash
  have e1 : ":".toList = [':'] := rfl
  have e2 : "/".toList = ['/'] := rfl
  have e3 : "+".toList = ['+'] := rfl
  have e4 : "_".toList = ['_'] := rfl
  unfold parseReferenceRaw
  simp only [e1, e2, e3, e4, hsplit.1, hsplit.2, hcont, decide_True, Bool.not_false,
    Bool.and_self, if_true, ne_eq, hne, not_false_eq_true]

/-- C9: for a raw reference `p ++ ":" ++ tag` whose final segment `tag` is non-empty and has
neither `:` nor `/`, the string handed to the reference-grammar parser is the rewritten
front part, then `:`, then `tag` with every `+` replaced by `_`; that final segment has no
`+` and no `:`. -/
theorem C9_tag_plus_replaced (p tag : GoString) (hne : tag ≠ []) (hcolon : ':' ∉ tag)
    (hslash : '/' ∉ tag) :
    parseReferenceRaw (p ++ ':' :: tag) =
        strings.ReplaceAll p tag (tag.map (fun c => if c = '+' then '_' else c)) ++
          ':' :: tag.map (fun c => if c = '+' then '_' else c) ∧
      '+' ∉ tag.map (fun c => if c = '+' then '_' else c) ∧
      ':' ∉ tag.map (fun c => if c = '+' then '_' else c) := by
  refine ⟨?_, ?_, ?_⟩
  · rw [parseReferenceRaw_tagged p tag hne hcolon hslash, ReplaceAll_single]
    unfold strings.ReplaceAll
    rw [if_neg hne, if_neg hne]
    exact replaceGo_append_sep ':' tag _ hne hcolon p 0 (Nat.zero_le _)
  · intro h
    obtain ⟨c, _, hc⟩ := List.mem_map.1 h
    by_cases hp : c = '+'
    · rw [if_pos hp] at hc
      exact absurd hc (by decide)
    · rw [if_neg hp] at hc
      exact hp hc
  · intro h
    obtain ⟨c, hmem, hc⟩ := List.mem_map.1 h
    by_cases hp : c = '+'
    · rw [if_pos hp] at hc
      exact absurd hc (by decide)
    · rw [if_neg hp] at hc
      exact hcolon (hc ▸ hmem)

/-- Witness of C9 on `h/r:1.0.0+build5`. -/
theorem C9_tag_plus_replaced_witness :
    parseReferenceRaw ("h/r".toList ++ ':' :: "1.0.0+build5".toList) =
        strings.ReplaceAll "h/r".toList "1.0.0+build5".toList
            ("1.0.0+build5".toList.map (fun c => if c = '+' then '_' else c)) ++
          ':' :: "1.0.0+build5".toList.map (fun c => if c = '+' then '_' else c) ∧
      '+' ∉ "1.0.0+build5".toList.map (fun c => if c = '+' then '_' else c) ∧
      ':' ∉ "1.0.0+build5".toList.map (fun c => if c = '+' then '_' else c) :=
  C9_tag_plus_replaced "h/r".toList "1.0.0+build5".toList (by decide) (by decide) (by decide)

/-- The host:port form: a reference whose final `:`-segment contains `/` reaches the
reference-grammar parser unchanged. -/
theorem parseReferenceRaw_host_port (p seg : GoString) (hcolon : ':' ∉ seg)
    (hslash : '/' ∈ seg) : parseReferenceRaw (p ++ ':' :: seg) = p ++ ':' :: seg := by
  have hsplit := Split_last ':' seg hcolon p
  have hcont : strings.Contains seg ['/'] = true := (Contains_single '/' seg).2 hslash
  have e1 : ":".toList = [':'] := rfl
  have e2 : "/".toList = ['/'] := rfl
  unfold parseReferenceRaw
  simp only [e1, e2, hsplit.1, hsplit.2, hcont, decide_True, Bool.not_true, Bool.and_false,
    Bool.false_eq_true, if_false]

/-- C10, the code at the failing input `h/a+b:a+b`: every occurrence of the tag text is
rewritten, so the part before the final `:` reaches the parser as `h/a_b`, not `h/a+b`. -/
theorem C10_text_before_tag_rewritten :
    parseReferenceRaw ("h/a+b".toList ++ ':' :: "a+b".toList) =
        "h/a_b".toList ++ ':' :: "a_b".toList ∧
      "h/a_b".toList ≠ "h/a+b".toList := by
  decide


/-! ## Helper lemmas: decimal numerals -/

theorem formatUintGo_acc (fuel n : Nat) (acc : GoString) :
    strconv.formatUintGo fuel n acc = strconv.formatUintGo fuel n [] ++ acc := by
  induction fuel generalizing n acc with
  | zero => simp [strconv.formatUintGo]
  | succ fuel ih =>
    simp only [strconv.formatUintGo]
    split_ifs
    · simp
    · rw [ih (n / 10) (_ :: acc), ih (n / 10) [_]]
      simp

theorem formatUintGo_fuel (fuel1 fuel2 n : Nat) (acc : GoString) (h1 : n < fuel1)
    (h2 : n < fuel2) : strconv.formatUintGo fuel1 n acc = strconv.formatUintGo fuel2 n acc := by
  induction fuel1 generalizing fuel2 n acc with
  | zero => omega
  | succ fuel1 ih =>
    cases fuel2 with
    | zero => omega
    | succ fuel2 =>
      simp only [strconv.formatUintGo]
      split_ifs with h
      · rfl
      · have : n / 10 < n := Nat.div_lt_self (by omega) (by omega)
        exact ih fuel2 (n / 10) _ (by omega) (by omega)

theorem FormatUint_small (n : Nat) (h : n < 10) :
    strconv.FormatUint n = [strconv.digitChar n] := by
  unfold strconv.FormatUint
  simp only [strconv.formatUintGo]
  rw [if_pos (by omega), Nat.mod_eq_of_lt h]

theorem FormatUint_large (n : Nat) (h : 10 ≤ n) :
    strconv.FormatUint n = strconv.FormatUint (n / 10) ++ [strconv.digitChar (n % 10)] := by
  have e : strconv.formatUintGo (n + 1) n [] =
      strconv.formatUintGo n (n / 10) [strconv.digitChar (n % 10)] := by
    simp only [strconv.formatUintGo]
    rw [if_neg (by omega)]
  have hlt : n / 10 < n := Nat.div_lt_self (by omega) (by omega)
  unfold strconv.FormatUint
  rw [e, formatUintGo_acc, formatUintGo_fuel n (n / 10 + 1) (n / 10) [] hlt (by omega)]

theorem isDigit_digitChar (d : Nat) (h : d < 10) : strconv.isDigit (strconv.digitChar d) = true := by
  interval_cases d <;> decide

theorem digitVal_digitChar (d : Nat) (h : d < 10) : strconv.digitVal (strconv.digitChar d) = d := by
  interval_cases d <;> decide

theorem digitChar_ne_zero (d : Nat) (h : d < 10) (h0 : 0 < d) : strconv.digitChar d ≠ '0' := by
  interval_cases d <;> decide

theorem isDigit_iff (c : Char) : strconv.isDigit c = true ↔ 48 ≤ c.toNat ∧ c.toNat ≤ 57 := by
  unfold strconv.isDigit
  simp only [Bool.and_eq_true, decide_eq_true_eq]
  rfl

theorem digitChar_digitVal (c : Char) (h : strconv.isDigit c = true) :
    strconv.digitChar (strconv.digitVal c) = c := by
  rw [isDigit_iff] at h
  unfold strconv.digitChar strconv.digitVal
  rw [Nat.add_sub_cancel' h.1]
  exact Char.ofNat_toNat c

theorem digitVal_lt (c : Char) (h : strconv.isDigit c = true) : strconv.digitVal c < 10 := by
  rw [isDigit_iff] at h
  unfold strconv.digitVal
  omega

theorem decimalValue_append (s : GoString) (c : Char) :
    strconv.decimalValue (s ++ [c]) = strconv.decimalValue s * 10 + strconv.digitVal c := by
  simp [strconv.decimalValue, List.foldl_append]

theorem FormatUint_digits (n : Nat) : ∀ c ∈ strconv.FormatUint n, strconv.isDigit c = true := by
  induction n using Nat.strong_induction_on with
  | _ n ih =>
    by_cases h : n < 10
    · rw [FormatUint_small n h]
      intro c hc
      rw [List.mem_singleton.1 hc]
      exact isDigit_digitChar n h
    · rw [FormatUint_large n (by omega)]
      intro c hc
      rcases List.mem_append.1 hc with hc | hc
      · exact ih (n / 10) (Nat.div_lt_self (by omega) (by omega)) c hc
      · rw [List.mem_singleton.1 hc]
        exact isDigit_digitChar _ (Nat.mod_lt _ (by omega))

theorem FormatUint_ne_nil (n : Nat) : strconv.FormatUint n ≠ [] := by
  by_cases h : n < 10
  · rw [FormatUint_small n h]; simp
  · rw [FormatUint_large n (by omega)]; simp

theorem decimalValue_FormatUint (n : Nat) : strconv.decimalValue (strconv.FormatUint n) = n := by
  induction n using Nat.strong_induction_on with
  | _ n ih =>
    by_cases h : n < 10
    · rw [FormatUint_small n h]
      simp [strconv.decimalValue, digitVal_digitChar n h]
    · rw [FormatUint_large n (by omega), decimalValue_append,
        ih (n / 10) (Nat.div_lt_self (by omega) (by omega)),
        digitVal_digitChar _ (Nat.mod_lt _ (by omega))]
      omega

theorem FormatUint_head (n : Nat) (h : 0 < n) : (strconv.FormatUint n).head? ≠ some '0' := by
  induction n using Nat.strong_induction_on with
  | _ n ih =>
    by_cases hs : n < 10
    · rw [FormatUint_small n hs]
      simpa using digitChar_ne_zero n hs h
    · rw [FormatUint_large n (by omega)]
      have hne := FormatUint_ne_nil (n / 10)
      rw [List.head?_append_of_ne_nil _ hne]
      exact ih (n / 10) (Nat.div_lt_self (by omega) (by omega)) (Nat.div_pos (by omega) (by omega))

theorem FormatUint_length_one (n : Nat) (h : n < 10) : (strconv.FormatUint n).length = 1 := by
  rw [FormatUint_small n h]; rfl

theorem FormatUint_canonical (n : Nat) : Canonical (strconv.FormatUint n) := by
  refine ⟨FormatUint_ne_nil n, FormatUint_digits n, ?_⟩
  intro hlen
  by_cases h : n < 10
  · rw [FormatUint_length_one n h] at hlen; omega
  · exact FormatUint_head n (by omega)

theorem FormatUint_decimalValue (s : GoString) (hs : Canonical s) :
    strconv.FormatUint (strconv.decimalValue s) = s := by
  induction s using List.reverseRecOn with
  | nil => exact absurd rfl hs.1
  | append_singleton s c ih =>
    obtain ⟨_, hdig, hlead⟩ := hs
    have hc : strconv.isDigit c = true := hdig c (by simp)
    by_cases hnil : s = []
    · subst hnil
      simp only [List.nil_append]
      have : strconv.decimalValue [c] = strconv.digitVal c := by simp [strconv.decimalValue]
      rw [this, FormatUint_small _ (digitVal_lt c hc), digitChar_digitVal c hc]
    · have hlen : 1 < (s ++ [c]).length := by
        have := List.length_pos.2 hnil
        simp; omega
      have hhead : s.head? ≠ some '0' := by
        have := hlead hlen
        rwa [List.head?_append_of_ne_nil _ hnil] at this
      have hcan : Canonical s := ⟨hnil, fun d hd => hdig d (by simp [hd]), fun _ => hhead⟩
      have ihs := ih hcan
      have hpos : 0 < strconv.decimalValue s := by
        rcases Nat.eq_zero_or_pos (strconv.decimalValue s) with h0 | h0
        · rw [h0] at ihs
          rw [← ihs] at hhead
          exact absurd (by decide) hhead
        · exact h0
      rw [decimalValue_append]
      have hd := digitVal_lt c hc
      rw [FormatUint_large _ (by omega)]
      have e1 : (strconv.decimalValue s * 10 + strconv.digitVal c) / 10 = strconv.decimalValue s := by
        omega
      have e2 : (strconv.decimalValue s * 10 + strconv.digitVal c) % 10 = strconv.digitVal c := by
        omega
      rw [e1, e2, ihs, digitChar_digitVal c hc]

theorem ParseUint_FormatUint (n : Nat) (h : n < 2 ^ 64) :
    strconv.ParseUint (strconv.FormatUint n) = some n := by
  unfold strconv.ParseUint
  rw [if_neg (FormatUint_ne_nil n), if_pos (List.all_eq_true.2 (FormatUint_digits n)),
    decimalValue_FormatUint, if_pos h]

theorem ParseUint_eq_some (s : GoString) (n : Nat) (h : strconv.ParseUint s = some n) :
    s ≠ [] ∧ (∀ c ∈ s, strconv.isDigit c = true) ∧ strconv.decimalValue s = n ∧ n < 2 ^ 64 := by
  unfold strconv.ParseUint at h
  split_ifs at h with h1 h2 h3
  simp only [Option.some.injEq] at h
  exact ⟨h1, List.all_eq_true.1 h2, h, h ▸ h3⟩



/-! ## Helper lemmas: cutting at a separator -/

theorem splitGo_cut (sep : Char) (a r : GoString) (hsep : sep ∉ a) (k : Nat) :
    strings.splitGo [sep] (k + 1) 0 (a ++ sep :: r) = a :: strings.splitGo [sep] k 0 r := by
  induction a with
  | nil =>
    simp only [List.nil_append, strings.splitGo, List.isPrefixOf, beq_self_eq_true,
      Bool.and_true, if_true, List.length_singleton, Nat.sub_self]
  | cons c a ih =>
    have hc : (sep == c) = false := by
      simpa using fun h : sep = c => hsep (by simp [h])
    have ha : sep ∉ a := fun h => hsep (List.mem_cons_of_mem _ h)
    simp only [List.cons_append, strings.splitGo, List.isPrefixOf, hc, Bool.and_true,
      Bool.false_eq_true, if_false, List.append_eq]
    rw [ih ha]
    rfl

theorem splitGo_zero (sep : GoString) (r : GoString) : strings.splitGo sep 0 0 r = [r] := by
  cases r <;> simp [strings.splitGo]

theorem SplitN_two_cut (sep : Char) (a r : GoString) (hsep : sep ∉ a) :
    strings.SplitN (a ++ sep :: r) [sep] 2 = [a, r] := by
  unfold strings.SplitN
  simp only [List.cons_ne_nil, if_false, reduceCtorEq]
  rw [splitGo_cut sep a r hsep 0, splitGo_zero]

theorem SplitN_two_none (sep : Char) (a : GoString) (hsep : sep ∉ a) :
    strings.SplitN a [sep] 2 = [a] := by
  unfold strings.SplitN
  simp only [List.cons_ne_nil, if_false, reduceCtorEq]
  exact splitGo_no_sep sep a hsep 1

theorem SplitN_three_cut (sep : Char) (a b r : GoString) (ha : sep ∉ a) (hb : sep ∉ b) :
    strings.SplitN (a ++ sep :: (b ++ sep :: r)) [sep] 3 = [a, b, r] := by
  unfold strings.SplitN
  simp only [List.cons_ne_nil, if_false, reduceCtorEq]
  rw [splitGo_cut sep a _ ha 1, splitGo_cut sep b r hb 0, splitGo_zero]

theorem Split_intercalate (sep : Char) (ids : List GoString) (hne : ids ≠ [])
    (hsep : ∀ p ∈ ids, sep ∉ p) (k : Nat) (hk : (List.intercalate [sep] ids).length ≤ k) :
    strings.splitGo [sep] k 0 (List.intercalate [sep] ids) = ids := by
  induction ids generalizing k with
  | nil => exact absurd rfl hne
  | cons x rest ih =>
    cases rest with
    | nil =>
      simp only [List.intercalate, List.intersperse, List.flatten, List.append_nil]
      exact splitGo_no_sep sep x (hsep x (by simp)) k
    | cons y rest =>
      have e : List.intercalate [sep] (x :: y :: rest) =
          x ++ sep :: List.intercalate [sep] (y :: rest) := by
        simp [List.intercalate, List.intersperse, List.flatten]
      rw [e] at hk ⊢
      cases k with
      | zero => simp at hk
      | succ k =>
        rw [splitGo_cut sep x _ (hsep x (by simp)) k,
          ih (by simp) (fun p hp => hsep p (List.mem_cons_of_mem _ hp)) k
            (by simp at hk ⊢; omega)]



/-! ## Helper lemmas: character classes -/

theorem char_of_toNat (c : Char) (n : Nat) (h : c.toNat = n) : c = Char.ofNat n := by
  rw [← h, Char.ofNat_toNat]

theorem num_contains_of_isDigit (c : Char) (h : strconv.isDigit c = true) :
    num.contains c = true := by
  rw [isDigit_iff] at h
  obtain ⟨n, hn⟩ : ∃ n, c.toNat = n := ⟨_, rfl⟩
  rw [hn] at h
  have hc := char_of_toNat c n hn
  obtain ⟨h1, h2⟩ := h
  interval_cases n <;> (subst hc; decide)

theorem char_eq_dash_iff (c : Char) : c = '-' ↔ c.toNat = 45 := by
  constructor
  · intro h; subst h; rfl
  · intro h; exact char_of_toNat c 45 h

theorem isIdentChar_iff (c : Char) : isIdentChar c = true ↔
    (48 ≤ c.toNat ∧ c.toNat ≤ 57) ∨ (65 ≤ c.toNat ∧ c.toNat ≤ 90) ∨
      (97 ≤ c.toNat ∧ c.toNat ≤ 122) ∨ c.toNat = 45 := by
  have a1 : ('A' ≤ c) ↔ (65 ≤ c.toNat) := Iff.rfl
  have a2 : (c ≤ 'Z') ↔ (c.toNat ≤ 90) := Iff.rfl
  have a3 : ('a' ≤ c) ↔ (97 ≤ c.toNat) := Iff.rfl
  have a4 : (c ≤ 'z') ↔ (c.toNat ≤ 122) := Iff.rfl
  unfold isIdentChar
  rw [Bool.or_eq_true, Bool.or_eq_true, Bool.or_eq_true, Bool.and_eq_true, Bool.and_eq_true,
    decide_eq_true_eq, decide_eq_true_eq, decide_eq_true_eq, decide_eq_true_eq, beq_iff_eq,
    isDigit_iff, a1, a2, a3, a4, char_eq_dash_iff, or_assoc, or_assoc]

theorem allowed_contains_of_isIdentChar (c : Char) (h : isIdentChar c = true) :
    allowed.contains c = true := by
  rw [isIdentChar_iff] at h
  obtain ⟨n, hn⟩ : ∃ n, c.toNat = n := ⟨_, rfl⟩
  rw [hn] at h
  have hc := char_of_toNat c n hn
  rcases h with ⟨h1, h2⟩ | ⟨h1, h2⟩ | ⟨h1, h2⟩ | h1
  · interval_cases n <;> (subst hc; decide)
  · interval_cases n <;> (subst hc; decide)
  · interval_cases n <;> (subst hc; decide)
  · subst h1; subst hc; decide

theorem isDigit_isIdentChar (c : Char) (h : strconv.isDigit c = true) : isIdentChar c = true := by
  unfold isIdentChar
  simp [h]


/-! ## Helper lemmas: strict parsing of rendered versions -/

theorem mem_intercalate (sep : Char) (ids : List GoString) (c : Char)
    (h : c ∈ List.intercalate [sep] ids) : c = sep ∨ ∃ p ∈ ids, c ∈ p := by
  induction ids with
  | nil => simp [List.intercalate, List.intersperse] at h
  | cons x rest ih =>
    cases rest with
    | nil =>
      simp only [List.intercalate, List.intersperse, List.flatten, List.append_nil] at h
      exact Or.inr ⟨x, by simp, h⟩
    | cons y rest =>
      have e : List.intercalate [sep] (x :: y :: rest) =
          x ++ sep :: List.intercalate [sep] (y :: rest) := by
        simp [List.intercalate, List.intersperse, List.flatten]
      rw [e] at h
      rcases List.mem_append.1 h with h | h
      · exact Or.inr ⟨x, by simp, h⟩
      · rcases List.mem_cons.1 h with h | h
        · exact Or.inl h
        · rcases ih h with h | ⟨p, hp, hc⟩
          · exact Or.inl h
          · exact Or.inr ⟨p, List.mem_cons_of_mem _ hp, hc⟩

theorem intercalate_ne_nil (sep : Char) (ids : List GoString) (hne : ids ≠ [])
    (hid : ∀ p ∈ ids, p ≠ []) : List.intercalate [sep] ids ≠ [] := by
  match ids, hne with
  | [x], _ =>
    simp only [List.intercalate, List.intersperse, List.flatten, List.append_nil]
    exact hid x (by simp)
  | x :: y :: rest, _ =>
    have e : List.intercalate [sep] (x :: y :: rest) =
        x ++ sep :: List.intercalate [sep] (y :: rest) := by
      simp [List.intercalate, List.intersperse, List.flatten]
    rw [e]
    simp

theorem isIdentChar_ne (c : Char) (h : isIdentChar c = true) :
    c ≠ '.' ∧ c ≠ '+' ∧ c ≠ '_' ∧ c ≠ '/' ∧ c ≠ ':' := by
  refine ⟨?_, ?_, ?_, ?_, ?_⟩ <;> (intro e; subst e; revert h; decide)

theorem isDigit_ne (c : Char) (h : strconv.isDigit c = true) :
    c ≠ '.' ∧ c ≠ '+' ∧ c ≠ '_' ∧ c ≠ '/' ∧ c ≠ ':' ∧ c ≠ '-' := by
  refine ⟨?_, ?_, ?_, ?_, ?_, ?_⟩ <;> (intro e; subst e; revert h; decide)


theorem ContainsAny_false_iff (s chars : GoString) :
    strings.ContainsAny s chars = false ↔ ∀ c ∈ s, c ∉ chars := by
  unfold strings.ContainsAny
  rw [List.any_eq_false]
  simp

theorem splitExtra_spec (c P B : GoString) (hc1 : '-' ∉ c) (hc2 : '+' ∉ c) (hP : '+' ∉ P) :
    splitExtra (c ++ ((if P = [] then [] else '-' :: P) ++ (if B = [] then [] else '+' :: B))) =
      (c, P, B) := by
  have e1 : "-+".toList = ['-', '+'] := rfl
  have e2 : "+".toList = ['+'] := rfl
  have e3 : "-".toList = ['-'] := rfl
  unfold splitExtra
  rw [e1, e2, e3]
  by_cases hPn : P = [] <;> by_cases hBn : B = []
  · subst hPn; subst hBn
    have hca : strings.ContainsAny c ['-', '+'] = false := by
      rw [ContainsAny_false_iff]
      intro x hx hm
      simp only [List.mem_cons, List.mem_singleton, List.not_mem_nil, or_false] at hm
      rcases hm with rfl | rfl
      · exact hc1 hx
      · exact hc2 hx
    simp [hca]
  · subst hPn
    have hca : strings.ContainsAny (c ++ '+' :: B) ['-', '+'] = true := by
      simp [strings.ContainsAny]
    simp only [if_true, if_neg hBn, List.nil_append, hca, SplitN_two_cut '+' c B hc2,
      SplitN_two_none '-' c hc1]
  · subst hBn
    have hca : strings.ContainsAny (c ++ '-' :: P) ['-', '+'] = true := by
      simp [strings.ContainsAny]
    have hplus : '+' ∉ c ++ '-' :: P := by
      simp only [List.mem_append, List.mem_cons, not_or]
      exact ⟨hc2, by decide, hP⟩
    simp only [if_true, if_neg hPn, List.append_nil, hca, SplitN_two_none '+' _ hplus,
      SplitN_two_cut '-' c P hc1]
  · have hca : strings.ContainsAny (c ++ ('-' :: P ++ '+' :: B)) ['-', '+'] = true := by
      simp [strings.ContainsAny]
    have hplus : '+' ∉ c ++ '-' :: P := by
      simp only [List.mem_append, List.mem_cons, not_or]
      exact ⟨hc2, by decide, hP⟩
    have e : c ++ ('-' :: P ++ '+' :: B) = (c ++ '-' :: P) ++ '+' :: B := by simp
    simp only [if_neg hPn, if_neg hBn, hca, if_true]
    rw [e, SplitN_two_cut '+' _ B hplus]
    simp only [SplitN_two_cut '-' c P hc1]

theorem containsOnly_num_of_digits (s : GoString) (h : ∀ c ∈ s, strconv.isDigit c = true) :
    containsOnly s num = true := by
  unfold containsOnly
  rw [List.all_eq_true]
  exact fun c hc => num_contains_of_isDigit c (h c hc)

theorem containsOnly_allowed_of_ident (s : GoString) (h : ∀ c ∈ s, isIdentChar c = true) :
    containsOnly s allowed = true := by
  unfold containsOnly
  rw [List.all_eq_true]
  exact fun c hc => allowed_contains_of_isIdentChar c (h c hc)

theorem strictSegment_of_canonical (s : GoString) (h : Canonical s) :
    strictSegment s = true := by
  obtain ⟨_, hd, hl⟩ := h
  unfold strictSegment
  rw [containsOnly_num_of_digits s hd]
  by_cases hlen : 1 < s.length
  · have := hl hlen
    simp [hlen, this]
  · simp [hlen]
theorem isDigit_of_num_contains (c : Char) (h : num.contains c = true) :
    strconv.isDigit c = true := by
  have hm : c ∈ num := by simpa using h
  have e : num = ['0', '1', '2', '3', '4', '5', '6', '7', '8', '9'] := rfl
  rw [e] at hm
  simp only [List.mem_cons, List.mem_singleton, List.not_mem_nil, or_false] at hm
  rcases hm with rfl | rfl | rfl | rfl | rfl | rfl | rfl | rfl | rfl | rfl <;> decide

theorem digits_of_containsOnly_num (s : GoString) (h : containsOnly s num = true) :
    ∀ c ∈ s, strconv.isDigit c = true := by
  unfold containsOnly at h
  rw [List.all_eq_true] at h
  exact fun c hc => isDigit_of_num_contains c (h c hc)

theorem validPrereleasePart_of_identifier (p : GoString) (h : IsPrereleaseIdentifier p) :
    validPrereleasePart p = true := by
  obtain ⟨_, hid, hnum⟩ := h
  unfold validPrereleasePart
  by_cases hn : containsOnly p num = true
  · rw [if_pos hn]
    by_cases hlen : 1 < p.length
    · have := hnum (digits_of_containsOnly_num p hn) hlen
      simp [hlen, this]
    · simp [hlen]
  · rw [if_neg hn]
    exact containsOnly_allowed_of_ident p hid

theorem Split_intercalate_dot (ids : List GoString) (hne : ids ≠ [])
    (hid : ∀ p ∈ ids, ∀ c ∈ p, isIdentChar c = true) :
    strings.Split (List.intercalate ['.'] ids) ".".toList = ids := by
  have e : ".".toList = ['.'] := rfl
  unfold strings.Split
  rw [e, if_neg (by simp)]
  exact Split_intercalate '.' ids hne
    (fun p hp hc => (isIdentChar_ne _ (hid p hp _ hc)).1 rfl) _ (le_refl _)

theorem validatePrerelease_intercalate (pre : List GoString) (hne : pre ≠ [])
    (h : ∀ p ∈ pre, IsPrereleaseIdentifier p) :
    validatePrerelease (List.intercalate ['.'] pre) = true := by
  unfold validatePrerelease
  rw [Split_intercalate_dot pre hne (fun p hp => (h p hp).2.1), List.all_eq_true]
  exact fun p hp => validPrereleasePart_of_identifier p (h p hp)

theorem validateMetadata_intercalate (build : List GoString) (hne : build ≠ [])
    (h : ∀ p ∈ build, IsBuildIdentifier p) :
    validateMetadata (List.intercalate ['.'] build) = true := by
  unfold validateMetadata
  rw [Split_intercalate_dot build hne (fun p hp => (h p hp).2), List.all_eq_true]
  intro p hp
  simpa using containsOnly_allowed_of_ident p (h p hp).2
theorem ParseUint_canonical (s : GoString) (h : Canonical s) (hfit : strconv.decimalValue s < 2 ^ 64) :
    strconv.ParseUint s = some (strconv.decimalValue s) := by
  unfold strconv.ParseUint
  rw [if_neg h.1, if_pos (List.all_eq_true.2 h.2.1), if_pos hfit]

theorem canonical_not_mem (s : GoString) (h : Canonical s) :
    '.' ∉ s ∧ '-' ∉ s ∧ '+' ∉ s := by
  refine ⟨?_, ?_, ?_⟩ <;> (intro hm; have := h.2.1 _ hm; revert this; decide)

theorem intercalate_identifiers_not_plus (ids : List GoString)
    (hid : ∀ p ∈ ids, ∀ c ∈ p, isIdentChar c = true) : '+' ∉ List.intercalate ['.'] ids := by
  intro hm
  rcases mem_intercalate '.' ids '+' hm with h | ⟨p, hp, hc⟩
  · exact absurd h (by decide)
  · exact (isIdentChar_ne _ (hid p hp _ hc)).2.1 rfl

theorem StrictNewVersion_render (a b c : GoString) (pre build : List GoString)
    (ha : Canonical a) (hb : Canonical b) (hc : Canonical c)
    (hpre : ∀ p ∈ pre, IsPrereleaseIdentifier p) (hbuild : ∀ p ∈ build, IsBuildIdentifier p)
    (la : strconv.decimalValue a < 2 ^ 64) (lb : strconv.decimalValue b < 2 ^ 64)
    (lc : strconv.decimalValue c < 2 ^ 64) :
    StrictNewVersion (renderSemVer a b c pre build) =
      some ⟨strconv.decimalValue a, strconv.decimalValue b, strconv.decimalValue c,
        if pre = [] then [] else List.intercalate ['.'] pre,
        if build = [] then [] else List.intercalate ['.'] build,
        renderSemVer a b c pre build⟩ := by
  have hlen : ¬ (renderSemVer a b c pre build).length = 0 := by
    unfold renderSemVer
    have := List.length_pos.2 ha.1
    simp only [List.length_append, List.length_cons]
    omega
  have hPne : ∀ ids : List GoString, (∀ p ∈ ids, p ≠ []) →
      ((if ids = [] then [] else List.intercalate ['.'] ids) = ([] : GoString) ↔ ids = []) := by
    intro ids hid
    by_cases h : ids = []
    · simp [h]
    · simp [h, intercalate_ne_nil '.' ids h hid]
  have hP := hPne pre (fun p hp => (hpre p hp).1)
  have hB := hPne build (fun p hp => (hbuild p hp).1)
  have hrest : c ++ ((if pre = [] then [] else '-' :: List.intercalate ['.'] pre) ++
        (if build = [] then [] else '+' :: List.intercalate ['.'] build)) =
      c ++ ((if (if pre = [] then [] else List.intercalate ['.'] pre) = ([] : GoString) then []
          else '-' :: (if pre = [] then [] else List.intercalate ['.'] pre)) ++
        (if (if build = [] then [] else List.intercalate ['.'] build) = ([] : GoString) then []
          else '+' :: (if build = [] then [] else List.intercalate ['.'] build))) := by
    by_cases h1 : pre = [] <;> by_cases h2 : build = [] <;>
      simp [h1, h2, intercalate_ne_nil '.' _ _ (fun p hp => (hpre p hp).1),
        intercalate_ne_nil '.' _ _ (fun p hp => (hbuild p hp).1)]
  have hPplus : '+' ∉ (if pre = [] then [] else List.intercalate ['.'] pre) := by
    by_cases h1 : pre = []
    · simp [h1]
    · rw [if_neg h1]
      exact intercalate_identifiers_not_plus pre (fun p hp => (hpre p hp).2.1)
  have hvp : ((if pre = [] then [] else List.intercalate ['.'] pre) = ([] : GoString) ||
      validatePrerelease (if pre = [] then [] else List.intercalate ['.'] pre)) = true := by
    by_cases h1 : pre = []
    · simp [h1]
    · simp [h1, validatePrerelease_intercalate pre h1 hpre]
  have hvm : ((if build = [] then [] else List.intercalate ['.'] build) = ([] : GoString) ||
      validateMetadata (if build = [] then [] else List.intercalate ['.'] build)) = true := by
    by_cases h1 : build = []
    · simp [h1]
    · simp [h1, validateMetadata_intercalate build h1 hbuild]
  have e : ".".toList = ['.'] := rfl
  unfold StrictNewVersion
  rw [if_neg hlen]
  have hsplit : strings.SplitN (renderSemVer a b c pre build) ".".toList 3 =
      [a, b, c ++ ((if pre = [] then [] else '-' :: List.intercalate ['.'] pre) ++
        (if build = [] then [] else '+' :: List.intercalate ['.'] build))] := by
    rw [e]
    exact SplitN_three_cut '.' a b _ (canonical_not_mem a ha).1 (canonical_not_mem b hb).1
  rw [hsplit]
  simp only []
  rw [hrest, splitExtra_spec c _ _ (canonical_not_mem c hc).2.1 (canonical_not_mem c hc).2.2
    hPplus]
  simp only [strictSegment_of_canonical a ha, strictSegment_of_canonical b hb,
    strictSegment_of_canonical c hc, Bool.and_self, if_true, ParseUint_canonical a ha la,
    ParseUint_canonical b hb lb, ParseUint_canonical c hc lc, hvp, hvm]

theorem String_render (a b c : GoString) (pre build : List GoString)
    (ha : Canonical a) (hb : Canonical b) (hc : Canonical c)
    (hpre : ∀ p ∈ pre, IsPrereleaseIdentifier p) (hbuild : ∀ p ∈ build, IsBuildIdentifier p)
    (orig : GoString) :
    Version.String ⟨strconv.decimalValue a, strconv.decimalValue b, strconv.decimalValue c,
        if pre = [] then [] else List.intercalate ['.'] pre,
        if build = [] then [] else List.intercalate ['.'] build, orig⟩ =
      renderSemVer a b c pre build := by
  have e : ".".toList = ['.'] := rfl
  unfold Version.String renderSemVer
  simp only [FormatUint_decimalValue a ha, FormatUint_decimalValue b hb,
    FormatUint_decimalValue c hc, e]
  by_cases h1 : pre = [] <;> by_cases h2 : build = [] <;>
    simp [h1, h2, intercalate_ne_nil '.' _ _ (fun p hp => (hpre p hp).1),
      intercalate_ne_nil '.' _ _ (fun p hp => (hbuild p hp).1)]
theorem mem_renderSemVer (a b c : GoString) (pre build : List GoString)
    (ha : Canonical a) (hb : Canonical b) (hc : Canonical c)
    (hpre : ∀ p ∈ pre, IsPrereleaseIdentifier p) (hbuild : ∀ p ∈ build, IsBuildIdentifier p)
    (x : Char) (hx : x ∈ renderSemVer a b c pre build) :
    isIdentChar x = true ∨ x = '.' ∨ x = '+' := by
  have hJ : ∀ ids : List GoString, (∀ p ∈ ids, ∀ c ∈ p, isIdentChar c = true) →
      x ∈ List.intercalate ['.'] ids → isIdentChar x = true ∨ x = '.' ∨ x = '+' := by
    intro ids hid hm
    rcases mem_intercalate '.' ids x hm with h | ⟨p, hp, hc⟩
    · exact Or.inr (Or.inl h)
    · exact Or.inl (hid p hp x hc)
  unfold renderSemVer at hx
  simp only [List.mem_append, List.mem_cons] at hx
  rcases hx with h | h | h | h | h | h | h
  · exact Or.inl (isDigit_isIdentChar x (ha.2.1 x h))
  · exact Or.inr (Or.inl h)
  · exact Or.inl (isDigit_isIdentChar x (hb.2.1 x h))
  · exact Or.inr (Or.inl h)
  · exact Or.inl (isDigit_isIdentChar x (hc.2.1 x h))
  · by_cases h1 : pre = []
    · simp [h1] at h
    · rw [if_neg h1] at h
      rcases List.mem_cons.1 h with h | h
      · subst h; exact Or.inl (by decide)
      · exact hJ pre (fun p hp => (hpre p hp).2.1) h
  · by_cases h1 : build = []
    · simp [h1] at h
    · rw [if_neg h1] at h
      rcases List.mem_cons.1 h with h | h
      · exact Or.inr (Or.inr h)
      · exact hJ build (fun p hp => (hbuild p hp).2) h

theorem renderSemVer_not_mem (a b c : GoString) (pre build : List GoString)
    (ha : Canonical a) (hb : Canonical b) (hc : Canonical c)
    (hpre : ∀ p ∈ pre, IsPrereleaseIdentifier p) (hbuild : ∀ p ∈ build, IsBuildIdentifier p) :
    '_' ∉ renderSemVer a b c pre build ∧ '/' ∉ renderSemVer a b c pre build ∧
      ':' ∉ renderSemVer a b c pre build := by
  refine ⟨?_, ?_, ?_⟩ <;>
    (intro hm
     rcases mem_renderSemVer a b c pre build ha hb hc hpre hbuild _ hm with h | h | h
     · revert h; decide
     · revert h; decide
     · revert h; decide)

theorem ReplaceAll_plus_round_trip (v : GoString) (h : '_' ∉ v) :
    strings.ReplaceAll (strings.ReplaceAll v "+".toList "_".toList) "_".toList "+".toList =
      v := by
  have e3 : "+".toList = ['+'] := rfl
  have e4 : "_".toList = ['_'] := rfl
  rw [e3, e4, ReplaceAll_single, ReplaceAll_single, List.map_map]
  conv_rhs => rw [← List.map_id v]
  apply List.map_congr_left
  intro c hc
  have hne : c ≠ '_' := fun e => h (e ▸ hc)
  by_cases hp : c = '+'
  · simp [hp]
  · simp [hp, hne]

theorem parseReferenceRaw_tagged_eq (p tag : GoString) (hne : tag ≠ []) (hcolon : ':' ∉ tag)
    (hslash : '/' ∉ tag) :
    parseReferenceRaw (p ++ ':' :: tag) =
      strings.ReplaceAll p tag (strings.ReplaceAll tag "+".toList "_".toList) ++
        ':' :: strings.ReplaceAll tag "+".toList "_".toList := by
  have e3 : "+".toList = ['+'] := rfl
  have e4 : "_".toList = ['_'] := rfl
  rw [parseReferenceRaw_tagged p tag hne hcolon hslash, e3, e4]
  unfold strings.ReplaceAll
  rw [if_neg hne, if_neg hne]
  exact replaceGo_append_sep ':' tag _ hne hcolon p 0 (Nat.zero_le _)

theorem Tags_singleton (tie : Nat → Nat → Bool) (tag : GoString) (w : Version)
    (h : StrictNewVersion (strings.ReplaceAll tag "_".toList "+".toList) = some w) :
    Client.Tags tie [tag] = [w.String] := by
  unfold Client.Tags Client.tagVersions
  have e : List.filterMap
      (fun tag => StrictNewVersion (strings.ReplaceAll tag "_".toList "+".toList)) [tag] =
      [w] := by
    simp only [List.filterMap_cons, h, List.filterMap_nil]
  rw [e]
  rfl

/-! ## Claims on the tag round trip -/

/-- C8, as the code runs: for every valid semantic version `v` whose major, minor and patch
numbers are below `2 ^ 64` and every front part `p`, `parseReference` rewrites the tag of
`p:v` to `v` with `+` replaced by `_`, and `Client.Tags` lists that tag as `v` again,
whatever `sort.Sort` does with ties. -/
theorem C8_tag_round_trip (tie : Nat → Nat → Bool) (p v : GoString)
    (hv : IsSemVer64 v) :
    parseReferenceRaw (p ++ ':' :: v) =
        strings.ReplaceAll p v (strings.ReplaceAll v "+".toList "_".toList) ++
          ':' :: strings.ReplaceAll v "+".toList "_".toList ∧
      Client.Tags tie [strings.ReplaceAll v "+".toList "_".toList] = [v] := by
  obtain ⟨a, b, c, pre, build, ha, hb, hc, hpre, hbuild, la, lb, lc, rfl⟩ := hv
  obtain ⟨hu, hs, hcol⟩ := renderSemVer_not_mem a b c pre build ha hb hc hpre hbuild
  have hne : renderSemVer a b c pre build ≠ [] := by
    unfold renderSemVer
    intro h
    exact ha.1 (List.append_eq_nil.1 h).1
  refine ⟨parseReferenceRaw_tagged_eq p _ hne hcol hs, ?_⟩
  rw [Tags_singleton tie _ _ (by
    rw [ReplaceAll_plus_round_trip _ hu]
    exact StrictNewVersion_render a b c pre build ha hb hc hpre hbuild la lb lc)]
  rw [String_render a b c pre build ha hb hc hpre hbuild]

theorem isSemVer64_example : IsSemVer64 "1.0.0+build5".toList := by
  refine ⟨"1".toList, "0".toList, "0".toList, [], ["build5".toList], ?_, ?_, ?_, ?_, ?_, ?_, ?_,
    ?_, ?_⟩
  · unfold Canonical; decide
  · unfold Canonical; decide
  · unfold Canonical; decide
  · intro p hp; cases hp
  · intro p hp
    rw [List.mem_singleton.1 hp]
    unfold IsBuildIdentifier
    decide
  · decide
  · decide
  · decide
  · decide

/-- Witness of C8 on `h/r:1.0.0+build5`: the tag is written as `1.0.0_build5` and listed
as `1.0.0+build5`, not as `1.0.0_build5`. -/
theorem C8_tag_round_trip_witness :
    IsSemVer64 "1.0.0+build5".toList ∧
      parseReferenceRaw "h/r:1.0.0+build5".toList = "h/r:1.0.0_build5".toList ∧
      Client.Tags sort.keepOrder ["1.0.0_build5".toList] = ["1.0.0+build5".toList] ∧
      "1.0.0+build5".toList ≠ "1.0.0_build5".toList := by
  have h := C8_tag_round_trip sort.keepOrder "h/r".toList "1.0.0+build5".toList
    isSemVer64_example
  have e1 : strings.ReplaceAll "1.0.0+build5".toList "+".toList "_".toList =
      "1.0.0_build5".toList := by decide
  have e2 : strings.ReplaceAll "h/r".toList "1.0.0+build5".toList "1.0.0_build5".toList =
      "h/r".toList := by decide
  rw [e1, e2] at h
  exact ⟨isSemVer64_example, h.1, h.2, by decide⟩

/-- C8, the claim as written fails: `18446744073709551616.0.0` is a valid semantic version,
its tag is written unchanged, and `Client.Tags` does not list it. -/
theorem C8_large_number_not_listed :
    IsSemVer "18446744073709551616.0.0".toList ∧
      strings.ReplaceAll "18446744073709551616.0.0".toList "+".toList "_".toList =
        "18446744073709551616.0.0".toList ∧
      Client.Tags sort.keepOrder ["18446744073709551616.0.0".toList] = [] := by
  refine ⟨⟨"18446744073709551616".toList, "0".toList, "0".toList, [], [], ?_, ?_, ?_, ?_, ?_,
    trivial, trivial, trivial, ?_⟩, ?_, ?_⟩
  · unfold Canonical; decide
  · unfold Canonical; decide
  · unfold Canonical; decide
  · intro p hp; cases hp
  · intro p hp; cases hp
  · decide
  · decide
  · decide

/-! ## Helper lemmas: the order of versions -/

theorem strLess_irrefl (a : GoString) : strLess a a = false := by
  induction a with
  | nil => rfl
  | cons x xs ih => simp [strLess, ih]

theorem strLess_asymm (a b : GoString) (h : strLess a b = true) : strLess b a = false := by
  induction a generalizing b with
  | nil => cases b <;> simp_all [strLess]
  | cons x xs ih =>
    cases b with
    | nil => simp [strLess] at h
    | cons y ys =>
      simp only [strLess] at h ⊢
      rcases lt_trichotomy x y with hxy | hxy | hxy
      · simp [hxy, not_lt_of_lt hxy]
      · subst hxy
        simp only [lt_self_iff_false, if_false] at h ⊢
        exact ih ys h
      · simp [hxy, not_lt_of_lt hxy] at h

theorem strLess_total (a b : GoString) (h : a ≠ b) : strLess a b = true ∨ strLess b a = true := by
  induction a generalizing b with
  | nil =>
    cases b with
    | nil => exact absurd rfl h
    | cons y ys => simp [strLess]
  | cons x xs ih =>
    cases b with
    | nil => simp [strLess]
    | cons y ys =>
      simp only [strLess]
      rcases lt_trichotomy x y with hxy | hxy | hxy
      · simp [hxy]
      · subst hxy
        simp only [lt_self_iff_false, if_false]
        exact ih ys (fun e => h (by rw [e]))
      · simp [hxy]

theorem strLess_trans (a b c : GoString) (h1 : strLess a b = true) (h2 : strLess b c = true) :
    strLess a c = true := by
  induction a generalizing b c with
  | nil =>
    cases b with
    | nil => simp [strLess] at h1
    | cons y ys =>
      cases c with
      | nil => simp [strLess] at h2
      | cons z zs => simp [strLess]
  | cons x xs ih =>
    cases b with
    | nil => simp [strLess] at h1
    | cons y ys =>
      cases c with
      | nil => simp [strLess] at h2
      | cons z zs =>
        simp only [strLess] at h1 h2 ⊢
        rcases lt_trichotomy x y with hxy | hxy | hxy
        · rcases lt_trichotomy y z with hyz | hyz | hyz
          · simp [lt_trans hxy hyz]
          · subst hyz; simp [hxy]
          · simp [hyz, not_lt_of_lt hyz] at h2
        · subst hxy
          rcases lt_trichotomy x z with hyz | hyz | hyz
          · simp [hyz]
          · subst hyz
            simp only [lt_self_iff_false, if_false] at h1 h2 ⊢
            exact ih ys zs h1 h2
          · simp [hyz, not_lt_of_lt hyz] at h2
        · simp [hxy, not_lt_of_lt hxy] at h1
theorem comparePrePart_nonneg_iff (x y : GoString) :
    0 ≤ comparePrePart x y ↔
      x = y ∨ partClass y < partClass x ∨
        (partClass x = 1 ∧ partClass y = 1 ∧ partValue y < partValue x) ∨
        (partClass x = 2 ∧ partClass y = 2 ∧ strLess y x = true) := by
  unfold comparePrePart
  by_cases hxy : x = y
  · simp [hxy]
  · rw [if_neg hxy]
    by_cases hx : x = []
    · subst hx
      have hy : ¬ y = [] := fun e => hxy e.symm
      simp [partClass, hy, hxy]
    · rw [if_neg hx]
      by_cases hy : y = []
      · simp [hy, partClass, hx, hxy]
        split_ifs <;> simp
      · rw [if_neg hy]
        cases hpy : strconv.ParseUint y <;> cases hpx : strconv.ParseUint x <;>
          simp [partClass, partValue, hx, hy, hxy, hpx, hpy]
        · split_ifs with h <;> simp [h]
        · split_ifs with h <;> simp [h]

theorem comparePrePart_trans (x y z : GoString) (h1 : 0 ≤ comparePrePart x y)
    (h2 : 0 ≤ comparePrePart y z) : 0 ≤ comparePrePart x z := by
  rw [comparePrePart_nonneg_iff] at h1 h2 ⊢
  rcases h1 with rfl | h1
  · exact h2
  rcases h2 with rfl | h2
  · exact Or.inr h1
  right
  rcases h1 with h1 | ⟨a1, b1, c1⟩ | ⟨a1, b1, c1⟩ <;>
    rcases h2 with h2 | ⟨a2, b2, c2⟩ | ⟨a2, b2, c2⟩
  · left; omega
  · left; omega
  · left; omega
  · left; omega
  · right; left; exact ⟨a1, b2, by omega⟩
  · omega
  · left; omega
  · omega
  · right; right; exact ⟨a1, b2, strLess_trans _ _ _ c2 c1⟩
theorem ParseUint_injective (x y : GoString) (n : Nat) (hx : PartOK x) (hy : PartOK y)
    (h1 : strconv.ParseUint x = some n) (h2 : strconv.ParseUint y = some n) : x = y := by
  have e1 := FormatUint_decimalValue x (hx n h1)
  have e2 := FormatUint_decimalValue y (hy n h2)
  rw [(ParseUint_eq_some x n h1).2.2.1] at e1
  rw [(ParseUint_eq_some y n h2).2.2.1] at e2
  rw [← e1, ← e2]

theorem comparePrePart_skew (x y : GoString) (hx : PartOK x) (hy : PartOK y) :
    comparePrePart x y = - comparePrePart y x := by
  by_cases hxy : x = y
  · subst hxy
    simp [comparePrePart]
  · have hyx : ¬ y = x := fun e => hxy e.symm
    unfold comparePrePart
    rw [if_neg hxy, if_neg hyx]
    by_cases h1 : x = []
    · subst h1
      simp [hyx]
    · by_cases h2 : y = []
      · subst h2
        simp [h1]
      · rw [if_neg h1, if_neg h2, if_neg h2, if_neg h1]
        cases hpy : strconv.ParseUint y with
        | none =>
          cases hpx : strconv.ParseUint x with
          | none =>
            simp only []
            rcases strLess_total x y hxy with h | h
            · rw [h, strLess_asymm x y h]; simp
            · rw [h, strLess_asymm y x h]; simp
          | some a => simp
        | some b =>
          cases hpx : strconv.ParseUint x with
          | none => simp
          | some a =>
            simp only []
            have hab : a ≠ b := by
              intro e
              subst e
              exact hxy (ParseUint_injective x y a hx hy hpx hpy)
            split_ifs <;> omega
theorem IsCmp_lex {α : Type} (S : α → Prop) (c1 c2 : α → α → Int) (h1 : IsCmp S c1)
    (h2 : IsCmp S c2) : IsCmp S (fun x y => if c1 x y ≠ 0 then c1 x y else c2 x y) := by
  obtain ⟨s1, t1⟩ := h1
  obtain ⟨s2, t2⟩ := h2
  constructor
  · intro x y hx hy
    have e1 := s1 x y hx hy
    have e2 := s2 x y hx hy
    simp only []
    by_cases h : c1 x y = 0
    · have h' : c1 y x = 0 := by omega
      simp [h, h', e2]
    · have h' : c1 y x ≠ 0 := by omega
      simp [h, h', e1]
  · intro x y z hx hy hz hxy hyz
    simp only [] at hxy hyz ⊢
    have exy := s1 x y hx hy
    have eyz := s1 y z hy hz
    have exz := s1 x z hx hz
    have pxy : 0 ≤ c1 x y := by
      by_cases h : c1 x y = 0
      · omega
      · rw [if_pos h] at hxy; exact hxy
    have pyz : 0 ≤ c1 y z := by
      by_cases h : c1 y z = 0
      · omega
      · rw [if_pos h] at hyz; exact hyz
    have pxz := t1 x y z hx hy hz pxy pyz
    by_cases h : c1 x z = 0
    · have hzx : 0 ≤ c1 z x := by omega
      have hyx := t1 y z x hy hz hx pyz hzx
      have hzy := t1 z x y hz hx hy hzx pxy
      have zxy : c1 x y = 0 := by omega
      have zyz : c1 y z = 0 := by omega
      simp only [zxy, zyz, h, ne_eq, not_true_eq_false, if_false] at hxy hyz ⊢
      exact t2 x y z hx hy hz hxy hyz
    · rw [if_pos h]; exact pxz

theorem IsCmp_mono {α : Type} (S T : α → Prop) (cmp : α → α → Int) (h : IsCmp S cmp)
    (hst : ∀ x, T x → S x) : IsCmp T cmp :=
  ⟨fun x y hx hy => h.1 x y (hst x hx) (hst y hy),
    fun x y z hx hy hz => h.2 x y z (hst x hx) (hst y hy) (hst z hz)⟩

theorem IsCmp_comap {α β : Type} (S : β → Prop) (cmp : β → β → Int) (h : IsCmp S cmp)
    (f : α → β) : IsCmp (fun x => S (f x)) (fun x y => cmp (f x) (f y)) :=
  ⟨fun x y hx hy => h.1 (f x) (f y) hx hy,
    fun x y z hx hy hz => h.2 (f x) (f y) (f z) hx hy hz⟩

theorem IsCmp_compareSegment : IsCmp (fun _ : Nat => True) compareSegment := by
  constructor
  · intro x y _ _
    unfold compareSegment
    split_ifs <;> omega
  · intro x y z _ _ _
    unfold compareSegment
    split_ifs <;> omega

theorem IsCmp_comparePrePart : IsCmp PartOK comparePrePart :=
  ⟨comparePrePart_skew, fun x y z _ _ _ => comparePrePart_trans x y z⟩

theorem PartOK_nil : PartOK [] := by
  intro n h
  simp [strconv.ParseUint] at h

theorem comparePreParts_unfold (a b : List GoString) :
    comparePreParts a b =
      if comparePrePart (a.headD []) (b.headD []) ≠ 0 then
        comparePrePart (a.headD []) (b.headD [])
      else comparePreParts a.tail b.tail := by
  cases a with
  | nil =>
    cases b with
    | nil => simp [comparePreParts, comparePreRest, comparePrePart]
    | cons o os => simp [comparePreParts, comparePreRest]
  | cons s ss =>
    cases b with
    | nil => simp [comparePreParts]
    | cons o os => simp [comparePreParts]

theorem IsCmp_comparePreParts_bounded (n : Nat) :
    IsCmp (fun l : List GoString => (∀ p ∈ l, PartOK p) ∧ l.length ≤ n) comparePreParts := by
  induction n with
  | zero =>
    have hnil : ∀ l : List GoString, ((∀ p ∈ l, PartOK p) ∧ l.length ≤ 0) → l = [] := by
      intro l h
      exact List.length_eq_zero.1 (Nat.le_zero.1 h.2)
    constructor
    · intro x y hx hy
      rw [hnil x hx, hnil y hy]
      simp [comparePreParts, comparePreRest]
    · intro x y z hx hy hz _ _
      rw [hnil x hx, hnil z hz]
      simp [comparePreParts, comparePreRest]
  | succ n ih =>
    have hhead : ∀ l : List GoString, ((∀ p ∈ l, PartOK p) ∧ l.length ≤ n + 1) →
        PartOK (l.headD []) := by
      intro l h
      cases l with
      | nil => exact PartOK_nil
      | cons a l => exact h.1 a (by simp)
    have htail : ∀ l : List GoString, ((∀ p ∈ l, PartOK p) ∧ l.length ≤ n + 1) →
        ((∀ p ∈ l.tail, PartOK p) ∧ l.tail.length ≤ n) := by
      intro l h
      cases l with
      | nil => simp
      | cons a l =>
        refine ⟨fun p hp => h.1 p (List.mem_cons_of_mem _ hp), ?_⟩
        have := h.2
        simp at this ⊢
        exact this
    have c1 := IsCmp_mono _ _ _
      (IsCmp_comap PartOK comparePrePart IsCmp_comparePrePart (fun l : List GoString => l.headD []))
      hhead
    have c2 := IsCmp_mono _ _ _
      (IsCmp_comap _ comparePreParts ih (fun l : List GoString => l.tail)) htail
    have hl := IsCmp_lex _ _ _ c1 c2
    have e : comparePreParts = (fun x y : List GoString =>
        if comparePrePart (x.headD []) (y.headD []) ≠ 0 then
          comparePrePart (x.headD []) (y.headD [])
        else comparePreParts x.tail y.tail) := by
      funext a b
      exact comparePreParts_unfold a b
    rw [e]
    exact hl

theorem IsCmp_comparePreParts :
    IsCmp (fun l : List GoString => ∀ p ∈ l, PartOK p) comparePreParts := by
  constructor
  · intro x y hx hy
    exact (IsCmp_comparePreParts_bounded (max x.length y.length)).1 x y
      ⟨hx, le_max_left _ _⟩ ⟨hy, le_max_right _ _⟩
  · intro x y z hx hy hz
    exact (IsCmp_comparePreParts_bounded (max x.length (max y.length z.length))).2 x y z
      ⟨hx, le_max_left _ _⟩ ⟨hy, le_trans (le_max_left _ _) (le_max_right _ _)⟩
      ⟨hz, le_trans (le_max_right _ _) (le_max_right _ _)⟩
theorem IsCmp_comparePre : IsCmp VersionOK comparePre := by
  have hp := IsCmp_comparePreParts
  constructor
  · intro x y hx hy
    unfold comparePre
    by_cases h1 : x.pre = [] <;> by_cases h2 : y.pre = [] <;> simp [h1, h2]
    exact hp.1 _ _ hx hy
  · intro x y z hx hy hz hxy hyz
    unfold comparePre at hxy hyz ⊢
    by_cases h1 : x.pre = []
    · by_cases h3 : z.pre = [] <;> simp [h1, h3]
    · have h2 : y.pre ≠ [] := by
        intro h2
        simp [h1, h2] at hxy
      have h3 : z.pre ≠ [] := by
        intro h3
        simp [h2, h3] at hyz
      simp only [h1, h2, h3, Bool.and_self, decide_False, Bool.false_eq_true, if_false] at hxy hyz ⊢
      exact hp.2 _ _ _ hx hy hz hxy hyz

theorem Compare_eq_lex : Version.Compare = (fun v o : Version =>
    if compareSegment v.major o.major ≠ 0 then compareSegment v.major o.major
    else if compareSegment v.minor o.minor ≠ 0 then compareSegment v.minor o.minor
    else if compareSegment v.patch o.patch ≠ 0 then compareSegment v.patch o.patch
    else comparePre v o) := by
  funext v o
  rfl

theorem IsCmp_Compare : IsCmp VersionOK Version.Compare := by
  have hseg : ∀ f : Version → Nat, IsCmp VersionOK (fun v o => compareSegment (f v) (f o)) :=
    fun f => IsCmp_mono _ _ _ (IsCmp_comap _ compareSegment IsCmp_compareSegment f)
      (fun _ _ => trivial)
  rw [Compare_eq_lex]
  exact IsCmp_lex _ _ _ (hseg Version.major)
    (IsCmp_lex _ _ _ (hseg Version.minor)
      (IsCmp_lex _ _ _ (hseg Version.patch) IsCmp_comparePre))

theorem PartOK_of_validPrereleasePart (p : GoString) (h : validPrereleasePart p = true) :
    PartOK p := by
  intro n hn
  obtain ⟨hne, hd, _, _⟩ := ParseUint_eq_some p n hn
  refine ⟨hne, hd, ?_⟩
  intro hlen
  unfold validPrereleasePart at h
  rw [if_pos (containsOnly_num_of_digits p hd)] at h
  intro hh
  simp [hlen, hh] at h

theorem VersionOK_of_StrictNewVersion (s : GoString) (v : Version)
    (h : StrictNewVersion s = some v) : VersionOK v := by
  unfold StrictNewVersion at h
  split_ifs at h with h0
  split at h
  · dsimp only at h
    split_ifs at h with h1 h2
    · split at h
      · simp only [Option.some.injEq] at h
        subst h
        unfold VersionOK
        simp only [Bool.and_eq_true, Bool.or_eq_true, decide_eq_true_eq] at h2
        rcases h2.1 with hp | hp
        · rw [hp]
          intro p hp'
          have : p = [] := by
            have e : strings.Split [] ".".toList = [[]] := by decide
            rw [e] at hp'
            simpa using hp'
          rw [this]
          exact PartOK_nil
        · intro p hp'
          unfold validatePrerelease at hp
          rw [List.all_eq_true] at hp
          exact PartOK_of_validPrereleasePart p (hp p hp')
      · cases h
    · split at h <;> cases h
  · cases h
/-! ## Helper lemmas: `sort.Sort` -/

theorem insertLeft_perm {α : Type} (less : α → α → Bool) (x : α) (rev : List α) :
    (sort.insertLeft less x rev).Perm (x :: rev) := by
  induction rev with
  | nil => exact List.Perm.refl _
  | cons p ps ih =>
    unfold sort.insertLeft
    split_ifs
    · exact ((List.Perm.cons p ih).trans (List.Perm.swap x p ps))
    · exact List.Perm.refl _

theorem foldl_insertLeft_perm {α : Type} (less : α → α → Bool) (l acc : List α) :
    (l.foldl (fun rev x => sort.insertLeft less x rev) acc).Perm (l ++ acc) := by
  induction l generalizing acc with
  | nil => exact List.Perm.refl _
  | cons a l ih =>
    simp only [List.foldl_cons, List.cons_append]
    exact (ih _).trans ((List.Perm.append_left l (insertLeft_perm less a acc)).trans
      List.perm_middle)

theorem insertionSort_perm {α : Type} (less : α → α → Bool) (l : List α) :
    (sort.insertionSort less l).Perm l := by
  unfold sort.insertionSort
  have h := foldl_insertLeft_perm less l []
  rw [List.append_nil] at h
  exact (List.reverse_perm _).trans h

theorem insertLeft_sorted {α : Type} (S : α → Prop) (cmp : α → α → Int) (hc : IsCmp S cmp)
    (mv : α → α → Bool) (h1 : ∀ x p, S x → S p → mv x p = true → 0 ≤ cmp x p)
    (h2 : ∀ x p, S x → S p → mv x p = false → 0 ≤ cmp p x)
    (x : α) (rev : List α) (hx : S x) (hS : ∀ q ∈ rev, S q)
    (hs : rev.Pairwise (fun a b => 0 ≤ cmp b a)) :
    (sort.insertLeft mv x rev).Pairwise (fun a b => 0 ≤ cmp b a) := by
  induction rev with
  | nil => simp [sort.insertLeft]
  | cons p ps ih =>
    rw [List.pairwise_cons] at hs
    have hp : S p := hS p (by simp)
    have hps : ∀ q ∈ ps, S q := fun q hq => hS q (List.mem_cons_of_mem _ hq)
    unfold sort.insertLeft
    by_cases hlt : mv x p = true
    · rw [if_pos hlt, List.pairwise_cons]
      refine ⟨?_, ih hps hs.2⟩
      intro q hq
      rcases List.mem_cons.1 ((insertLeft_perm _ x ps).subset hq) with rfl | hq
      · exact h1 q p hx hp hlt
      · exact hs.1 q hq
    · rw [if_neg hlt, List.pairwise_cons]
      have hpx : 0 ≤ cmp p x := h2 x p hx hp (by simpa using hlt)
      refine ⟨?_, List.pairwise_cons.2 hs⟩
      intro q hq
      rcases List.mem_cons.1 hq with rfl | hq
      · exact hpx
      · exact hc.2 q p x (hps q hq) hp hx (hs.1 q hq) hpx

theorem foldl_insertLeft_sorted {α : Type} (S : α → Prop) (cmp : α → α → Int)
    (hc : IsCmp S cmp) (mv : α → α → Bool)
    (h1 : ∀ x p, S x → S p → mv x p = true → 0 ≤ cmp x p)
    (h2 : ∀ x p, S x → S p → mv x p = false → 0 ≤ cmp p x)
    (l acc : List α) (hl : ∀ q ∈ l, S q) (hS : ∀ q ∈ acc, S q)
    (hs : acc.Pairwise (fun a b => 0 ≤ cmp b a)) :
    (l.foldl (fun rev x => sort.insertLeft mv x rev) acc).Pairwise
      (fun a b => 0 ≤ cmp b a) := by
  induction l generalizing acc with
  | nil => exact hs
  | cons a l ih =>
    simp only [List.foldl_cons]
    refine ih _ (fun q hq => hl q (List.mem_cons_of_mem _ hq)) ?_ ?_
    · intro q hq
      rcases List.mem_cons.1 ((insertLeft_perm _ a acc).subset hq) with rfl | hq
      · exact hl q (by simp)
      · exact hS q hq
    · exact insertLeft_sorted S cmp hc mv h1 h2 a acc (hl a (by simp)) hS hs

theorem insertionSort_sorted {α : Type} (S : α → Prop) (cmp : α → α → Int) (hc : IsCmp S cmp)
    (mv : α → α → Bool) (h1 : ∀ x p, S x → S p → mv x p = true → 0 ≤ cmp x p)
    (h2 : ∀ x p, S x → S p → mv x p = false → 0 ≤ cmp p x)
    (l : List α) (hl : ∀ q ∈ l, S q) :
    (sort.insertionSort mv l).Pairwise (fun a b => 0 ≤ cmp a b) := by
  unfold sort.insertionSort
  rw [List.pairwise_reverse]
  exact foldl_insertLeft_sorted S cmp hc mv h1 h2 l [] hl (by simp) List.Pairwise.nil

theorem Sort_perm {α : Type} (tie : Nat → Nat → Bool) (less : α → α → Bool) (l : List α) :
    (sort.Sort tie less l).Perm l := by
  unfold sort.Sort
  split_ifs
  · exact insertionSort_perm _ l
  · have h := (insertionSort_perm
      (fun a b : α × Nat => less a.1 b.1 || (!less b.1 a.1 && tie a.2 b.2))
      (l.zip (List.range l.length))).map Prod.fst
    rw [List.map_fst_zip _ _ (by simp)] at h
    exact h

theorem Sort_sorted {α : Type} (S : α → Prop) (cmp : α → α → Int) (hc : IsCmp S cmp)
    (tie : Nat → Nat → Bool) (l : List α) (hl : ∀ q ∈ l, S q) :
    (sort.Sort tie (fun a b => decide (cmp b a < 0)) l).Pairwise
      (fun a b => 0 ≤ cmp a b) := by
  unfold sort.Sort
  split_ifs
  · refine insertionSort_sorted S cmp hc _ ?_ ?_ l hl
    · intro x p hx hp h
      have := hc.1 x p hx hp
      have h' : cmp p x < 0 := by simpa using h
      omega
    · intro x p _ _ h
      have h' : ¬ cmp p x < 0 := by simpa using h
      omega
  · rw [List.pairwise_map]
    have hc' : IsCmp (fun a : α × Nat => S a.1) (fun a b => cmp a.1 b.1) :=
      ⟨fun x y hx hy => hc.1 x.1 y.1 hx hy,
        fun x y z hx hy hz => hc.2 x.1 y.1 z.1 hx hy hz⟩
    refine insertionSort_sorted (fun a : α × Nat => S a.1) (fun a b => cmp a.1 b.1) hc' _
      ?_ ?_ _ ?_
    · intro x p hx hp h
      have := hc.1 x.1 p.1 hx hp
      simp only [Bool.or_eq_true, decide_eq_true_eq, Bool.and_eq_true, Bool.not_eq_true',
        decide_eq_false_iff_not] at h
      show 0 ≤ cmp x.1 p.1
      rcases h with h | ⟨h, _⟩ <;> omega
    · intro x p _ _ h
      simp only [Bool.or_eq_false_iff, decide_eq_false_iff_not] at h
      show 0 ≤ cmp p.1 x.1
      omega
    · intro q hq
      exact hl q.1 (List.of_mem_zip hq).1

theorem tagVersions_ok (registryTags : List GoString) :
    ∀ v ∈ Client.tagVersions registryTags, VersionOK v := by
  intro v hv
  unfold Client.tagVersions at hv
  obtain ⟨tag, _, h⟩ := List.mem_filterMap.1 hv
  exact VersionOK_of_StrictNewVersion _ v h

/-! ## Claims on `Client.Tags` -/

/-- C7, as the code runs: the list `Client.Tags` returns is the renderings, by
`Version.String`, of a list of versions that is a rearrangement of the versions of exactly
those registry tags that `StrictNewVersion` accepts once `_` is turned back into `+` (none
added, none dropped, multiplicity kept), and that is in non-increasing precedence: no version
stands before one that `Compare` ranks above it.  A tag whose text, with `+` restored, is a
semantic version with numbers below `2 ^ 64` is accepted, its rendering is exactly that text,
and it is listed under it.  This holds whatever `sort.Sort` does with ties. -/
theorem C7_tags_sorted_renderings (tie : Nat → Nat → Bool)
    (registryTags : List GoString) :
    (∃ vs : List Version,
      vs.Perm (registryTags.filterMap
        (fun tag => StrictNewVersion (strings.ReplaceAll tag "_".toList "+".toList))) ∧
      vs.Pairwise (fun a b => 0 ≤ a.Compare b) ∧
      Client.Tags tie registryTags = vs.map Version.String) ∧
    (∀ tag ∈ registryTags, IsSemVer64 (strings.ReplaceAll tag "_".toList "+".toList) →
      (∃ v, StrictNewVersion (strings.ReplaceAll tag "_".toList "+".toList) = some v ∧
        v.String = strings.ReplaceAll tag "_".toList "+".toList) ∧
      strings.ReplaceAll tag "_".toList "+".toList ∈ Client.Tags tie registryTags) := by
  constructor
  · refine ⟨sort.Sort tie (fun a b => Version.LessThan b a) (Client.tagVersions registryTags),
      Sort_perm _ _ _, ?_, rfl⟩
    exact Sort_sorted VersionOK Version.Compare IsCmp_Compare tie _ (tagVersions_ok registryTags)
  · intro tag htag hv
    obtain ⟨a, b, c, pre, build, ha, hb, hc, hpre, hbuild, la, lb, lc, hs⟩ := hv
    have hparse := StrictNewVersion_render a b c pre build ha hb hc hpre hbuild la lb lc
    rw [← hs] at hparse
    have hstr := String_render a b c pre build ha hb hc hpre hbuild
      (strings.ReplaceAll tag "_".toList "+".toList)
    rw [← hs] at hstr
    have hmem : (⟨strconv.decimalValue a, strconv.decimalValue b, strconv.decimalValue c,
        if pre = [] then [] else List.intercalate ['.'] pre,
        if build = [] then [] else List.intercalate ['.'] build,
        strings.ReplaceAll tag "_".toList "+".toList⟩ : Version) ∈
        Client.tagVersions registryTags := by
      unfold Client.tagVersions
      exact List.mem_filterMap.2 ⟨tag, htag, hparse⟩
    refine ⟨⟨_, hparse, hstr⟩, ?_⟩
    unfold Client.Tags
    exact List.mem_map.2 ⟨_, (Sort_perm _ _ _).mem_iff.2 hmem, hstr⟩

/-- Witness of C7 on the registry tags `1.0.0_build5, latest, 2.0.0`: the listing is sorted
and the first tag is listed as `1.0.0+build5`. -/
theorem C7_tags_sorted_renderings_witness :
    Client.Tags sort.keepOrder ["1.0.0_build5".toList, "latest".toList, "2.0.0".toList] =
        ["2.0.0".toList, "1.0.0+build5".toList] ∧
      "1.0.0+build5".toList ∈
        Client.Tags sort.keepOrder
          ["1.0.0_build5".toList, "latest".toList, "2.0.0".toList] := by
  have e : strings.ReplaceAll "1.0.0_build5".toList "_".toList "+".toList =
      "1.0.0+build5".toList := by decide
  have h := ((C7_tags_sorted_renderings sort.keepOrder
    ["1.0.0_build5".toList, "latest".toList, "2.0.0".toList]).2 "1.0.0_build5".toList
    (by decide) (by rw [e]; exact isSemVer64_example)).2
  rw [e] at h
  exact ⟨by decide, h⟩

/-- C7 as stated fails: `StrictNewVersion` accepts the tag `1.0.0-`, with an empty
pre-release, and `Client.Tags` lists it as `1.0.0`, the rendering of its version: the tag
itself is not in the list, and the list holds a text that is no registry tag. -/
theorem C7_listed_text_not_the_tag :
    (StrictNewVersion (strings.ReplaceAll "1.0.0-".toList "_".toList "+".toList)).isSome =
        true ∧
      Client.Tags sort.keepOrder ["1.0.0-".toList] = ["1.0.0".toList] ∧
      "1.0.0-".toList ∉ Client.Tags sort.keepOrder ["1.0.0-".toList] ∧
      "1.0.0".toList ∉ ["1.0.0-".toList] := by
  decide

/-! ## Claims on reference resolution and the OCI scheme -/

/-- C11: for every host check that accepts `h`, resolving `oci://h/r:1.0.0` (scheme stripped
as `OCIGetter.get` does, then `parseReference`) succeeds with registry `h`, repository `r`
and tag `1.0.0`. -/
theorem C11_example_reference_resolves (hostOK : GoString → Bool)
    (hhost : hostOK "h".toList = true) :
    parseReference hostOK (OCIGetter.ref "oci://h/r:1.0.0".toList) =
      (⟨"h".toList, "r".toList, "1.0.0".toList⟩, none) := by
  have e1 : parseReferenceRaw (OCIGetter.ref "oci://h/r:1.0.0".toList) = "h/r:1.0.0".toList := by
    decide
  have e2 : oras.splitReference "h/r:1.0.0".toList =
      some ⟨"h".toList, "r".toList, "1.0.0".toList⟩ := by decide
  have e3 : oras.repositoryOK "r".toList = true := by decide
  have e4 : oras.referenceOK "1.0.0".toList = true := by decide
  unfold parseReference oras.ParseReference
  rw [e1, e2]
  simp only [oras.Validate, hhost, e3, e4, Bool.not_true, Bool.false_eq_true, if_false]

/-- Witness of C11 with a host check that accepts every registry. -/
theorem C11_example_reference_resolves_witness :
    parseReference (fun _ => true) (OCIGetter.ref "oci://h/r:1.0.0".toList) =
      (⟨"h".toList, "r".toList, "1.0.0".toList⟩, none) :=
  C11_example_reference_resolves (fun _ => true) rfl

theorem IsOCI_iff (url : GoString) :
    IsOCI url = true ↔ ∃ rest, url = "oci://".toList ++ rest := by
  have e : OCIScheme ++ "://".toList = "oci://".toList := by decide
  unfold IsOCI strings.HasPrefix
  rw [e, List.isPrefixOf_iff_prefix]
  constructor
  · rintro ⟨t, ht⟩
    exact ⟨t, ht.symm⟩
  · rintro ⟨t, ht⟩
    exact ⟨t, ht.symm⟩

/-- C12: `IsOCI url` is true exactly when `url` starts with `oci://`; for a remote that does
not start with `oci://`, `Pull.Run` and `Push.Run` return their scheme error whatever the
download or upload behind them would do, so without calling it. -/
theorem C12_scheme_checked_first :
    (∀ url : GoString, IsOCI url = true ↔ ∃ rest, url = "oci://".toList ++ rest) ∧
    (∀ (downloadTo : GoString → GoString × GoString × Option GoString) (remote : GoString),
      (¬ ∃ rest, remote = "oci://".toList ++ rest) →
      Pull.Run downloadTo remote = ([], some (RunError.notValidOCIReference remote))) ∧
    (∀ (uploadTo : GoString → GoString → GoString → GoString × Option GoString)
      (wasmExe metadataFile remote : GoString),
      (¬ ∃ rest, remote = "oci://".toList ++ rest) →
      Push.Run uploadTo wasmExe metadataFile remote = ([], some RunError.onlyOCISupported)) := by
  refine ⟨IsOCI_iff, ?_, ?_⟩
  · intro downloadTo remote h
    have hno : IsOCI remote = false := by
      rw [← Bool.not_eq_true, IsOCI_iff]
      exact h
    unfold Pull.Run
    rw [hno]
    rfl
  · intro uploadTo wasmExe metadataFile remote h
    have hno : IsOCI remote = false := by
      rw [← Bool.not_eq_true, IsOCI_iff]
      exact h
    unfold Push.Run
    rw [hno]
    rfl

/-- Witness of C12 on the remote `http://h/r`. -/
theorem C12_scheme_checked_first_witness :
    IsOCI "http://h/r".toList = false ∧
      Pull.Run (fun _ => ("saved".toList, [], none)) "http://h/r".toList =
        ([], some (RunError.notValidOCIReference "http://h/r".toList)) ∧
      Push.Run (fun _ _ _ => ([], none)) [] [] "http://h/r".toList =
        ([], some RunError.onlyOCISupported) := by
  have hno : ¬ ∃ rest, "http://h/r".toList = "oci://".toList ++ rest := by
    rw [← IsOCI_iff]
    decide
  exact ⟨by decide, C12_scheme_checked_first.2.1 _ _ hno,
    C12_scheme_checked_first.2.2 _ _ _ _ hno⟩

/-- C14: `getVersionFromRef` and the computation inside `DownloadWASMExtension` return the
same pair for every reference; when the reference parses, the version is the tag of the
parsed reference if that tag is not empty and `semver.NewVersion` accepts it, and is
`>0.0.0-0` otherwise; when it does not parse, the parse error is returned. -/
theorem C14_version_from_reference (hostOK : GoString → Bool) (ref : GoString) :
    getVersionFromRef hostOK ref = DownloadWASMExtension.version hostOK ref ∧
    (∀ parsed, oras.ParseReference hostOK (strings.TrimPrefix ref "oci://".toList) =
        (parsed, none) →
      (parsed.Reference ≠ [] → (∃ w, semver.NewVersion parsed.Reference = some w) →
        getVersionFromRef hostOK ref = (parsed.Reference, none)) ∧
      ((parsed.Reference = [] ∨ semver.NewVersion parsed.Reference = none) →
        getVersionFromRef hostOK ref = (">0.0.0-0".toList, none))) ∧
    (∀ parsed err, oras.ParseReference hostOK (strings.TrimPrefix ref "oci://".toList) =
        (parsed, some err) → getVersionFromRef hostOK ref = ([], some err)) := by
  have e : OCIScheme ++ "://".toList = "oci://".toList := by decide
  refine ⟨?_, ?_, ?_⟩
  · unfold getVersionFromRef DownloadWASMExtension.version
    rw [e]
    dsimp only
    rcases hp : oras.ParseReference hostOK (strings.TrimPrefix ref "oci://".toList) with
      ⟨parsed, _ | err⟩
    · dsimp only
      split_ifs <;> rfl
    · rfl
  · intro parsed hp
    unfold getVersionFromRef
    rw [e]
    dsimp only
    rw [hp]
    constructor
    · rintro hne ⟨w, hw⟩
      simp [hne, hw]
    · rintro (h | h)
      · simp [h]
      · simp [h]
  · intro parsed err hp
    unfold getVersionFromRef
    rw [e]
    dsimp only
    rw [hp]

/-- Witness of C14 on `oci://h/r:1.0.0` and on `oci://h/r:latest`. -/
theorem C14_version_from_reference_witness :
    getVersionFromRef (fun _ => true) "oci://h/r:1.0.0".toList = ("1.0.0".toList, none) ∧
      getVersionFromRef (fun _ => true) "oci://h/r:latest".toList =
        (">0.0.0-0".toList, none) := by
  have h1 := (C14_version_from_reference (fun _ => true) "oci://h/r:1.0.0".toList).2.1
    ⟨"h".toList, "r".toList, "1.0.0".toList⟩ (by decide)
  have h2 := (C14_version_from_reference (fun _ => true) "oci://h/r:latest".toList).2.1
    ⟨"h".toList, "r".toList, "latest".toList⟩ (by decide)
  exact ⟨h1.1 (by decide) ⟨_, Option.get_mem (by decide : (semver.NewVersion
    "1.0.0".toList).isSome = true)⟩, h2.2 (Or.inr (by decide))⟩

/-! ## Claims on the metadata -/

theorem IsPrint_space (printTable : Char → Bool) : unicode.IsPrint printTable ' ' = true := by
  rfl

theorem mem_sanitizeString (printTable : Char → Bool) (str : GoString) (c : Char)
    (h : c ∈ sanitizeString printTable str) :
    (c = ' ' ∧ ∃ r ∈ str, unicode.IsSpace r = true) ∨
      (c ∈ str ∧ unicode.IsSpace c = false ∧ unicode.IsPrint printTable c = true) := by
  unfold sanitizeString at h
  obtain ⟨r, hr, hf⟩ := List.mem_filterMap.1 h
  by_cases hs : unicode.IsSpace r = true
  · rw [if_pos hs] at hf
    exact Or.inl ⟨(Option.some.inj hf).symm, r, hr, hs⟩
  · rw [if_neg hs] at hf
    by_cases hp : unicode.IsPrint printTable r = true
    · rw [if_pos hp] at hf
      have e := Option.some.inj hf
      subst e
      exact Or.inr ⟨hr, by simpa using hs, hp⟩
    · rw [if_neg hp] at hf
      cases hf

theorem sanitizeString_printable (printTable : Char → Bool) (str : GoString) :
    ∀ c ∈ sanitizeString printTable str, unicode.IsPrint printTable c = true := by
  intro c hc
  rcases mem_sanitizeString printTable str c hc with ⟨rfl, _⟩ | ⟨_, _, hp⟩
  · exact IsPrint_space printTable
  · exact hp

/-- C18, as the code runs: for every input string the result of `sanitizeString` contains no
non-printable character and no white-space character other than the space; each white-space
character of the input yields one space of its own and every other printable character is
kept in place, so the result is never longer than the input. -/
theorem C18_sanitize_printable_spaces (printTable : Char → Bool) (str : GoString) :
    (∀ c ∈ sanitizeString printTable str, unicode.IsPrint printTable c = true) ∧
    (∀ c ∈ sanitizeString printTable str, unicode.IsSpace c = true → c = ' ') ∧
    (sanitizeString printTable str).length ≤ str.length ∧
    (∀ c ∈ str, unicode.IsSpace c = false → unicode.IsPrint printTable c = true →
      c ∈ sanitizeString printTable str) ∧
    ((∃ r ∈ str, unicode.IsSpace r = true) → ' ' ∈ sanitizeString printTable str) := by
  refine ⟨sanitizeString_printable printTable str, ?_, ?_, ?_, ?_⟩
  · intro c hc hs
    rcases mem_sanitizeString printTable str c hc with ⟨rfl, _⟩ | ⟨_, hn, _⟩
    · rfl
    · rw [hs] at hn
      cases hn
  · unfold sanitizeString
    exact List.length_filterMap_le _ _
  · intro c hc hs hp
    unfold sanitizeString
    exact List.mem_filterMap.2 ⟨c, hc, by simp [hs, hp]⟩
  · rintro ⟨r, hr, hs⟩
    unfold sanitizeString
    exact List.mem_filterMap.2 ⟨r, hr, by simp [hs]⟩

/-- C18, the claim as written fails: a run of two spaces is not collapsed, `a  b` comes back
as `a  b`. -/
theorem C18_spaces_not_collapsed :
    sanitizeString (fun _ => false) ['a', ' ', ' ', 'b'] = ['a', ' ', ' ', 'b'] ∧
      sanitizeString (fun _ => false) ['a', Char.ofNat 9, ' ', 'b'] = ['a', ' ', ' ', 'b'] := by
  decide

theorem validateMaintainers_ok (printTable : Char → Bool) (l : List (Option Maintainer)) :
    (validateMaintainers printTable l).2 = none ↔ ∀ m ∈ l, m ≠ none := by
  induction l with
  | nil => simp [validateMaintainers]
  | cons m rest ih =>
    cases m with
    | none => simp [validateMaintainers, Maintainer.Validate]
    | some m => simp [validateMaintainers, Maintainer.Validate, ih]

theorem validateMaintainers_mem (printTable : Char → Bool) (l : List (Option Maintainer))
    (h : (validateMaintainers printTable l).2 = none) :
    ∀ m' ∈ (validateMaintainers printTable l).1, ∃ m, some m ∈ l ∧
      m' = some ⟨sanitizeString printTable m.Name, sanitizeString printTable m.Email,
        sanitizeString printTable m.URL⟩ := by
  induction l with
  | nil => simp [validateMaintainers]
  | cons m rest ih =>
    cases m with
    | none => simp [validateMaintainers, Maintainer.Validate] at h
    | some m =>
      simp only [validateMaintainers, Maintainer.Validate] at h ⊢
      intro m' hm'
      rcases List.mem_cons.1 hm' with rfl | hm'
      · exact ⟨m, by simp, rfl⟩
      · obtain ⟨m0, hm0, e⟩ := ih h m' hm'
        exact ⟨m0, List.mem_cons_of_mem _ hm0, e⟩

theorem sanitizeString_eq_nil_of_nil (printTable : Char → Bool) :
    sanitizeString printTable [] = [] := rfl

theorem Validate_ok_iff (printTable : Char → Bool) (md : Option Metadata)
    (md' : Option Metadata) :
    Metadata.Validate printTable md = (md', none) ↔
      ∃ m, md = some m ∧
        (m.sanitized printTable).APIVersion ≠ [] ∧ (m.sanitized printTable).Name ≠ [] ∧
        (m.sanitized printTable).Version ≠ [] ∧
        isValidSemver (m.sanitized printTable).Version = true ∧
        (∀ x ∈ m.Maintainers, x ≠ none) ∧
        md' = some { m.sanitized printTable with
          Maintainers := (validateMaintainers printTable m.Maintainers).1 } := by
  cases md with
  | none => simp [Metadata.Validate]
  | some m =>
    have hm : (m.sanitized printTable).Maintainers = m.Maintainers := rfl
    unfold Metadata.Validate
    dsimp only
    by_cases h1 : (m.sanitized printTable).APIVersion = []
    · simp [h1]
    · by_cases h2 : (m.sanitized printTable).Name = []
      · simp [h1, h2]
      · by_cases h3 : (m.sanitized printTable).Version = []
        · simp [h1, h2, h3]
        · by_cases h4 : isValidSemver (m.sanitized printTable).Version = true
          · rw [if_neg h1, if_neg h2, if_neg h3, if_neg (by simp [h4]), hm]
            simp only [Prod.mk.injEq, validateMaintainers_ok, Option.some.injEq, exists_eq_left',
              ne_eq, h1, h2, h3, h4, not_false_eq_true, true_and]
            constructor
            · rintro ⟨e, h⟩
              exact ⟨h, e.symm⟩
            · rintro ⟨h, e⟩
              exact ⟨e.symm, h⟩
          · rw [if_neg h1, if_neg h2, if_neg h3, if_pos (by simp [h4])]
            simp [h4]

theorem identTail_spec (s : GoString) :
    s = (identTail s).1 ++ (identTail s).2 ∧
      ∀ c ∈ (identTail s).1, isIdentChar c = true ∨ c = '.' := by
  induction s with
  | nil => simp [identTail]
  | cons a s ih =>
    unfold identTail
    by_cases h1 : isIdentChar a = true
    · rw [if_pos h1]
      refine ⟨by simp [← ih.1], ?_⟩
      intro c hc
      rcases List.mem_cons.1 hc with rfl | hc
      · exact Or.inl h1
      · exact ih.2 c hc
    · rw [if_neg h1]
      by_cases h2 : (a == '.' && (s.head?.map isIdentChar == some true)) = true
      · rw [if_pos h2]
        refine ⟨by simp [← ih.1], ?_⟩
        intro c hc
        rcases List.mem_cons.1 hc with rfl | hc
        · simp only [Bool.and_eq_true, beq_iff_eq] at h2
          exact Or.inr h2.1
        · exact ih.2 c hc
      · rw [if_neg h2]
        simp

theorem dotted_spec (s m r : GoString) (h : dotted s = some (m, r)) :
    s = m ++ r ∧ ∀ c ∈ m, isIdentChar c = true ∨ c = '.' := by
  cases s with
  | nil => simp [dotted] at h
  | cons a s =>
    unfold dotted at h
    dsimp only at h
    by_cases h1 : isIdentChar a = true
    · rw [if_pos h1] at h
      simp only [Option.some.injEq, Prod.mk.injEq] at h
      obtain ⟨rfl, rfl⟩ := h
      have ih := identTail_spec s
      refine ⟨by simp [← ih.1], ?_⟩
      intro c hc
      rcases List.mem_cons.1 hc with rfl | hc
      · exact Or.inl h1
      · exact ih.2 c hc
    · rw [if_neg h1] at h
      cases h

theorem optTagged_spec (lead : Char) (s : GoString) :
    ((optTagged lead s).1 = [] ∧ (optTagged lead s).2 = s) ∨
      (s = lead :: ((optTagged lead s).1 ++ (optTagged lead s).2) ∧
        ∀ c ∈ (optTagged lead s).1, isIdentChar c = true ∨ c = '.') := by
  cases s with
  | nil => exact Or.inl ⟨rfl, rfl⟩
  | cons a s =>
    unfold optTagged
    dsimp only
    by_cases h1 : (a == lead) = true
    · rw [if_pos h1]
      cases hd : dotted s with
      | none => exact Or.inl ⟨rfl, rfl⟩
      | some r =>
        obtain ⟨e, hc⟩ := dotted_spec s r.1 r.2 hd
        right
        simp only [beq_iff_eq] at h1
        refine ⟨by rw [h1, ← e], hc⟩
    · rw [if_neg h1]
      exact Or.inl ⟨rfl, rfl⟩

theorem optDotClass_spec (p : Char → Bool) (s : GoString) :
    s = (optDotClass p s).1 ++ (optDotClass p s).2 ∧
      ∀ c ∈ (optDotClass p s).1, c = '.' ∨ p c = true := by
  unfold optDotClass
  split
  · rename_i c d ds
    by_cases h : (c == '.' && p d) = true
    · rw [if_pos h]
      simp only [Bool.and_eq_true, beq_iff_eq] at h
      refine ⟨by simp [List.takeWhile_append_dropWhile], ?_⟩
      intro x hx
      rcases List.mem_cons.1 hx with rfl | hx
      · exact Or.inl h.1
      · rcases List.mem_cons.1 hx with rfl | hx
        · exact Or.inr h.2
        · exact Or.inr (List.mem_takeWhile_imp hx)
    · rw [if_neg h]
      simp
  · simp

theorem matchVersionRegex_chars (v : GoString)
    (h : (matchVersionRegex v).isSome = true) : ∀ c ∈ v, IsVersionChar c := by
  -- the text after the optional `v`
  have key : ∀ s : GoString,
      (optTagged '+' (optTagged '-' (optDotClass strconv.isDigit
        (optDotClass strconv.isDigit (s.dropWhile strconv.isDigit)).2).2).2).2 = [] →
      ∀ c ∈ s, IsVersionChar c := by
    intro s hs c hc
    have e0 := (List.takeWhile_append_dropWhile strconv.isDigit s).symm
    have s2 := optDotClass_spec strconv.isDigit (s.dropWhile strconv.isDigit)
    have s3 := optDotClass_spec strconv.isDigit
      (optDotClass strconv.isDigit (s.dropWhile strconv.isDigit)).2
    have s5 := optTagged_spec '-' (optDotClass strconv.isDigit
      (optDotClass strconv.isDigit (s.dropWhile strconv.isDigit)).2).2
    have s8 := optTagged_spec '+' (optTagged '-' (optDotClass strconv.isDigit
      (optDotClass strconv.isDigit (s.dropWhile strconv.isDigit)).2).2).2
    have hdig : ∀ x, (x = '.' ∨ strconv.isDigit x = true) → IsVersionChar x := by
      rintro x (rfl | hx)
      · exact Or.inr (Or.inl rfl)
      · exact Or.inl (isDigit_isIdentChar x hx)
    have hid : ∀ x, (isIdentChar x = true ∨ x = '.') → IsVersionChar x := by
      rintro x (hx | rfl)
      · exact Or.inl hx
      · exact Or.inr (Or.inl rfl)
    -- characters of the rest after the `-` group
    have c8 : ∀ x ∈ (optTagged '-' (optDotClass strconv.isDigit
        (optDotClass strconv.isDigit (s.dropWhile strconv.isDigit)).2).2).2,
        IsVersionChar x := by
      intro x hx
      rcases s8 with ⟨_, e⟩ | ⟨e, hch⟩
      · rw [← e, hs] at hx
        cases hx
      · rw [e, hs, List.append_nil] at hx
        rcases List.mem_cons.1 hx with rfl | hx
        · exact Or.inr (Or.inr rfl)
        · exact hid x (hch x hx)
    have c5 : ∀ x ∈ (optDotClass strconv.isDigit
        (optDotClass strconv.isDigit (s.dropWhile strconv.isDigit)).2).2,
        IsVersionChar x := by
      intro x hx
      rcases s5 with ⟨_, e⟩ | ⟨e, hch⟩
      · rw [← e] at hx
        exact c8 x hx
      · rw [e] at hx
        rcases List.mem_cons.1 hx with rfl | hx
        · exact Or.inl (by decide)
        · rcases List.mem_append.1 hx with hx | hx
          · exact hid x (hch x hx)
          · exact c8 x hx
    have c3 : ∀ x ∈ (optDotClass strconv.isDigit (s.dropWhile strconv.isDigit)).2,
        IsVersionChar x := by
      intro x hx
      rw [s3.1] at hx
      rcases List.mem_append.1 hx with hx | hx
      · exact hdig x (s3.2 x hx)
      · exact c5 x hx
    have c2 : ∀ x ∈ s.dropWhile strconv.isDigit, IsVersionChar x := by
      intro x hx
      rw [s2.1] at hx
      rcases List.mem_append.1 hx with hx | hx
      · exact hdig x (s2.2 x hx)
      · exact c3 x hx
    rw [e0] at hc
    rcases List.mem_append.1 hc with hc | hc
    · exact Or.inl (isDigit_isIdentChar c (List.mem_takeWhile_imp hc))
    · exact c2 c hc
  unfold matchVersionRegex at h
  dsimp only at h
  split_ifs at h with h1 h2
  · cases h
  · cases v with
    | nil => exact fun c hc => by cases hc
    | cons a v =>
      by_cases ha : (a == 'v') = true
      · simp only [ha, if_true] at h2
        intro c hc
        rcases List.mem_cons.1 hc with rfl | hc
        · simp only [beq_iff_eq] at ha
          rw [ha]
          exact Or.inl (by decide)
        · exact key v h2 c hc
      · simp only [ha, Bool.false_eq_true, if_false] at h2
        exact key (a :: v) h2
  · cases h

/-- C17: when `Metadata.Validate` returns a nil error the metadata was not nil, and its
name, version and API version, before and after the call, are not empty and
`semver.NewVersion` accepts the version; `Validate` returns an error for the nil metadata
and for a metadata with an empty API version, an empty name, an empty version, a version
`semver.NewVersion` rejects, or a nil maintainer. -/
theorem C17_validate_required_fields (printTable : Char → Bool) :
    (∀ md md', Metadata.Validate printTable md = (md', none) →
      ∃ m m', md = some m ∧ md' = some m' ∧
        m.Name ≠ [] ∧ m.Version ≠ [] ∧ m.APIVersion ≠ [] ∧
        m'.Name ≠ [] ∧ m'.Version ≠ [] ∧ m'.APIVersion ≠ [] ∧
        (∃ w, semver.NewVersion m'.Version = some w) ∧ m'.Version = m.Version) ∧
    (Metadata.Validate printTable none).2 ≠ none ∧
    (∀ m : Metadata,
      (m.APIVersion = [] ∨ m.Name = [] ∨ m.Version = [] ∨ semver.NewVersion m.Version = none ∨
        none ∈ m.Maintainers) →
      (Metadata.Validate printTable (some m)).2 ≠ none) := by
  refine ⟨?_, by simp [Metadata.Validate], ?_⟩
  · intro md md' h
    obtain ⟨m, rfl, hA, hN, hV, hS, _, rfl⟩ := (Validate_ok_iff printTable md md').1 h
    refine ⟨m, _, rfl, rfl, ?_, hV, hA, hN, hV, hA, ?_, rfl⟩
    · intro e
      apply hN
      show sanitizeString printTable m.Name = []
      rw [e]
      rfl
    · exact Option.isSome_iff_exists.1 hS
  · intro m hbad hnone
    have h : Metadata.Validate printTable (some m) =
        ((Metadata.Validate printTable (some m)).1, none) := by
      rw [← hnone]
    obtain ⟨m0, e, hA, hN, hV, hS, hM, _⟩ := (Validate_ok_iff printTable _ _).1 h
    cases e
    rcases hbad with hb | hb | hb | hb | hb
    · exact hA hb
    · exact hN (by
        show sanitizeString printTable m.Name = []
        rw [hb]
        rfl)
    · exact hV hb
    · have hS' : (semver.NewVersion m.Version).isSome = true := hS
      rw [hb] at hS'
      cases hS'
    · exact hM none hb rfl

/-- Witness of C17: the minimal metadata validates; a nil maintainer is an error. -/
theorem C17_validate_required_fields_witness :
    (∃ m m', some minimalMetadata = some m ∧ some minimalMetadata = some m' ∧
        m.Name ≠ [] ∧ m.Version ≠ [] ∧ m.APIVersion ≠ [] ∧
        m'.Name ≠ [] ∧ m'.Version ≠ [] ∧ m'.APIVersion ≠ [] ∧
        (∃ w, semver.NewVersion m'.Version = some w) ∧ m'.Version = m.Version) ∧
      (Metadata.Validate (fun _ => false)
        (some { minimalMetadata with Maintainers := [none] })).2 ≠ none :=
  ⟨(C17_validate_required_fields (fun _ => false)).1 (some minimalMetadata)
      (some minimalMetadata) (by decide),
    (C17_validate_required_fields (fun _ => false)).2.2 _
      (Or.inr (Or.inr (Or.inr (Or.inr (by decide)))))⟩

theorem IsVersionChar_printable (printTable : Char → Bool) (c : Char) (h : IsVersionChar c) :
    unicode.IsPrint printTable c = true := by
  have hr : 32 ≤ c.toNat ∧ c.toNat ≤ 126 := by
    rcases h with h | rfl | rfl
    · rcases (isIdentChar_iff c).1 h with h | h | h | h <;> omega
    · decide
    · decide
  unfold unicode.IsPrint
  dsimp only
  rw [if_pos (by omega)]
  simp [hr.1, hr.2]

theorem NewVersion_sanitized (printTable : Char → Bool) (v : GoString)
    (h : isValidSemver v = true) : IsSanitized printTable v := by
  intro c hc
  apply IsVersionChar_printable
  apply matchVersionRegex_chars v _ c hc
  unfold isValidSemver semver.NewVersion at h
  cases hm : matchVersionRegex v with
  | none =>
    rw [hm] at h
    cases h
  | some r => rfl

/-- C19, as the code runs: when `Metadata.Validate` returns a nil error, the name, version,
description, home, icon, condition and tags of the metadata after the call, its sources and
keywords, and the name, email and URL of each of its maintainers hold printable characters
only.  The API version, the type and the annotations are left as they were. -/
theorem C19_validated_fields_sanitized (printTable : Char → Bool) (md : Option Metadata)
    (md' : Metadata) (h : Metadata.Validate printTable md = (some md', none)) :
    IsSanitized printTable md'.Name ∧ IsSanitized printTable md'.Version ∧
    IsSanitized printTable md'.Description ∧ IsSanitized printTable md'.Home ∧
    IsSanitized printTable md'.Icon ∧ IsSanitized printTable md'.Condition ∧
    IsSanitized printTable md'.Tags ∧
    (∀ s ∈ md'.Sources, IsSanitized printTable s) ∧
    (∀ k ∈ md'.Keywords, IsSanitized printTable k) ∧
    (∀ x ∈ md'.Maintainers, ∃ m, x = some m ∧ IsSanitized printTable m.Name ∧
      IsSanitized printTable m.Email ∧ IsSanitized printTable m.URL) ∧
    (∃ m, md = some m ∧ md'.APIVersion = m.APIVersion ∧ md'.Type_ = m.Type_ ∧
      md'.Annotations = m.Annotations) := by
  obtain ⟨m, rfl, _, _, _, hS, hM, e⟩ := (Validate_ok_iff printTable md (some md')).1 h
  cases e
  have hs : ∀ s, IsSanitized printTable (sanitizeString printTable s) :=
    fun s => sanitizeString_printable printTable s
  refine ⟨hs _, NewVersion_sanitized printTable _ hS, hs _, hs _, hs _, hs _, hs _, ?_, ?_, ?_,
    ⟨m, rfl, rfl, rfl, rfl⟩⟩
  · intro s hmem
    obtain ⟨s0, _, rfl⟩ := List.mem_map.1 hmem
    exact hs s0
  · intro s hmem
    obtain ⟨s0, _, rfl⟩ := List.mem_map.1 hmem
    exact hs s0
  · intro x hx
    obtain ⟨m0, _, rfl⟩ := validateMaintainers_mem printTable m.Maintainers
      ((validateMaintainers_ok printTable m.Maintainers).2 hM) x hx
    exact ⟨_, rfl, hs _, hs _, hs _⟩

/-- Witness of C19 on a metadata with control characters in its name, description, source
and maintainer. -/
theorem C19_validated_fields_sanitized_witness :
    Metadata.Validate (fun _ => false) (some untidyMetadata) = (some tidiedMetadata, none) ∧
      IsSanitized (fun _ => false) tidiedMetadata.Name :=
  ⟨by decide, (C19_validated_fields_sanitized (fun _ => false) (some untidyMetadata)
    tidiedMetadata (by decide)).1⟩

/-- C19 as stated fails: a metadata whose API version, type and annotation value hold the
control character U+0000 validates with a nil error and is returned unchanged. -/
theorem C19_api_version_not_sanitized :
    Metadata.Validate (fun _ => false) (some controlCharMetadata) =
        (some controlCharMetadata, none) ∧
      ¬ IsSanitized (fun _ => false) controlCharMetadata.APIVersion ∧
      ¬ IsSanitized (fun _ => false) controlCharMetadata.Type_ ∧
      (∃ kv ∈ controlCharMetadata.Annotations, ¬ IsSanitized (fun _ => false) kv.2) := by
  have h0 : ∀ s : GoString, Char.ofNat 0 ∈ s → ¬ IsSanitized (fun _ => false) s :=
    fun s hs hall => absurd (hall _ hs) (by decide)
  refine ⟨by decide, h0 _ (by decide), h0 _ (by decide), ⟨_, List.mem_singleton.2 rfl, h0 _ (by decide)⟩⟩

/-! ## Claims on the annotations -/

theorem addToMap_apply (m : GoMap) (k v x : GoString) :
    addToMap m k v x = if x = k ∧ ¬ IsBlank v then some v else m x := by
  unfold addToMap IsBlank GoMap.set
  by_cases hb : strings.TrimSpace unicode.IsSpace v = []
  · simp [hb]
  · have : 0 < (strings.TrimSpace unicode.IsSpace v).length := List.length_pos.2 hb
    simp only [this, if_true, hb, not_false_eq_true, and_true]

theorem addToMap_apply_ne (m : GoMap) (k v x : GoString) (h : x ≠ k) :
    addToMap m k v x = m x := by
  rw [addToMap_apply, if_neg (fun hh => h hh.1)]

theorem copyAnnotations_immutable (l : List (GoString × GoString)) (init : GoMap)
    (k : GoString) (hk : k ∈ immutableOciAnnotations) :
    (l.foldl
      (fun acc kv => if immutableOciAnnotations.contains kv.1 then acc else acc.set kv.1 kv.2)
      init) k = init k := by
  induction l generalizing init with
  | nil => rfl
  | cons kv l ih =>
    rw [List.foldl_cons, ih]
    by_cases hc : immutableOciAnnotations.contains kv.1 = true
    · rw [if_pos hc]
    · rw [if_neg hc]
      unfold GoMap.set
      have hne : k ≠ kv.1 := by
        rintro rfl
        exact hc (by simpa using hk)
      rw [if_neg hne]

theorem generateChartOCIAnnotations_title_version (meta : Metadata) (test : Bool)
    (now : GoString) (m : GoMap) (h : generateChartOCIAnnotations meta test now = some m) :
    m ocispec.AnnotationTitle = (if IsBlank meta.Name then none else some meta.Name) ∧
    m ocispec.AnnotationVersion = (if IsBlank meta.Version then none else some meta.Version) := by
  have base : ∀ k, k = ocispec.AnnotationTitle ∨ k = ocispec.AnnotationVersion →
      k ≠ ocispec.AnnotationDescription ∧ k ≠ ocispec.AnnotationURL ∧
      k ≠ ocispec.AnnotationCreated ∧ k ≠ ocispec.AnnotationSource ∧
      k ≠ ocispec.AnnotationAuthors := by
    rintro k (rfl | rfl) <;> decide
  have tv : ocispec.AnnotationTitle ≠ ocispec.AnnotationVersion := by decide
  have key : ∀ k, k = ocispec.AnnotationTitle ∨ k = ocispec.AnnotationVersion →
      m k = addToMap (addToMap (addToMap (fun _ => none) ocispec.AnnotationDescription
        meta.Description) ocispec.AnnotationTitle meta.Name) ocispec.AnnotationVersion
        meta.Version k := by
    intro k hk
    obtain ⟨_, h2, h3, h4, h5⟩ := base k hk
    unfold generateChartOCIAnnotations at h
    dsimp only at h
    have e5 : ∀ m4 : GoMap,
        (if (!test) = true then addToMap m4 ocispec.AnnotationCreated now else m4) k = m4 k := by
      intro m4
      split_ifs
      · exact addToMap_apply_ne _ _ _ _ h3
      · rfl
    have e6 : ∀ m5 : GoMap,
        (match meta.Sources with
          | [] => m5
          | source :: _ => addToMap m5 ocispec.AnnotationSource source) k = m5 k := by
      intro m5
      cases meta.Sources with
      | nil => rfl
      | cons s _ => exact addToMap_apply_ne _ _ _ _ h4
    by_cases hlen : 0 < meta.Maintainers.length
    · rw [if_pos hlen] at h
      cases ht : maintainerText meta.Maintainers with
      | none =>
        rw [ht] at h
        cases h
      | some text =>
        rw [ht] at h
        simp only [Option.some.injEq] at h
        rw [← h, addToMap_apply_ne _ _ _ _ h5, e6, e5, addToMap_apply_ne _ _ _ _ h2]
    · rw [if_neg hlen] at h
      simp only [Option.some.injEq] at h
      rw [← h, e6, e5, addToMap_apply_ne _ _ _ _ h2]
  constructor
  · rw [key _ (Or.inl rfl), addToMap_apply_ne _ _ _ _ tv, addToMap_apply,
      addToMap_apply_ne _ _ _ _ (by decide)]
    by_cases hb : IsBlank meta.Name
    · simp [hb]
    · simp [hb]
  · rw [key _ (Or.inr rfl), addToMap_apply,
      addToMap_apply_ne _ _ _ _ (Ne.symm tv), addToMap_apply_ne _ _ _ _ (by decide)]
    by_cases hb : IsBlank meta.Version
    · simp [hb]
    · simp [hb]

/-- C15: in the map `generateOCIAnnotations` returns, the title key is absent or holds the
name of the metadata, and the version key is absent or holds the version of the metadata,
whatever the annotations of the metadata hold; a key is absent exactly when the name, or
the version, is blank. -/
theorem C15_title_version_immutable (meta : Metadata) (test : Bool) (now : GoString)
    (m : GoMap) (h : generateOCIAnnotations meta test now = some m) :
    (m ocispec.AnnotationTitle = none ∨ m ocispec.AnnotationTitle = some meta.Name) ∧
    (m ocispec.AnnotationVersion = none ∨ m ocispec.AnnotationVersion = some meta.Version) ∧
    (m ocispec.AnnotationTitle = none ↔ IsBlank meta.Name) ∧
    (m ocispec.AnnotationVersion = none ↔ IsBlank meta.Version) := by
  unfold generateOCIAnnotations at h
  cases hc : generateChartOCIAnnotations meta test now with
  | none =>
    rw [hc] at h
    cases h
  | some chart =>
    rw [hc] at h
    simp only [Option.some.injEq] at h
    obtain ⟨ht, hv⟩ := generateChartOCIAnnotations_title_version meta test now chart hc
    have et : m ocispec.AnnotationTitle = chart ocispec.AnnotationTitle := by
      rw [← h]
      exact copyAnnotations_immutable _ _ _ (by decide)
    have ev : m ocispec.AnnotationVersion = chart ocispec.AnnotationVersion := by
      rw [← h]
      exact copyAnnotations_immutable _ _ _ (by decide)
    rw [et, ev, ht, hv]
    by_cases hb : IsBlank meta.Name <;> by_cases hb' : IsBlank meta.Version <;> simp [hb, hb']

/-- Witness of C15 on a metadata whose annotations hold other values under both keys. -/
theorem C15_title_version_immutable_witness :
    ∃ m, generateOCIAnnotations overridingMetadata true [] = some m ∧
      m "k".toList = some "v".toList ∧
      (m ocispec.AnnotationTitle = none ∨
        m ocispec.AnnotationTitle = some overridingMetadata.Name) ∧
      (m ocispec.AnnotationVersion = none ∨
        m ocispec.AnnotationVersion = some overridingMetadata.Version) ∧
      (m ocispec.AnnotationTitle = none ↔ IsBlank overridingMetadata.Name) ∧
      (m ocispec.AnnotationVersion = none ↔ IsBlank overridingMetadata.Version) :=
  ⟨_, rfl, by decide, C15_title_version_immutable overridingMetadata true [] _ rfl⟩

theorem maintainerEntry_eq_authorEntry (x : Maintainer) : maintainerEntry x = authorEntry x := by
  unfold maintainerEntry authorEntry
  cases hn : x.Name <;> cases he : x.Email <;> simp

theorem maintainerText_map_some (ms : List Maintainer) :
    maintainerText (ms.map some) = some (authorsText ms) := by
  induction ms with
  | nil => rfl
  | cons x rest ih =>
    rw [List.map_cons, maintainerText, ih]
    dsimp only
    rw [maintainerEntry_eq_authorEntry]
    cases rest with
    | nil => simp [authorsText, List.intercalate]
    | cons y rest =>
      simp [authorsText, List.intercalate, List.intersperse]

/-- C16, as the code runs: for a non-empty list of maintainers, none of them nil, the
authors annotation `generateChartOCIAnnotations` writes is the entries of the maintainers
joined with a comma and a space, an entry being the name followed by the email in
parentheses when the email is not empty; when that text is blank, no authors annotation is
written. -/
theorem C16_authors_text_written (meta : Metadata) (test : Bool) (now : GoString)
    (ms : List Maintainer) (hne : ms ≠ []) (hms : meta.Maintainers = ms.map some) :
    ∃ m, generateChartOCIAnnotations meta test now = some m ∧
      m ocispec.AnnotationAuthors =
        (if IsBlank (authorsText ms) then none else some (authorsText ms)) := by
  have hlen : 0 < meta.Maintainers.length := by
    rw [hms, List.length_map]
    exact List.length_pos.2 hne
  unfold generateChartOCIAnnotations
  dsimp only
  rw [if_pos hlen, hms, maintainerText_map_some]
  refine ⟨_, rfl, ?_⟩
  rw [addToMap_apply]
  by_cases hb : IsBlank (authorsText ms)
  · rw [if_neg (fun hh => hh.2 hb), if_pos hb]
    have e6 : ∀ m5 : GoMap,
        (match meta.Sources with
          | [] => m5
          | source :: _ => addToMap m5 ocispec.AnnotationSource source)
          ocispec.AnnotationAuthors = m5 ocispec.AnnotationAuthors := by
      intro m5
      cases meta.Sources with
      | nil => rfl
      | cons s _ => exact addToMap_apply_ne _ _ _ _ (by decide)
    have e5 : ∀ m4 : GoMap,
        (if (!test) = true then addToMap m4 ocispec.AnnotationCreated now else m4)
          ocispec.AnnotationAuthors = m4 ocispec.AnnotationAuthors := by
      intro m4
      split_ifs
      · exact addToMap_apply_ne _ _ _ _ (by decide)
      · rfl
    rw [e6, e5, addToMap_apply_ne _ _ _ _ (by decide), addToMap_apply_ne _ _ _ _ (by decide),
      addToMap_apply_ne _ _ _ _ (by decide), addToMap_apply_ne _ _ _ _ (by decide)]
  · rw [if_pos ⟨rfl, hb⟩, if_neg hb]

/-- Witness of C16: the maintainers Alice and Bob, the second with the email `bob@x.com`,
give the authors annotation `Alice, Bob (bob@x.com)`. -/
theorem C16_authors_text_written_witness :
    ∃ m, generateChartOCIAnnotations aliceBobMetadata true [] = some m ∧
      m ocispec.AnnotationAuthors = some "Alice, Bob (bob@x.com)".toList :=
  (C16_authors_text_written aliceBobMetadata true []
    [⟨"Alice".toList, [], []⟩, ⟨"Bob".toList, "bob@x.com".toList, []⟩] (by decide) rfl).imp
    (fun _ h => ⟨h.1, h.2.trans (by decide)⟩)

/-- C16 as stated fails: for the single maintainer whose name is one space the joined
entries are one space, and no authors annotation is written. -/
theorem C16_blank_authors_not_written :
    ∃ m, generateChartOCIAnnotations
        { minimalMetadata with Maintainers := [some ⟨" ".toList, [], []⟩] } true [] = some m ∧
      m ocispec.AnnotationAuthors = none ∧
      authorsText [⟨" ".toList, [], []⟩] = " ".toList :=
  ⟨_, rfl, by decide, by decide⟩

/-! ## Claims on the descriptors of a pull -/

theorem selectDescriptors_fold (l : List ocispec.Descriptor)
    (acc : Option ocispec.Descriptor × Option ocispec.Descriptor) :
    ((l.foldl
      (fun acc d =>
        if d.MediaType = WASMMetadataMediaType then (some d, acc.2)
        else if d.MediaType = WASMLayerMediaType then (acc.1, some d)
        else acc) acc).1 = none ↔
      acc.1 = none ∧ ∀ d ∈ l, d.MediaType ≠ WASMMetadataMediaType) ∧
    ((l.foldl
      (fun acc d =>
        if d.MediaType = WASMMetadataMediaType then (some d, acc.2)
        else if d.MediaType = WASMLayerMediaType then (acc.1, some d)
        else acc) acc).2 = none ↔
      acc.2 = none ∧ ∀ d ∈ l, d.MediaType ≠ WASMLayerMediaType) ∧
    (∀ c, (l.foldl
      (fun acc d =>
        if d.MediaType = WASMMetadataMediaType then (some d, acc.2)
        else if d.MediaType = WASMLayerMediaType then (acc.1, some d)
        else acc) acc).1 = some c →
      acc.1 = some c ∨ (c ∈ l ∧ c.MediaType = WASMMetadataMediaType)) ∧
    (∀ w, (l.foldl
      (fun acc d =>
        if d.MediaType = WASMMetadataMediaType then (some d, acc.2)
        else if d.MediaType = WASMLayerMediaType then (acc.1, some d)
        else acc) acc).2 = some w →
      acc.2 = some w ∨ (w ∈ l ∧ w.MediaType = WASMLayerMediaType)) := by
  have hne : WASMMetadataMediaType ≠ WASMLayerMediaType := by decide
  induction l generalizing acc with
  | nil => simp
  | cons d l ih =>
    rw [List.foldl_cons]
    by_cases h1 : d.MediaType = WASMMetadataMediaType
    · have h2 : d.MediaType ≠ WASMLayerMediaType := fun e => hne (h1.symm.trans e)
      rw [if_pos h1]
      obtain ⟨i1, i2, i3, i4⟩ := ih (some d, acc.2)
      refine ⟨?_, ?_, ?_, ?_⟩
      · rw [i1]
        constructor
        · rintro ⟨e, _⟩
          cases e
        · rintro ⟨_, h⟩
          exact absurd h1 (h d (List.mem_cons_self _ _))
      · rw [i2]
        constructor
        · rintro ⟨e, h⟩
          refine ⟨e, fun x hx => ?_⟩
          rcases List.mem_cons.1 hx with rfl | hx
          · exact h2
          · exact h x hx
        · rintro ⟨e, h⟩
          exact ⟨e, fun x hx => h x (List.mem_cons_of_mem _ hx)⟩
      · intro c hc
        rcases i3 c hc with e | ⟨hm, ht⟩
        · simp only [Option.some.injEq] at e
          exact Or.inr ⟨by rw [← e]; exact List.mem_cons_self _ _, by rw [← e]; exact h1⟩
        · exact Or.inr ⟨List.mem_cons_of_mem _ hm, ht⟩
      · intro w hw
        rcases i4 w hw with e | ⟨hm, ht⟩
        · exact Or.inl e
        · exact Or.inr ⟨List.mem_cons_of_mem _ hm, ht⟩
    · by_cases h2 : d.MediaType = WASMLayerMediaType
      · rw [if_neg h1, if_pos h2]
        obtain ⟨i1, i2, i3, i4⟩ := ih (acc.1, some d)
        refine ⟨?_, ?_, ?_, ?_⟩
        · rw [i1]
          constructor
          · rintro ⟨e, h⟩
            refine ⟨e, fun x hx => ?_⟩
            rcases List.mem_cons.1 hx with rfl | hx
            · exact h1
            · exact h x hx
          · rintro ⟨e, h⟩
            exact ⟨e, fun x hx => h x (List.mem_cons_of_mem _ hx)⟩
        · rw [i2]
          constructor
          · rintro ⟨e, _⟩
            cases e
          · rintro ⟨_, h⟩
            exact absurd h2 (h d (List.mem_cons_self _ _))
        · intro c hc
          rcases i3 c hc with e | ⟨hm, ht⟩
          · exact Or.inl e
          · exact Or.inr ⟨List.mem_cons_of_mem _ hm, ht⟩
        · intro w hw
          rcases i4 w hw with e | ⟨hm, ht⟩
          · simp only [Option.some.injEq] at e
            exact Or.inr ⟨by rw [← e]; exact List.mem_cons_self _ _, by rw [← e]; exact h2⟩
          · exact Or.inr ⟨List.mem_cons_of_mem _ hm, ht⟩
      · rw [if_neg h1, if_neg h2]
        obtain ⟨i1, i2, i3, i4⟩ := ih acc
        refine ⟨?_, ?_, ?_, ?_⟩
        · rw [i1]
          constructor
          · rintro ⟨e, h⟩
            refine ⟨e, fun x hx => ?_⟩
            rcases List.mem_cons.1 hx with rfl | hx
            · exact h1
            · exact h x hx
          · rintro ⟨e, h⟩
            exact ⟨e, fun x hx => h x (List.mem_cons_of_mem _ hx)⟩
        · rw [i2]
          constructor
          · rintro ⟨e, h⟩
            refine ⟨e, fun x hx => ?_⟩
            rcases List.mem_cons.1 hx with rfl | hx
            · exact h2
            · exact h x hx
          · rintro ⟨e, h⟩
            exact ⟨e, fun x hx => h x (List.mem_cons_of_mem _ hx)⟩
        · intro c hc
          rcases i3 c hc with e | ⟨hm, ht⟩
          · exact Or.inl e
          · exact Or.inr ⟨List.mem_cons_of_mem _ hm, ht⟩
        · intro w hw
          rcases i4 w hw with e | ⟨hm, ht⟩
          · exact Or.inl e
          · exact Or.inr ⟨List.mem_cons_of_mem _ hm, ht⟩

theorem selectDescriptors_spec (l : List ocispec.Descriptor) :
    ((selectDescriptors l).1 = none ↔ ∀ d ∈ l, d.MediaType ≠ WASMMetadataMediaType) ∧
    ((selectDescriptors l).2 = none ↔ ∀ d ∈ l, d.MediaType ≠ WASMLayerMediaType) ∧
    (∀ c, (selectDescriptors l).1 = some c → c ∈ l ∧ c.MediaType = WASMMetadataMediaType) ∧
    (∀ w, (selectDescriptors l).2 = some w → w ∈ l ∧ w.MediaType = WASMLayerMediaType) := by
  obtain ⟨i1, i2, i3, i4⟩ := selectDescriptors_fold l (none, none)
  refine ⟨?_, ?_, ?_, ?_⟩
  · exact i1.trans (by simp)
  · exact i2.trans (by simp)
  · intro c hc
    rcases i3 c hc with e | e
    · cases e
    · exact e
  · intro w hw
    rcases i4 w hw with e | e
    · cases e
    · exact e

/-- C20, as the code runs: when the copy reported at least one layer descriptor, `Client.Pull`
fails with `could not load config with mediatype` and the config media type when no
descriptor has the config media type, fails with `manifest does not contain a layer with
mediatype` and the layer media type when one has the config media type and none the layer
media type, and otherwise goes on with a descriptor of each of the two media types taken
from the descriptors; it goes on only when both are present. -/
theorem C20_missing_media_type_named (manifest : ocispec.Descriptor)
    (layers : List ocispec.Descriptor) (hlayers : 1 ≤ layers.length) :
    ((∀ d ∈ manifest :: layers, d.MediaType ≠ WASMMetadataMediaType) →
      Client.pullDescriptors manifest layers =
        (none, some ("could not load config with mediatype ".toList ++
          WASMMetadataMediaType))) ∧
    ((∃ d ∈ manifest :: layers, d.MediaType = WASMMetadataMediaType) →
      (∀ d ∈ manifest :: layers, d.MediaType ≠ WASMLayerMediaType) →
      Client.pullDescriptors manifest layers =
        (none, some ("manifest does not contain a layer with mediatype ".toList ++
          WASMLayerMediaType))) ∧
    ((∃ d ∈ manifest :: layers, d.MediaType = WASMMetadataMediaType) →
      (∃ d ∈ manifest :: layers, d.MediaType = WASMLayerMediaType) →
      ∃ c w, Client.pullDescriptors manifest layers = (some (c, w), none) ∧
        c ∈ manifest :: layers ∧ c.MediaType = WASMMetadataMediaType ∧
        w ∈ manifest :: layers ∧ w.MediaType = WASMLayerMediaType) ∧
    (∀ r, Client.pullDescriptors manifest layers = (some r, none) →
      (∃ d ∈ manifest :: layers, d.MediaType = WASMMetadataMediaType) ∧
      (∃ d ∈ manifest :: layers, d.MediaType = WASMLayerMediaType)) := by
  obtain ⟨s1, s2, s3, s4⟩ := selectDescriptors_spec (manifest :: layers)
  have hlen : ¬ ([manifest] ++ layers).length < 2 := by
    simp only [List.length_append, List.length_singleton]
    omega
  have hrun : Client.pullDescriptors manifest layers =
      (match selectDescriptors (manifest :: layers) with
        | (none, _) =>
          (none, some ("could not load config with mediatype ".toList ++ WASMMetadataMediaType))
        | (some _, none) =>
          (none, some ("manifest does not contain a layer with mediatype ".toList ++
            WASMLayerMediaType))
        | (some configDescriptor, some wasmDescriptor) =>
          (some (configDescriptor, wasmDescriptor), none)) := by
    unfold Client.pullDescriptors
    dsimp only
    rw [if_neg hlen]
    rfl
  rw [hrun]
  rcases hs : selectDescriptors (manifest :: layers) with ⟨_ | c, _ | w⟩
  all_goals rw [hs] at s1 s2 s3 s4
  all_goals simp only [true_iff, false_iff, reduceCtorEq, not_forall] at s1 s2
  · refine ⟨fun _ => rfl, ?_, ?_, ?_⟩
    · rintro ⟨d, hd, e⟩ _
      exact absurd e (s1 d hd)
    · rintro ⟨d, hd, e⟩ _
      exact absurd e (s1 d hd)
    · intro r hr
      cases hr
  · refine ⟨fun _ => rfl, ?_, ?_, ?_⟩
    · rintro ⟨d, hd, e⟩ _
      exact absurd e (s1 d hd)
    · rintro ⟨d, hd, e⟩ _
      exact absurd e (s1 d hd)
    · intro r hr
      cases hr
  · obtain ⟨d, hd, e⟩ := s1
    refine ⟨fun h => absurd (not_not.1 e) (h d hd), fun _ _ => rfl, ?_, ?_⟩
    · rintro _ ⟨d', hd', e'⟩
      exact absurd e' (s2 d' hd')
    · intro r hr
      cases hr
  · obtain ⟨d, hd, e⟩ := s1
    obtain ⟨d', hd', e'⟩ := s2
    refine ⟨fun h => absurd (not_not.1 e) (h d hd), ?_, ?_, ?_⟩
    · intro _ h
      exact absurd (not_not.1 e') (h d' hd')
    · intro _ _
      exact ⟨c, w, rfl, (s3 c rfl).1, (s3 c rfl).2, (s4 w rfl).1, (s4 w rfl).2⟩
    · intro _ _
      exact ⟨⟨d, hd, not_not.1 e⟩, ⟨d', hd', not_not.1 e'⟩⟩

/-- Witness of C20: a layer without a config, a config without a layer, and both. -/
theorem C20_missing_media_type_named_witness :
    Client.pullDescriptors manifestDescriptor [layerDescriptor] =
        (none, some ("could not load config with mediatype ".toList ++
          WASMMetadataMediaType)) ∧
      Client.pullDescriptors manifestDescriptor [configDescriptor] =
        (none, some ("manifest does not contain a layer with mediatype ".toList ++
          WASMLayerMediaType)) ∧
      ∃ c w, Client.pullDescriptors manifestDescriptor [configDescriptor, layerDescriptor] =
          (some (c, w), none) ∧
        c ∈ [manifestDescriptor, configDescriptor, layerDescriptor] ∧
        c.MediaType = WASMMetadataMediaType ∧
        w ∈ [manifestDescriptor, configDescriptor, layerDescriptor] ∧
        w.MediaType = WASMLayerMediaType :=
  ⟨(C20_missing_media_type_named manifestDescriptor [layerDescriptor] (by decide)).1
      (by decide),
    (C20_missing_media_type_named manifestDescriptor [configDescriptor] (by decide)).2.1
      ⟨configDescriptor, by decide, rfl⟩ (by decide),
    (C20_missing_media_type_named manifestDescriptor [configDescriptor, layerDescriptor]
      (by decide)).2.2.1 ⟨configDescriptor, by decide, rfl⟩ ⟨layerDescriptor, by decide, rfl⟩⟩

/-- C20 as stated fails: when the copy reports no layer descriptor, the descriptors are the
manifest alone, none of them has the config or the layer media type, and the error of
`Client.Pull` is the count message, which names neither media type. -/
theorem C20_count_error_names_no_media_type :
    (∀ d ∈ [manifestDescriptor], d.MediaType ≠ WASMMetadataMediaType) ∧
      (∀ d ∈ [manifestDescriptor], d.MediaType ≠ WASMLayerMediaType) ∧
      Client.pullDescriptors manifestDescriptor [] =
        (none, some ("manifest does not contain minimum number of descriptors (2), " ++
          "descriptors found: 1").toList) ∧
      strings.Contains ("manifest does not contain minimum number of descriptors (2), " ++
          "descriptors found: 1").toList WASMMetadataMediaType = false ∧
      strings.Contains ("manifest does not contain minimum number of descriptors (2), " ++
          "descriptors found: 1").toList WASMLayerMediaType = false := by
  decide

/-! ## The version of a reference with build metadata -/

theorem TrimPrefix_append (p s : GoString) : strings.TrimPrefix (p ++ s) p = s := by
  unfold strings.TrimPrefix strings.HasPrefix
  rw [if_pos (List.isPrefixOf_iff_prefix.2 (List.prefix_append p s)), List.drop_left]

theorem Index_single_not_mem (c : Char) (s : GoString) (h : c ∉ s) :
    strings.Index s [c] = -1 := by
  induction s with
  | nil => simp [strings.Index]
  | cons a s ih =>
    have ha : (c == a) = false := by
      simpa using fun e : c = a => h (by simp [e])
    have hs : c ∉ s := fun hm => h (List.mem_cons_of_mem _ hm)
    simp [strings.Index, List.isPrefixOf, ha, ih hs]

theorem Index_single_cut (c : Char) (a r : GoString) (h : c ∉ a) :
    strings.Index (a ++ c :: r) [c] = a.length := by
  induction a with
  | nil => simp [strings.Index, List.isPrefixOf]
  | cons x a ih =>
    have hx : (c == x) = false := by
      simpa using fun e : c = x => h (by simp [e])
    have ha : c ∉ a := fun hm => h (List.mem_cons_of_mem _ hm)
    have hnn : ¬ ((a.length : Int) < 0) := by omega
    have ih' := ih ha
    simp only [List.cons_append, strings.Index, List.isPrefixOf, hx, Bool.false_and,
      Bool.false_eq_true, if_false, List.length_cons, Nat.cast_add, Nat.cast_one,
      List.append_eq]
    rw [ih', if_neg hnn]

theorem splitReference_tagged (host repo v : GoString) (hhost : '/' ∉ host)
    (hcolon : ':' ∉ repo) (hat : '@' ∉ repo) (hv : '@' ∉ v) :
    oras.splitReference (host ++ '/' :: (repo ++ ':' :: v)) = some ⟨host, repo, v⟩ := by
  have e1 : "/".toList = ['/'] := rfl
  have e2 : "@".toList = ['@'] := rfl
  have e3 : ":".toList = [':'] := rfl
  have hpath : '@' ∉ repo ++ ':' :: v := by
    intro hm
    rcases List.mem_append.1 hm with hm | hm
    · exact hat hm
    · rcases List.mem_cons.1 hm with hm | hm
      · exact absurd hm (by decide)
      · exact hv hm
  unfold oras.splitReference
  rw [e1, e2, e3, SplitN_two_cut '/' host _ hhost]
  dsimp only
  rw [Index_single_not_mem '@' _ hpath, Index_single_cut ':' repo v hcolon]
  have hne : ((repo.length : Int)) ≠ -1 := by omega
  simp only [ne_eq, not_true_eq_false, if_false, hne, not_false_eq_true, if_true,
    Int.toNat_ofNat, List.take_left, List.drop_left, Option.some.injEq]
  congr 1
  have : (repo ++ ':' :: v).drop (repo.length + 1) = v := by
    rw [← List.drop_drop, List.drop_left]
    rfl
  exact this

theorem tagOK_false_of_plus (v : GoString) (h : '+' ∈ v) : oras.tagOK v = false := by
  cases v with
  | nil => rfl
  | cons c cs =>
    unfold oras.tagOK
    dsimp only
    rcases List.mem_cons.1 h with rfl | hm
    · rfl
    · have : cs.all (fun d => oras.isWord d || d == '.' || d == '-') = false := by
        rw [List.all_eq_false]
        exact ⟨'+', hm, by decide⟩
      rw [this, Bool.and_false]

theorem digestOK_false_of_no_colon (v : GoString) (h : ':' ∉ v) : oras.digestOK v = false := by
  have e3 : ":".toList = [':'] := rfl
  unfold oras.digestOK
  dsimp only
  rw [e3, Index_single_not_mem ':' v h, if_pos (Or.inl (by decide))]

theorem ParseReference_plus_tag (hostOK : GoString → Bool) (host repo v : GoString)
    (hhost : '/' ∉ host) (hcolon : ':' ∉ repo) (hat : '@' ∉ repo)
    (hv : ∀ c ∈ v, IsVersionChar c) (hplus : '+' ∈ v) :
    ∃ err, oras.ParseReference hostOK (host ++ '/' :: (repo ++ ':' :: v)) =
      (⟨[], [], []⟩, some err) := by
  have hnot : ∀ x : Char, ¬ IsVersionChar x → x ∉ v := fun x hx hm => hx (hv x hm)
  have hvat : '@' ∉ v := hnot '@' (by unfold IsVersionChar; decide)
  have hvcolon : ':' ∉ v := hnot ':' (by unfold IsVersionChar; decide)
  have hvne : v ≠ [] := fun e => by
    rw [e] at hplus
    cases hplus
  have href : oras.referenceOK v = false := by
    unfold oras.referenceOK
    rw [tagOK_false_of_plus v hplus, digestOK_false_of_no_colon v hvcolon]
    simp [hvne]
  unfold oras.ParseReference
  rw [splitReference_tagged host repo v hhost hcolon hat hvat]
  dsimp only
  have hval : ∃ err, oras.Validate hostOK ⟨host, repo, v⟩ = some err := by
    unfold oras.Validate
    dsimp only
    split_ifs with h1 h2 h3
    · exact ⟨_, rfl⟩
    · exact ⟨_, rfl⟩
    · exact ⟨_, rfl⟩
    · rw [href] at h3
      exact absurd rfl h3
  obtain ⟨err, he⟩ := hval
  rw [he]
  exact ⟨err, rfl⟩

/-- C13 fails in the code: for a reference `oci://<host>/<repo>:<v>` where `v` is a valid
semantic version that contains `+`, `getVersionFromRef` and the computation inside
`DownloadWASMExtension` hand the reference to the library parser with the `+` still in
the tag, and both return the error of that parser instead of the version `v`. -/
theorem C13_build_metadata_tag_rejected (hostOK : GoString → Bool) (host repo v : GoString)
    (hhost : '/' ∉ host) (hcolon : ':' ∉ repo) (hat : '@' ∉ repo)
    (hv : IsSemVer v) (hplus : '+' ∈ v) :
    ∃ err,
      getVersionFromRef hostOK
          ("oci://".toList ++ host ++ "/".toList ++ repo ++ ":".toList ++ v) =
        ([], some err) ∧
      DownloadWASMExtension.version hostOK
          ("oci://".toList ++ host ++ "/".toList ++ repo ++ ":".toList ++ v) =
        ([], some err) := by
  have hchars : ∀ c ∈ v, IsVersionChar c := by
    obtain ⟨a, b, c, pre, build, ha, hb, hc, hpre, hbuild, _, _, _, rfl⟩ := hv
    exact fun x hx => mem_renderSemVer a b c pre build ha hb hc hpre hbuild x hx
  obtain ⟨err, he⟩ :=
    ParseReference_plus_tag hostOK host repo v hhost hcolon hat hchars hplus
  have e : OCIScheme ++ "://".toList = "oci://".toList := by decide
  have eref : "oci://".toList ++ host ++ "/".toList ++ repo ++ ":".toList ++ v =
      "oci://".toList ++ (host ++ '/' :: (repo ++ ':' :: v)) := by
    simp
  refine ⟨err, ?_, ?_⟩
  · unfold getVersionFromRef
    rw [e, eref, TrimPrefix_append]
    dsimp only
    rw [he]
  · unfold DownloadWASMExtension.version
    rw [e, eref, TrimPrefix_append]
    dsimp only
    rw [he]

/-- Witness of C13 on `oci://h/r:1.0.0+b1`. -/
theorem C13_build_metadata_tag_rejected_witness :
    ∃ err,
      getVersionFromRef (fun _ => true)
          ("oci://".toList ++ "h".toList ++ "/".toList ++ "r".toList ++ ":".toList ++
            "1.0.0+b1".toList) = ([], some err) ∧
      DownloadWASMExtension.version (fun _ => true)
          ("oci://".toList ++ "h".toList ++ "/".toList ++ "r".toList ++ ":".toList ++
            "1.0.0+b1".toList) = ([], some err) :=
  C13_build_metadata_tag_rejected (fun _ => true) "h".toList "r".toList "1.0.0+b1".toList
    (by decide) (by decide) (by decide)
    ⟨"1".toList, "0".toList, "0".toList, [], ["b1".toList],
      by unfold Canonical; decide, by unfold Canonical; decide, by unfold Canonical; decide,
      by simp, by
        intro p hp
        rw [List.mem_singleton.1 hp]
        unfold IsBuildIdentifier
        decide,
      trivial, trivial, trivial, by decide⟩
    (by decide)

/-- The failing input of C13 evaluated: on `oci://h/r:1.0.0+b1`, with a registry host the
library accepts, both computations return the library's invalid-tag error, while
`parseReference`, the parser of the pull itself, accepts `h/r:1.0.0+b1` with the tag
`1.0.0_b1`. -/
theorem getVersionFromRef_build_metadata_example :
    getVersionFromRef (fun _ => true) "oci://h/r:1.0.0+b1".toList =
        ([], some oras.RefError.invalidTag) ∧
      DownloadWASMExtension.version (fun _ => true) "oci://h/r:1.0.0+b1".toList =
        ([], some oras.RefError.invalidTag) ∧
      parseReference (fun _ => true) "h/r:1.0.0+b1".toList =
        (⟨"h".toList, "r".toList, "1.0.0_b1".toList⟩, none) := by
  decide

/-! ## Claims on the number of descriptors of a media type -/

theorem selectDescriptors_fold_last (l : List ocispec.Descriptor)
    (acc : Option ocispec.Descriptor × Option ocispec.Descriptor) :
    (∀ c, (l.foldl
      (fun acc d =>
        if d.MediaType = WASMMetadataMediaType then (some d, acc.2)
        else if d.MediaType = WASMLayerMediaType then (acc.1, some d)
        else acc) acc).1 = some c →
      IsLastOfType WASMMetadataMediaType l c ∨
        (acc.1 = some c ∧ ∀ x ∈ l, x.MediaType ≠ WASMMetadataMediaType)) ∧
    (∀ w, (l.foldl
      (fun acc d =>
        if d.MediaType = WASMMetadataMediaType then (some d, acc.2)
        else if d.MediaType = WASMLayerMediaType then (acc.1, some d)
        else acc) acc).2 = some w →
      IsLastOfType WASMLayerMediaType l w ∨
        (acc.2 = some w ∧ ∀ x ∈ l, x.MediaType ≠ WASMLayerMediaType)) := by
  have hne : WASMMetadataMediaType ≠ WASMLayerMediaType := by decide
  have lift : ∀ (mt : GoString) (d : ocispec.Descriptor) (l : List ocispec.Descriptor)
      (x : ocispec.Descriptor), IsLastOfType mt l x → IsLastOfType mt (d :: l) x := by
    rintro mt d l x ⟨front, back, e, h1, h2⟩
    exact ⟨d :: front, back, by rw [e]; rfl, h1, h2⟩
  have here : ∀ (mt : GoString) (d : ocispec.Descriptor) (l : List ocispec.Descriptor),
      d.MediaType = mt → (∀ x ∈ l, x.MediaType ≠ mt) → IsLastOfType mt (d :: l) d :=
    fun mt d l h1 h2 => ⟨[], l, rfl, h1, h2⟩
  have keep : ∀ (mt : GoString) (d : ocispec.Descriptor) (l : List ocispec.Descriptor),
      d.MediaType ≠ mt → (∀ x ∈ l, x.MediaType ≠ mt) → ∀ x ∈ d :: l, x.MediaType ≠ mt := by
    intro mt d l h1 h2 x hx
    rcases List.mem_cons.1 hx with rfl | hx
    · exact h1
    · exact h2 x hx
  induction l generalizing acc with
  | nil =>
    exact ⟨fun c hc => Or.inr ⟨hc, fun x hx => by cases hx⟩,
      fun w hw => Or.inr ⟨hw, fun x hx => by cases hx⟩⟩
  | cons d l ih =>
    rw [List.foldl_cons]
    by_cases h1 : d.MediaType = WASMMetadataMediaType
    · have h2 : d.MediaType ≠ WASMLayerMediaType := fun e => hne (h1.symm.trans e)
      rw [if_pos h1]
      obtain ⟨i1, i2⟩ := ih (some d, acc.2)
      refine ⟨fun c hc => ?_, fun w hw => ?_⟩
      · rcases i1 c hc with h | ⟨e, h⟩
        · exact Or.inl (lift _ d l c h)
        · simp only [Option.some.injEq] at e
          rw [← e]
          exact Or.inl (here _ d l h1 h)
      · rcases i2 w hw with h | ⟨e, h⟩
        · exact Or.inl (lift _ d l w h)
        · exact Or.inr ⟨e, keep _ d l h2 h⟩
    · by_cases h2 : d.MediaType = WASMLayerMediaType
      · rw [if_neg h1, if_pos h2]
        obtain ⟨i1, i2⟩ := ih (acc.1, some d)
        refine ⟨fun c hc => ?_, fun w hw => ?_⟩
        · rcases i1 c hc with h | ⟨e, h⟩
          · exact Or.inl (lift _ d l c h)
          · exact Or.inr ⟨e, keep _ d l h1 h⟩
        · rcases i2 w hw with h | ⟨e, h⟩
          · exact Or.inl (lift _ d l w h)
          · simp only [Option.some.injEq] at e
            rw [← e]
            exact Or.inl (here _ d l h2 h)
      · rw [if_neg h1, if_neg h2]
        obtain ⟨i1, i2⟩ := ih acc
        refine ⟨fun c hc => ?_, fun w hw => ?_⟩
        · rcases i1 c hc with h | ⟨e, h⟩
          · exact Or.inl (lift _ d l c h)
          · exact Or.inr ⟨e, keep _ d l h1 h⟩
        · rcases i2 w hw with h | ⟨e, h⟩
          · exact Or.inl (lift _ d l w h)
          · exact Or.inr ⟨e, keep _ d l h2 h⟩

theorem selectDescriptors_last (l : List ocispec.Descriptor) :
    (∀ c, (selectDescriptors l).1 = some c → IsLastOfType WASMMetadataMediaType l c) ∧
    (∀ w, (selectDescriptors l).2 = some w → IsLastOfType WASMLayerMediaType l w) := by
  obtain ⟨i1, i2⟩ := selectDescriptors_fold_last l (none, none)
  refine ⟨fun c hc => ?_, fun w hw => ?_⟩
  · rcases i1 c hc with h | ⟨e, _⟩
    · exact h
    · cases e
  · rcases i2 w hw with h | ⟨e, _⟩
    · exact h
    · cases e

/-- C21, as the code runs: the descriptors of a pull are not counted by media type.  When
the manifest descriptor followed by the reported layer descriptors hold at least one entry
of the config media type and at least one of the layer media type, however many of each,
`Client.Pull` goes past its descriptor checks with the last entry of each media type. -/
theorem C21_last_of_each_media_type (manifest : ocispec.Descriptor)
    (layers : List ocispec.Descriptor)
    (hconfig : ∃ d ∈ manifest :: layers, d.MediaType = WASMMetadataMediaType)
    (hlayer : ∃ d ∈ manifest :: layers, d.MediaType = WASMLayerMediaType) :
    ∃ c w, Client.pullDescriptors manifest layers = (some (c, w), none) ∧
      IsLastOfType WASMMetadataMediaType (manifest :: layers) c ∧
      IsLastOfType WASMLayerMediaType (manifest :: layers) w := by
  have hne : WASMMetadataMediaType ≠ WASMLayerMediaType := by decide
  have hlen : 1 ≤ layers.length := by
    cases layers with
    | nil =>
      obtain ⟨d, hd, e⟩ := hconfig
      obtain ⟨d', hd', e'⟩ := hlayer
      rw [List.mem_singleton] at hd hd'
      rw [hd] at e
      rw [hd'] at e'
      exact absurd (e.symm.trans e') hne
    | cons x xs => simp
  obtain ⟨s1, s2, _, _⟩ := selectDescriptors_spec (manifest :: layers)
  obtain ⟨l1, l2⟩ := selectDescriptors_last (manifest :: layers)
  have hrun : Client.pullDescriptors manifest layers =
      (match selectDescriptors (manifest :: layers) with
        | (none, _) =>
          (none, some ("could not load config with mediatype ".toList ++ WASMMetadataMediaType))
        | (some _, none) =>
          (none, some ("manifest does not contain a layer with mediatype ".toList ++
            WASMLayerMediaType))
        | (some configDescriptor, some wasmDescriptor) =>
          (some (configDescriptor, wasmDescriptor), none)) := by
    have hl : ¬ ([manifest] ++ layers).length < 2 := by
      simp only [List.length_append, List.length_singleton]
      omega
    unfold Client.pullDescriptors
    dsimp only
    rw [if_neg hl]
    rfl
  rw [hrun]
  rcases hs : selectDescriptors (manifest :: layers) with ⟨_ | c, _ | w⟩
  · rw [hs] at s1
    obtain ⟨d, hd, e⟩ := hconfig
    exact absurd e (s1.1 rfl d hd)
  · rw [hs] at s1
    obtain ⟨d, hd, e⟩ := hconfig
    exact absurd e (s1.1 rfl d hd)
  · rw [hs] at s2
    obtain ⟨d, hd, e⟩ := hlayer
    exact absurd e (s2.1 rfl d hd)
  · rw [hs] at l1 l2
    exact ⟨c, w, rfl, l1 c rfl, l2 w rfl⟩

/-- Witness of C21 on a manifest with one config and two layers. -/
theorem C21_last_of_each_media_type_witness :
    ∃ c w, Client.pullDescriptors manifestDescriptor
        [configDescriptor, layerDescriptor, secondLayerDescriptor] = (some (c, w), none) ∧
      IsLastOfType WASMMetadataMediaType
        [manifestDescriptor, configDescriptor, layerDescriptor, secondLayerDescriptor] c ∧
      IsLastOfType WASMLayerMediaType
        [manifestDescriptor, configDescriptor, layerDescriptor, secondLayerDescriptor] w :=
  C21_last_of_each_media_type manifestDescriptor
    [configDescriptor, layerDescriptor, secondLayerDescriptor]
    ⟨configDescriptor, by decide, rfl⟩ ⟨layerDescriptor, by decide, rfl⟩

/-- C21 as stated fails: with two entries of the layer media type, and with two entries of
the config media type, `Client.Pull` does not fail at its descriptor checks; it goes on with
the last entry of the media type. -/
theorem C21_two_layers_accepted :
    Client.pullDescriptors manifestDescriptor
        [configDescriptor, layerDescriptor, secondLayerDescriptor] =
        (some (configDescriptor, secondLayerDescriptor), none) ∧
      Client.pullDescriptors manifestDescriptor
        [configDescriptor, secondConfigDescriptor, layerDescriptor] =
        (some (secondConfigDescriptor, layerDescriptor), none) := by
  decide

/-! ## Claims on the download command and the download bridge -/

/-- C23 fails in the code: when the registry client cannot be created, and when the
reference does not start with `oci://`, the function handed to `downloads.Do` returns the
nil interface with its error, and `raw.(string)` panics: `DownloadWASMExtension` returns
nothing.  When the reference does not parse or the pull fails, the function returns the
empty string with the error, and `DownloadWASMExtension` returns the empty path and that
error. -/
theorem C23_nil_result_panics (hostOK : GoString → Bool)
    (run : GoString → GoString → GoString → GoString × Option RunError)
    (ref dir : GoString) :
    (∀ cause, DownloadWASMExtension hostOK (some cause) run ref dir = none) ∧
    (IsOCI ref = false → DownloadWASMExtension hostOK none run ref dir = none) ∧
    (IsOCI ref = true → ∀ v err, DownloadWASMExtension.version hostOK ref = (v, some err) →
      DownloadWASMExtension hostOK none run ref dir =
        some ([], some (BridgeError.reference err))) ∧
    (IsOCI ref = true → ∀ v out err, DownloadWASMExtension.version hostOK ref = (v, none) →
      run v dir ref = (out, some err) →
      DownloadWASMExtension hostOK none run ref dir = some ([], some (BridgeError.pull err))) ∧
    (IsOCI ref = true → ∀ v saved, DownloadWASMExtension.version hostOK ref = (v, none) →
      run v dir ref = (saved, none) →
      DownloadWASMExtension hostOK none run ref dir = some (saved, none)) := by
  refine ⟨fun cause => rfl, ?_, ?_, ?_, ?_⟩
  · intro h
    unfold DownloadWASMExtension DownloadWASMExtension.fetch
    simp only [h]
    rfl
  · intro h v err hv
    unfold DownloadWASMExtension DownloadWASMExtension.fetch
    simp only [h, hv]
    rfl
  · intro h v out err hv hr
    unfold DownloadWASMExtension DownloadWASMExtension.fetch
    simp only [h, hv, hr]
    rfl
  · intro h v saved hv hr
    unfold DownloadWASMExtension DownloadWASMExtension.fetch
    simp only [h, hv, hr]
    rfl

/-- Witness of C23: the reference `http://h/r` and a failing client creation make
`DownloadWASMExtension` panic; a reference that does not parse and a failing pull give the
empty path with the error. -/
theorem C23_nil_result_panics_witness :
    DownloadWASMExtension (fun _ => true) none
        (fun _ _ _ => ("saved".toList, none)) "http://h/r".toList "/tmp".toList = none ∧
      DownloadWASMExtension (fun _ => true) (some "no config".toList)
        (fun _ _ _ => ("saved".toList, none)) "oci://h/r:1.0.0".toList "/tmp".toList = none ∧
      DownloadWASMExtension (fun _ => true) none
        (fun _ _ _ => ("saved".toList, none)) "oci://h".toList "/tmp".toList =
        some ([], some (BridgeError.reference oras.RefError.missingRepository)) ∧
      DownloadWASMExtension (fun _ => true) none
        (fun _ _ _ => ("log".toList, some (RunError.downstream "not found".toList)))
        "oci://h/r:1.0.0".toList "/tmp".toList =
        some ([], some (BridgeError.pull (RunError.downstream "not found".toList))) ∧
      DownloadWASMExtension (fun _ => true) none
        (fun _ _ _ => ("saved".toList, none)) "oci://h/r:1.0.0".toList "/tmp".toList =
        some ("saved".toList, none) :=
  ⟨(C23_nil_result_panics (fun _ => true) (fun _ _ _ => ("saved".toList, none))
      "http://h/r".toList "/tmp".toList).2.1 (by decide),
    (C23_nil_result_panics (fun _ => true) (fun _ _ _ => ("saved".toList, none))
      "oci://h/r:1.0.0".toList "/tmp".toList).1 "no config".toList,
    (C23_nil_result_panics (fun _ => true) (fun _ _ _ => ("saved".toList, none))
      "oci://h".toList "/tmp".toList).2.2.1 (by decide) [] _ (by decide),
    (C23_nil_result_panics (fun _ => true)
      (fun _ _ _ => ("log".toList, some (RunError.downstream "not found".toList)))
      "oci://h/r:1.0.0".toList "/tmp".toList).2.2.2.1 (by decide) "1.0.0".toList "log".toList _
      (by decide) rfl,
    (C23_nil_result_panics (fun _ => true) (fun _ _ _ => ("saved".toList, none))
      "oci://h/r:1.0.0".toList "/tmp".toList).2.2.2.2 (by decide) "1.0.0".toList
      "saved".toList (by decide) rfl⟩

/-- C28 fails in the code: the pull action the download command builds does not depend on
the options the flags filled.  Its version is the one `getVersionFromRef` reads from the
reference, whatever `--version` holds. -/
theorem C28_version_flag_ignored (hostOK : GoString → Bool) (newClient : Option GoString)
    (r : CommonPullOptions) (destDir ref : GoString) :
    (∀ r' : CommonPullOptions,
      newDownloadCmd.puller hostOK newClient r destDir ref =
        newDownloadCmd.puller hostOK newClient r' destDir ref) ∧
    (∀ p, newDownloadCmd.puller hostOK newClient r destDir ref = (some p, none) →
      getVersionFromRef hostOK ref = (p.Version, none)) := by
  refine ⟨fun r' => rfl, ?_⟩
  intro p h
  unfold newDownloadCmd.puller at h
  cases newClient with
  | some cause => simp at h
  | none =>
    dsimp only at h
    split_ifs at h with hoci
    · simp at h
    · rcases hv : getVersionFromRef hostOK ref with ⟨v, _ | err⟩
      · rw [hv] at h
        simp only [Prod.mk.injEq, Option.some.injEq, and_true] at h
        rw [← h]
      · rw [hv] at h
        simp at h

/-- Witness of C28: with `--version ^2.0.0` the reference `oci://h/r:1.0.0` is pulled with
the version `1.0.0`, and the reference `oci://h/r` with the version `>0.0.0-0`. -/
theorem C28_version_flag_ignored_witness :
    (AddDownloadFlags (fun name =>
        if name = "version".toList then some "^2.0.0".toList else none)).Version =
        "^2.0.0".toList ∧
      newDownloadCmd.puller (fun _ => true) none
        (AddDownloadFlags (fun name =>
          if name = "version".toList then some "^2.0.0".toList else none))
        ".".toList "oci://h/r:1.0.0".toList = (some ⟨"1.0.0".toList, ".".toList⟩, none) ∧
      newDownloadCmd.puller (fun _ => true) none
        (AddDownloadFlags (fun name =>
          if name = "version".toList then some "^2.0.0".toList else none))
        ".".toList "oci://h/r".toList = (some ⟨">0.0.0-0".toList, ".".toList⟩, none) ∧
      getVersionFromRef (fun _ => true) "oci://h/r".toList = (">0.0.0-0".toList, none) :=
  ⟨by decide, by decide, by decide,
    (C28_version_flag_ignored (fun _ => true) none
      (AddDownloadFlags (fun name =>
        if name = "version".toList then some "^2.0.0".toList else none))
      ".".toList "oci://h/r".toList).2 ⟨">0.0.0-0".toList, ".".toList⟩ (by decide)⟩

/-! ## Claims on `renameFallback` and `AtomicWriteFile` -/

/-- C27, as the code runs: `renameFallback` goes on to `renameByCopy` exactly for a link
error whose cause is `EXDEV`.  An error that is not a link error comes back as it is; a link
error with another cause comes back wrapped in a new error, with the text `link error: cannot
rename <src> to <dst>: ` in front of it.  In both cases the file system is left alone. -/
theorem C27_fallback_on_cross_device (w : os.World) (e : os.Exec) (err : GoError)
    (src dst : GoString) :
    (∀ op old new, err = GoError.linkError op old new syscall.EXDEV →
      renameFallback w e err src dst = renameByCopy w e src dst) ∧
    ((∀ op old new inner, err ≠ GoError.linkError op old new inner) →
      renameFallback w e err src dst = (e, some err)) ∧
    (∀ op old new inner, err = GoError.linkError op old new inner → inner ≠ syscall.EXDEV →
      renameFallback w e err src dst =
        (e, some (GoError.wrap ("link error: cannot rename ".toList ++ src ++ " to ".toList ++
          dst ++ ": ".toList) err))) := by
  refine ⟨?_, ?_, ?_⟩
  · rintro op old new rfl
    simp [renameFallback]
  · intro h
    cases err with
    | linkError op old new inner => exact absurd rfl (h op old new inner)
    | errno _ => rfl
    | pathError _ _ _ => rfl
    | text _ => rfl
    | wrap _ _ => rfl
  · rintro op old new inner rfl hne
    simp [renameFallback, hne]

/-- Witness of C27: the cross-device link error, a permission link error, and an error that
is not a link error. -/
theorem C27_fallback_on_cross_device_witness :
    renameFallback calmWorld ⟨[], oneFile⟩
        (GoError.linkError "rename".toList "f".toList "g".toList syscall.EXDEV)
        "f".toList "g".toList = renameByCopy calmWorld ⟨[], oneFile⟩ "f".toList "g".toList ∧
      renameFallback calmWorld ⟨[], oneFile⟩ (GoError.text "busy".toList)
        "f".toList "g".toList = (⟨[], oneFile⟩, some (GoError.text "busy".toList)) ∧
      renameFallback calmWorld ⟨[], oneFile⟩
        (GoError.linkError "rename".toList "f".toList "g".toList (GoError.errno 13))
        "f".toList "g".toList =
        (⟨[], oneFile⟩, some (GoError.wrap ("link error: cannot rename ".toList ++ "f".toList ++
          " to ".toList ++ "g".toList ++ ": ".toList)
          (GoError.linkError "rename".toList "f".toList "g".toList (GoError.errno 13)))) :=
  ⟨(C27_fallback_on_cross_device calmWorld ⟨[], oneFile⟩ _ "f".toList "g".toList).1 _ _ _ rfl,
    (C27_fallback_on_cross_device calmWorld ⟨[], oneFile⟩ _ "f".toList "g".toList).2.1
      (fun _ _ _ _ h => by cases h),
    (C27_fallback_on_cross_device calmWorld ⟨[], oneFile⟩ _ "f".toList "g".toList).2.2
      _ _ _ _ rfl (by decide)⟩

/-- C27 as stated fails: for the link error with the cause `EACCES` (13), a rename failure
that is not the cross-device one, the error `renameFallback` returns is not the error it was
given but a new error that wraps it. -/
theorem C27_link_error_wrapped :
    (renameFallback calmWorld ⟨[], oneFile⟩
        (GoError.linkError "rename".toList "f".toList "g".toList (GoError.errno 13))
        "f".toList "g".toList).2 =
        some (GoError.wrap "link error: cannot rename f to g: ".toList
          (GoError.linkError "rename".toList "f".toList "g".toList (GoError.errno 13))) ∧
      (renameFallback calmWorld ⟨[], oneFile⟩
        (GoError.linkError "rename".toList "f".toList "g".toList (GoError.errno 13))
        "f".toList "g".toList).2 ≠
        some (GoError.linkError "rename".toList "f".toList "g".toList (GoError.errno 13)) := by
  decide

theorem Keeps_step (e : os.Exec) (fs : os.FS) (path : GoString) (v : Option os.Node)
    (h : e.Keeps path v) (hfs : fs path = v) : (e.step fs).Keeps path v := by
  intro s hs
  unfold os.Exec.step os.Exec.states at hs
  rcases List.mem_append.1 hs with hs | hs
  · exact h s hs
  · rw [List.mem_singleton.1 hs]
    exact hfs

theorem Keeps_now (e : os.Exec) (path : GoString) (v : Option os.Node) (h : e.Keeps path v) :
    e.now path = v :=
  h e.now (by simp [os.Exec.states])

theorem Keeps_put (e : os.Exec) (path other : GoString) (n v : Option os.Node)
    (hne : path ≠ other) (h : e.Keeps path v) : (e.put other n).Keeps path v := by
  apply Keeps_step e _ path v h
  unfold os.FS.set
  rw [if_neg hne]
  exact Keeps_now e path v h

theorem put_now (e : os.Exec) (path : GoString) (n : Option os.Node) :
    (e.put path n).now path = n := by
  simp [os.Exec.put, os.Exec.step, os.FS.set]

theorem Keeps_writeChunks (e : os.Exec) (path other : GoString) (mode : Nat) (data : Bytes)
    (bufSize k : Nat) (v : Option os.Node) (hne : path ≠ other) (h : e.Keeps path v) :
    (os.writeChunks e other mode data bufSize k).Keeps path v := by
  unfold os.writeChunks
  generalize List.range k = l
  induction l generalizing e with
  | nil => exact h
  | cons i l ih =>
    rw [List.foldl_cons]
    exact ih _ (Keeps_put e path other _ v hne h)

theorem writeChunks_now (e : os.Exec) (path : GoString) (mode : Nat) (data : Bytes)
    (bufSize k : Nat) :
    (os.writeChunks e path mode data bufSize k).now path =
      if k = 0 then e.now path else some (os.Node.file (data.take (k * bufSize)) mode) := by
  unfold os.writeChunks
  induction k with
  | zero => rfl
  | succ k _ =>
    rw [List.range_succ, List.foldl_append, List.foldl_cons, List.foldl_nil, put_now]
    simp

theorem take_chunkCount (data : Bytes) (bufSize : Nat) (h : 0 < bufSize) :
    data.take (os.chunkCount data.length bufSize * bufSize) = data := by
  apply List.take_of_length_le
  unfold os.chunkCount
  have h1 := Nat.div_add_mod (data.length + bufSize - 1) bufSize
  have h2 := Nat.mod_lt (data.length + bufSize - 1) h
  have h3 : bufSize * ((data.length + bufSize - 1) / bufSize) =
      (data.length + bufSize - 1) / bufSize * bufSize := Nat.mul_comm _ _
  omega

theorem chunkCount_eq_zero (n bufSize : Nat) (h : 0 < bufSize)
    (h0 : os.chunkCount n bufSize = 0) : n = 0 := by
  unfold os.chunkCount at h0
  have h1 := (Nat.div_eq_zero_iff h).1 h0
  omega

theorem Split_append (path : GoString) :
    (filepath.Split path).1 ++ (filepath.Split path).2 = path := by
  unfold filepath.Split
  dsimp only
  rw [← List.reverse_append, List.takeWhile_append_dropWhile, List.reverse_reverse]

theorem Split_file_no_slash (path : GoString) : '/' ∉ (filepath.Split path).2 := by
  unfold filepath.Split
  dsimp only
  intro h
  have := List.mem_takeWhile_imp (List.mem_reverse.1 h)
  simp at this

theorem Split_dir_last (path : GoString) (h : (filepath.Split path).1 ≠ []) :
    (filepath.Split path).1.getLast? = some '/' := by
  unfold filepath.Split at h ⊢
  dsimp only at h ⊢
  rw [List.getLast?_reverse]
  cases hd : path.reverse.dropWhile (fun c => c != '/') with
  | nil =>
    rw [hd] at h
    exact absurd rfl h
  | cons c cs =>
    have := List.head_dropWhile_not (fun c => c != '/') path.reverse (by rw [hd]; simp)
    simp only [hd, List.head_cons] at this
    simp only [List.head?_cons, Option.some.injEq]
    simpa using this

theorem LastIndexByte_spec (s : GoString) (c : Char) (h : strings.LastIndexByte s c ≠ -1) :
    0 ≤ strings.LastIndexByte s c ∧
      s = s.take (strings.LastIndexByte s c).toNat ++
        c :: s.drop ((strings.LastIndexByte s c).toNat + 1) := by
  induction s with
  | nil => exact absurd rfl h
  | cons x xs ih =>
    unfold strings.LastIndexByte at h ⊢
    by_cases h1 : strings.LastIndexByte xs c ≠ -1
    · obtain ⟨i0, i1⟩ := ih h1
      rw [if_pos h1]
      have e : (strings.LastIndexByte xs c + 1).toNat = (strings.LastIndexByte xs c).toNat + 1 := by
        omega
      refine ⟨by omega, ?_⟩
      rw [e, List.take_succ_cons, List.drop_succ_cons, List.cons_append, ← i1]
    · rw [if_neg h1] at h ⊢
      by_cases h2 : x = c
      · rw [if_pos h2]
        refine ⟨le_refl _, ?_⟩
        simp [h2]
      · rw [if_neg h2] at h
        exact absurd rfl h

theorem LastIndexByte_eq_neg_one (s : GoString) (c : Char) :
    strings.LastIndexByte s c = -1 ↔ c ∉ s := by
  induction s with
  | nil => simp [strings.LastIndexByte]
  | cons x xs ih =>
    unfold strings.LastIndexByte
    by_cases h1 : strings.LastIndexByte xs c ≠ -1
    · rw [if_pos h1]
      have hm : c ∈ xs := by
        by_contra hc
        exact h1 (ih.2 hc)
      have i0 := (LastIndexByte_spec xs c h1).1
      constructor
      · intro h
        omega
      · intro h
        exact absurd (List.mem_cons_of_mem _ hm) h
    · rw [if_neg h1]
      have hm : c ∉ xs := ih.1 (not_not.1 h1)
      by_cases h2 : x = c
      · rw [if_pos h2]
        simp [h2]
      · rw [if_neg h2]
        simp only [true_iff, List.mem_cons, not_or]
        exact ⟨fun e => h2 e.symm, hm⟩

theorem joinPath_has_slash (dir name : GoString) : '/' ∈ os.joinPath dir name := by
  unfold os.joinPath
  split_ifs with h
  · exact List.mem_append_left _ (List.mem_of_getLast?_eq_some h)
  · simp

theorem tempName_ne (w : os.World) (filename pre suf : GoString)
    (hrandom : w.random ≠ [] ∧ ∀ c ∈ w.random, strconv.isDigit c = true)
    (hpat : os.prefixAndSuffix (filepath.Split filename).2 = some (pre, suf)) :
    filename ≠ os.joinPath (if (filepath.Split filename).1 = [] then w.tempDir
      else (filepath.Split filename).1) pre ++ w.random ++ suf := by
  have happ := Split_append filename
  have hfile := Split_file_no_slash filename
  obtain ⟨r0, rs, hr⟩ := List.exists_cons_of_ne_nil hrandom.1
  have hr0 : strconv.isDigit r0 = true := hrandom.2 r0 (by rw [hr]; simp)
  have hstar : r0 ≠ '*' := fun e => by
    rw [e] at hr0
    exact absurd hr0 (by decide)
  by_cases hdir : (filepath.Split filename).1 = []
  · rw [if_pos hdir]
    intro e
    have hs : '/' ∈ filename := by
      rw [e]
      exact List.mem_append_left _ (List.mem_append_left _ (joinPath_has_slash _ _))
    rw [← happ, hdir, List.nil_append] at hs
    exact hfile hs
  · rw [if_neg hdir]
    have hlast := Split_dir_last filename hdir
    unfold os.joinPath
    rw [if_pos hlast]
    intro e
    have e2 : (filepath.Split filename).1 ++ (filepath.Split filename).2 =
        (filepath.Split filename).1 ++ (pre ++ w.random ++ suf) := by
      rw [happ]
      simpa [List.append_assoc] using e
    have e3 := List.append_cancel_left e2
    unfold os.prefixAndSuffix at hpat
    have hc : ((filepath.Split filename).2.contains '/') = false := by
      simpa using hfile
    rw [hc] at hpat
    simp only [Bool.false_eq_true, if_false] at hpat
    split_ifs at hpat with hidx
    · obtain ⟨_, hspec⟩ := LastIndexByte_spec _ '*' hidx
      simp only [Option.some.injEq, Prod.mk.injEq] at hpat
      rw [← hpat.1, ← hpat.2] at e3
      rw [hspec] at e3
      -- the pattern is `pre * suf`, the name `pre random suf`
      have hspec2 := hspec
      rw [← hspec2] at e3
      nth_rewrite 1 [hspec] at e3
      rw [List.append_assoc] at e3
      have e4 := List.append_cancel_left e3
      rw [hr] at e4
      simp only [List.cons_append, List.cons.injEq] at e4
      exact hstar e4.1.symm
    · simp only [Option.some.injEq, Prod.mk.injEq] at hpat
      rw [← hpat.1, ← hpat.2, List.append_nil] at e3
      have hl := congrArg List.length e3
      rw [List.length_append, hr] at hl
      simp at hl

theorem ioCopy_Keeps (w : os.World) (site : os.Site) (e : os.Exec) (path other : GoString)
    (data : Bytes) (v : Option os.Node) (hne : path ≠ other) (h : e.Keeps path v) :
    (os.ioCopy w site e other data).1.Keeps path v := by
  unfold os.ioCopy
  dsimp only
  cases w.fault site with
  | none => exact Keeps_writeChunks _ _ _ _ _ _ _ _ hne h
  | some err => exact Keeps_writeChunks _ _ _ _ _ _ _ _ hne h

theorem ioCopy_now (w : os.World) (site : os.Site) (e : os.Exec) (path : GoString)
    (data : Bytes) (m : Nat) (hbuf : 0 < w.bufSize) (hnow : e.now path = some (os.Node.file [] m))
    (hok : (os.ioCopy w site e path data).2 = none) :
    (os.ioCopy w site e path data).1.now path = some (os.Node.file data m) := by
  unfold os.ioCopy at hok ⊢
  dsimp only at hok ⊢
  cases hf : w.fault site with
  | some err =>
    rw [hf] at hok
    cases hok
  | none =>
    simp only [hnow]
    rw [writeChunks_now]
    by_cases hk : os.chunkCount data.length w.bufSize = 0
    · rw [if_pos hk, hnow]
      have := chunkCount_eq_zero _ _ hbuf hk
      rw [List.length_eq_zero.1 this]
    · rw [if_neg hk, take_chunkCount data _ hbuf]

theorem Chmod_Keeps (w : os.World) (site : os.Site) (e : os.Exec) (path name : GoString)
    (mode : Nat) (v : Option os.Node) (hne : path ≠ name) (h : e.Keeps path v) :
    (os.Chmod w site e name mode).1.Keeps path v := by
  unfold os.Chmod
  cases w.fault site with
  | some err => exact h
  | none =>
    dsimp only
    rcases e.now name with _ | ⟨d, m⟩ | m
    · exact h
    · exact Keeps_put e path name _ v hne h
    · exact Keeps_put e path name _ v hne h

theorem Chmod_now (w : os.World) (site : os.Site) (e : os.Exec) (name : GoString)
    (mode m : Nat) (d : Bytes) (hnow : e.now name = some (os.Node.file d m))
    (hok : (os.Chmod w site e name mode).2 = none) :
    (os.Chmod w site e name mode).1.now name = some (os.Node.file d mode) := by
  unfold os.Chmod at hok ⊢
  cases hf : w.fault site with
  | some err =>
    rw [hf] at hok
    cases hok
  | none =>
    simp only [hnow]
    exact put_now _ _ _

theorem CreateTemp_spec (w : os.World) (e : os.Exec) (dir pattern : GoString) :
    (∃ err, os.CreateTemp w e dir pattern = (e, [], some err)) ∨
    (∃ pre suf, os.prefixAndSuffix pattern = some (pre, suf) ∧
      os.CreateTemp w e dir pattern =
        (e.put (os.joinPath (if dir = [] then w.tempDir else dir) pre ++ w.random ++ suf)
            (some (os.Node.file [] 384)),
          os.joinPath (if dir = [] then w.tempDir else dir) pre ++ w.random ++ suf, none)) := by
  unfold os.CreateTemp
  rcases hp : os.prefixAndSuffix pattern with _ | ⟨pre, suf⟩
  · exact Or.inl ⟨_, rfl⟩
  · dsimp only
    cases w.fault os.Site.createTemp with
    | some err => exact Or.inl ⟨_, rfl⟩
    | none =>
      dsimp only
      by_cases hs : (e.now (os.joinPath (if dir = [] then w.tempDir else dir) pre ++
          w.random ++ suf)).isSome = true
      · rw [if_pos hs]
        exact Or.inl ⟨_, rfl⟩
      · rw [if_neg hs]
        exact Or.inr ⟨pre, suf, rfl, rfl⟩

theorem RenameWithFallback_direct (w : os.World) (e : os.Exec) (src dst : GoString)
    (n : os.Node) (v : Option os.Node)
    (hrename : ∀ op old new,
      w.fault os.Site.rename ≠ some (GoError.linkError op old new syscall.EXDEV))
    (hkeep : e.Keeps dst v) (hsrc : e.now src = some n) :
    (∀ s ∈ (RenameWithFallback w e src dst).1.states, s dst = v ∨ s dst = some n) ∧
    ((RenameWithFallback w e src dst).2 = none →
      (RenameWithFallback w e src dst).1.now dst = some n) := by
  have stay : ∀ err : GoError, (∀ s ∈ e.states, s dst = v ∨ s dst = some n) ∧
      (some err = none → e.now dst = some n) :=
    fun err => ⟨fun s hs => Or.inl (hkeep s hs), fun h => by cases h⟩
  have fallback : ∀ err : GoError, (∀ op old new, err ≠ GoError.linkError op old new syscall.EXDEV) →
      ∃ err', renameFallback w e err src dst = (e, some err') := by
    intro err hx
    cases err with
    | linkError op old new inner =>
      have hi : inner ≠ syscall.EXDEV := fun h => hx op old new (by rw [h])
      exact ⟨_, by
        unfold renameFallback
        exact if_pos hi⟩
    | errno _ => exact ⟨_, rfl⟩
    | pathError _ _ _ => exact ⟨_, rfl⟩
    | text _ => exact ⟨_, rfl⟩
    | wrap _ _ => exact ⟨_, rfl⟩
  unfold RenameWithFallback
  rcases hst : os.Stat w os.Site.stat e.now src with ⟨node, _ | err⟩
  swap
  · exact stay _
  · dsimp only
    unfold os.Rename
    cases hf : w.fault os.Site.rename with
    | some err =>
      dsimp only
      obtain ⟨err', he⟩ := fallback err (fun op old new h => hrename op old new (by rw [hf, h]))
      rw [he]
      exact stay _
    | none =>
      dsimp only
      rw [hsrc]
      have moved : ∀ x : Option os.Node,
          (∀ s ∈ (e.step ((e.now.set src none).set dst (some n))).states,
            s dst = v ∨ s dst = some n) ∧
          ((none : Option GoError) = none →
            (e.step ((e.now.set src none).set dst (some n))).now dst = some n) := by
        intro _
        have hnow : ((e.now.set src none).set dst (some n)) dst = some n := by
          simp [os.FS.set]
        refine ⟨?_, fun _ => hnow⟩
        intro s hs
        unfold os.Exec.step os.Exec.states at hs
        rcases List.mem_append.1 hs with hs | hs
        · exact Or.inl (hkeep s hs)
        · rw [List.mem_singleton.1 hs]
          exact Or.inr hnow
      cases n with
      | file d m =>
        rcases hd : e.now dst with _ | ⟨d', m'⟩ | m'
        · exact moved none
        · exact moved none
        · dsimp only
          obtain ⟨err', he⟩ := fallback
            (GoError.linkError "rename".toList src dst syscall.EISDIR)
            (fun op old new h => by
              simp only [GoError.linkError.injEq] at h
              exact absurd h.2.2.2 (by decide))
          rw [he]
          exact stay _
      | dir m =>
        rcases hd : e.now dst with _ | ⟨d', m'⟩ | m'
        · exact moved none
        · dsimp only
          obtain ⟨err', he⟩ := fallback
            (GoError.linkError "rename".toList src dst syscall.ENOTDIR)
            (fun op old new h => by
              simp only [GoError.linkError.injEq] at h
              exact absurd h.2.2.2 (by decide))
          rw [he]
          exact stay _
        · exact moved none

/-- C26, as the code runs: in every execution of `AtomicWriteFile` in which `os.Rename` does
not answer with the cross-device link error, whichever system call fails and however far
the copy into the temporary file gets, every file-system state shows at the destination
either what was there before the call or the complete new content with the requested mode;
and when the call returns a nil error the destination holds the complete new content.  The
random part of the temporary name is a non-empty decimal numeral. -/
theorem C26_atomic_on_rename_path (w : os.World) (fs : os.FS) (filename : GoString)
    (data : Bytes) (mode : Nat)
    (hrandom : w.random ≠ [] ∧ ∀ c ∈ w.random, strconv.isDigit c = true)
    (hbuf : 0 < w.bufSize)
    (hrename : ∀ op old new,
      w.fault os.Site.rename ≠ some (GoError.linkError op old new syscall.EXDEV)) :
    (∀ s ∈ (AtomicWriteFile w fs filename data mode).1.states,
      s filename = fs filename ∨ s filename = some (os.Node.file data mode)) ∧
    ((AtomicWriteFile w fs filename data mode).2 = none →
      (AtomicWriteFile w fs filename data mode).1.now filename =
        some (os.Node.file data mode)) := by
  have h0 : (⟨[], fs⟩ : os.Exec).Keeps filename (fs filename) := by
    intro s hs
    simp only [os.Exec.states, List.nil_append, List.mem_singleton] at hs
    rw [hs]
  have stay : ∀ (e : os.Exec) (err : GoError), e.Keeps filename (fs filename) →
      (∀ s ∈ e.states, s filename = fs filename ∨ s filename = some (os.Node.file data mode)) ∧
      (some err = none → e.now filename = some (os.Node.file data mode)) :=
    fun e err hk => ⟨fun s hs => Or.inl (hk s hs), fun h => by cases h⟩
  unfold AtomicWriteFile
  rcases CreateTemp_spec w ⟨[], fs⟩ (filepath.Split filename).1 (filepath.Split filename).2 with
    ⟨err, hct⟩ | ⟨pre, suf, hpat, hct⟩
  · rw [hct]
    exact stay _ err h0
  · rw [hct]
    dsimp only
    have hne := tempName_ne w filename pre suf hrandom hpat
    generalize os.joinPath (if (filepath.Split filename).1 = [] then w.tempDir
      else (filepath.Split filename).1) pre ++ w.random ++ suf = tempName at hne
    have h1 := Keeps_put ⟨[], fs⟩ filename tempName (some (os.Node.file [] 384)) _ hne h0
    have n1 := put_now ⟨[], fs⟩ tempName (some (os.Node.file [] 384))
    generalize (⟨[], fs⟩ : os.Exec).put tempName (some (os.Node.file [] 384)) = e1 at h1 n1
    have h2 := ioCopy_Keeps w os.Site.copy e1 filename tempName data _ hne h1
    have n2 := ioCopy_now w os.Site.copy e1 tempName data 384 hbuf n1
    rcases hc : os.ioCopy w os.Site.copy e1 tempName data with ⟨e2, _ | err⟩
    swap
    · rw [hc] at h2
      exact stay _ err h2
    rw [hc] at h2 n2
    dsimp only at h2 n2 ⊢
    have n2 := n2 rfl
    cases w.fault os.Site.close with
    | some err => exact stay _ err h2
    | none =>
      dsimp only
      have h3 := Chmod_Keeps w os.Site.chmod e2 filename tempName mode _ hne h2
      have n3 := Chmod_now w os.Site.chmod e2 tempName mode 384 data n2
      rcases hm : os.Chmod w os.Site.chmod e2 tempName mode with ⟨e3, _ | err⟩
      swap
      · rw [hm] at h3
        exact stay _ err h3
      rw [hm] at h3 n3
      dsimp only at h3 n3 ⊢
      exact RenameWithFallback_direct w e3 tempName filename (os.Node.file data mode) _
        hrename h3 (n3 rfl)

/-- Witness of C26 on the file `f`: no system call fails, and the destination shows the old
file until the rename and the new file after it. -/
theorem C26_atomic_on_rename_path_witness :
    (AtomicWriteFile calmWorld oneFile "f".toList [7, 8, 9] 420).2 = none ∧
      (AtomicWriteFile calmWorld oneFile "f".toList [7, 8, 9] 420).1.states.map
          (fun s => s "f".toList) =
        [some (os.Node.file [1, 2, 3] 384), some (os.Node.file [1, 2, 3] 384),
          some (os.Node.file [1, 2, 3] 384), some (os.Node.file [1, 2, 3] 384),
          some (os.Node.file [1, 2, 3] 384), some (os.Node.file [7, 8, 9] 420)] ∧
      (∀ s ∈ (AtomicWriteFile calmWorld oneFile "f".toList [7, 8, 9] 420).1.states,
        s "f".toList = oneFile "f".toList ∨
          s "f".toList = some (os.Node.file [7, 8, 9] 420)) :=
  ⟨by decide, by decide,
    (C26_atomic_on_rename_path calmWorld oneFile "f".toList [7, 8, 9] 420
      ⟨by decide, by decide⟩ (by decide) (fun _ _ _ h => by cases h)).1⟩

/-- C26 as stated fails: when `os.Rename` answers with the cross-device link error,
`copyFile` truncates the destination and fills it buffer by buffer.  With the old file
`[1, 2, 3]`, the new content `[7, 8, 9]` and a buffer of two bytes, the destination is seen
empty and then holding `[7, 8]`, neither the old content nor the complete new one, before
the call returns a nil error. -/
theorem C26_fallback_shows_partial_content :
    (AtomicWriteFile crossDeviceWorld oneFile "f".toList [7, 8, 9] 420).2 = none ∧
      (AtomicWriteFile crossDeviceWorld oneFile "f".toList [7, 8, 9] 420).1.states.map
          (fun s => s "f".toList) =
        [some (os.Node.file [1, 2, 3] 384), some (os.Node.file [1, 2, 3] 384),
          some (os.Node.file [1, 2, 3] 384), some (os.Node.file [1, 2, 3] 384),
          some (os.Node.file [1, 2, 3] 384), some (os.Node.file [] 384),
          some (os.Node.file [7, 8] 384), some (os.Node.file [7, 8, 9] 384),
          some (os.Node.file [7, 8, 9] 420), some (os.Node.file [7, 8, 9] 420)] ∧
      (∃ s ∈ (AtomicWriteFile crossDeviceWorld oneFile "f".toList [7, 8, 9] 420).1.states,
        s "f".toList ≠ oneFile "f".toList ∧ s "f".toList ≠ none ∧
          s "f".toList ≠ some (os.Node.file [7, 8, 9] 420) ∧
          s "f".toList = some (os.Node.file [7, 8] 384)) := by
  have h : (AtomicWriteFile crossDeviceWorld oneFile "f".toList [7, 8, 9] 420).1.states.map
          (fun s => s "f".toList) =
        [some (os.Node.file [1, 2, 3] 384), some (os.Node.file [1, 2, 3] 384),
          some (os.Node.file [1, 2, 3] 384), some (os.Node.file [1, 2, 3] 384),
          some (os.Node.file [1, 2, 3] 384), some (os.Node.file [] 384),
          some (os.Node.file [7, 8] 384), some (os.Node.file [7, 8, 9] 384),
          some (os.Node.file [7, 8, 9] 420), some (os.Node.file [7, 8, 9] 420)] := by
    decide
  refine ⟨by decide, h, ?_⟩
  have hm : some (os.Node.file [7, 8] 384) ∈
      (AtomicWriteFile crossDeviceWorld oneFile "f".toList [7, 8, 9] 420).1.states.map
        (fun s => s "f".toList) := by
    rw [h]
    decide
  obtain ⟨s, hs, e⟩ := List.mem_map.1 hm
  refine ⟨s, hs, ?_, ?_, ?_, e⟩
  · rw [e]
    decide
  · rw [e]
    decide
  · rw [e]
    decide

/-! ## Helper lemmas: the characters of a listed tag -/

theorem mem_consHead (a : Char) (l : List GoString) :
    (∃ part ∈ strings.consHead a l, a ∈ part) ∧
    (∀ part ∈ l, ∃ part' ∈ strings.consHead a l, ∀ x ∈ part, x ∈ part') := by
  cases l with
  | nil =>
    exact ⟨⟨[a], by simp [strings.consHead], by simp⟩, fun part hp => by cases hp⟩
  | cons seg rest =>
    refine ⟨⟨a :: seg, by simp [strings.consHead], by simp⟩, ?_⟩
    intro part hp
    rcases List.mem_cons.1 hp with rfl | hp
    · exact ⟨a :: part, by simp [strings.consHead], fun x hx => List.mem_cons_of_mem _ hx⟩
    · exact ⟨part, by simp [strings.consHead, hp], fun x hx => hx⟩

theorem mem_splitGo (sep : Char) (s : GoString) (k : Nat) (x : Char) (hx : x ∈ s)
    (hne : x ≠ sep) : ∃ part ∈ strings.splitGo [sep] k 0 s, x ∈ part := by
  induction s generalizing k with
  | nil => cases hx
  | cons a cs ih =>
    cases k with
    | zero => exact ⟨a :: cs, by simp [strings.splitGo], hx⟩
    | succ k =>
      unfold strings.splitGo
      by_cases hp : [sep].isPrefixOf (a :: cs) = true
      · rw [if_pos hp]
        have ha : sep = a := by simpa [List.isPrefixOf] using hp
        have hcs : x ∈ cs := by
          rcases List.mem_cons.1 hx with h | h
          · exact absurd (h.trans ha.symm) hne
          · exact h
        obtain ⟨part, hpart, hm⟩ := ih k hcs
        exact ⟨part, List.mem_cons_of_mem _ (by simpa using hpart), hm⟩
      · rw [if_neg hp]
        obtain ⟨h1, h2⟩ := mem_consHead a (strings.splitGo [sep] (k + 1) 0 cs)
        rcases List.mem_cons.1 hx with h | h
        · rw [h]
          exact h1
        · obtain ⟨part, hpart, hm⟩ := ih (k + 1) h
          obtain ⟨part', hpart', hsub⟩ := h2 part hpart
          exact ⟨part', hpart', hsub x hm⟩

theorem mem_Split (sep : Char) (s : GoString) (x : Char) (hx : x ∈ s) (hne : x ≠ sep) :
    ∃ part ∈ strings.Split s [sep], x ∈ part := by
  unfold strings.Split
  rw [if_neg (by simp)]
  exact mem_splitGo sep s _ x hx hne

theorem isIdentChar_of_allowed (c : Char) (h : allowed.contains c = true) :
    isIdentChar c = true := by
  have hall : ∀ x ∈ allowed, isIdentChar x = true := by decide
  exact hall c (by simpa using h)

theorem containsOnly_allowed_chars (p : GoString) (h : containsOnly p allowed = true) :
    ∀ c ∈ p, isIdentChar c = true := by
  unfold containsOnly at h
  rw [List.all_eq_true] at h
  exact fun c hc => isIdentChar_of_allowed c (h c hc)

theorem validPrereleasePart_chars (p : GoString) (h : validPrereleasePart p = true) :
    ∀ c ∈ p, isIdentChar c = true := by
  unfold validPrereleasePart at h
  split_ifs at h with hn
  · exact fun c hc => isDigit_isIdentChar c (digits_of_containsOnly_num p hn c hc)
  · exact containsOnly_allowed_chars p h

theorem validatePrerelease_chars (p : GoString) (h : validatePrerelease p = true) :
    ∀ c ∈ p, isIdentChar c = true ∨ c = '.' := by
  intro c hc
  by_cases hd : c = '.'
  · exact Or.inr hd
  · left
    unfold validatePrerelease at h
    rw [List.all_eq_true] at h
    obtain ⟨part, hpart, hm⟩ := mem_Split '.' p c hc hd
    exact validPrereleasePart_chars part (h part hpart) c hm

theorem validateMetadata_chars (m : GoString) (h : validateMetadata m = true) :
    ∀ c ∈ m, isIdentChar c = true ∨ c = '.' := by
  intro c hc
  by_cases hd : c = '.'
  · exact Or.inr hd
  · left
    unfold validateMetadata at h
    rw [List.all_eq_true] at h
    obtain ⟨part, hpart, hm⟩ := mem_Split '.' m c hc hd
    exact containsOnly_allowed_chars part (h part hpart) c hm

theorem StrictNewVersion_extras (s : GoString) (v : Version) (h : StrictNewVersion s = some v) :
    (∀ c ∈ v.pre, isIdentChar c = true ∨ c = '.') ∧
      (∀ c ∈ v.metadata, isIdentChar c = true ∨ c = '.') := by
  unfold StrictNewVersion at h
  split_ifs at h with h0
  split at h
  · dsimp only at h
    split_ifs at h with h1 h2
    · split at h
      · simp only [Option.some.injEq] at h
        subst h
        simp only [Bool.and_eq_true, Bool.or_eq_true, decide_eq_true_eq] at h2
        constructor
        · rcases h2.1 with hp | hp
          · rw [hp]
            exact fun c hc => by cases hc
          · exact validatePrerelease_chars _ hp
        · rcases h2.2 with hp | hp
          · rw [hp]
            exact fun c hc => by cases hc
          · exact validateMetadata_chars _ hp
      · cases h
    · split at h <;> cases h
  · cases h

theorem String_chars (v : Version) (hpre : ∀ c ∈ v.pre, isIdentChar c = true ∨ c = '.')
    (hmeta : ∀ c ∈ v.metadata, isIdentChar c = true ∨ c = '.') :
    ∀ c ∈ v.String, IsVersionChar c := by
  have hnum : ∀ n : Nat, ∀ c ∈ strconv.FormatUint n, IsVersionChar c :=
    fun n c hc => Or.inl (isDigit_isIdentChar c (FormatUint_digits n c hc))
  have hid : ∀ c, (isIdentChar c = true ∨ c = '.') → IsVersionChar c := by
    rintro c (h | h)
    · exact Or.inl h
    · exact Or.inr (Or.inl h)
  have hdot : ∀ c ∈ ".".toList, IsVersionChar c := by
    intro c hc
    rw [List.mem_singleton.1 hc]
    exact Or.inr (Or.inl rfl)
  intro c hc
  unfold Version.String at hc
  simp only [List.mem_append] at hc
  rcases hc with ((((((h | h) | h) | h) | h) | h) | h)
  · exact hnum _ c h
  · exact hdot c h
  · exact hnum _ c h
  · exact hdot c h
  · exact hnum _ c h
  · split_ifs at h
    · cases h
    · rcases List.mem_cons.1 h with h | h
      · rw [h]
        exact Or.inl (by decide)
      · exact hid c (hpre c h)
  · split_ifs at h
    · cases h
    · rcases List.mem_cons.1 h with h | h
      · rw [h]
        exact Or.inr (Or.inr rfl)
      · exact hid c (hmeta c h)

theorem Tags_chars (tie : Nat → Nat → Bool) (registryTags : List GoString) :
    ∀ t ∈ Client.Tags tie registryTags, ∀ c ∈ t, IsVersionChar c := by
  intro t ht
  unfold Client.Tags at ht
  obtain ⟨v, hv, rfl⟩ := List.mem_map.1 ht
  have hv' := (Sort_perm _ _ _).subset hv
  unfold Client.tagVersions at hv'
  obtain ⟨tag, _, h⟩ := List.mem_filterMap.1 hv'
  obtain ⟨h1, h2⟩ := StrictNewVersion_extras _ v h
  exact String_chars v h1 h2

theorem GetTag_mem (tags : List GoString) (versionString t : GoString)
    (h : GetTagMatchingVersionOrConstraint tags versionString = (t, none)) : t ∈ tags := by
  have em : ∀ c : Constraints, matchOrFail c tags versionString = (t, none) → t ∈ tags := by
    intro c hc
    obtain ⟨front, back, e, _⟩ := (matchOrFail_eq_ok_iff c tags versionString t).1 hc
    rw [e]
    simp
  unfold GetTagMatchingVersionOrConstraint at h
  split_ifs at h with h0
  · exact em _ h
  · cases he : exactMatch versionString tags with
    | some v =>
      rw [he] at h
      simp only [Prod.mk.injEq, and_true] at h
      obtain ⟨e1, e2⟩ := (exactMatch_eq_some_iff versionString tags v).1 he
      rw [← h, e1]
      exact e2
    | none =>
      rw [he] at h
      cases hc : NewConstraint versionString with
      | none =>
        rw [hc] at h
        simp at h
      | some c =>
        rw [hc] at h
        exact em _ h

theorem TagsOfReference_ok (hostOK : GoString → Bool)
    (tie : Nat → Nat → Bool)
    (listTags : oras.Reference → List GoString × Option GoString) (ref : GoString)
    (tags : List GoString) (h : Client.TagsOfReference hostOK tie listTags ref = (tags, none)) :
    ∃ registryTags, tags = Client.Tags tie registryTags := by
  unfold Client.TagsOfReference at h
  rcases hp : oras.ParseReference hostOK ref with ⟨parsed, _ | err⟩
  · rw [hp] at h
    dsimp only at h
    rcases hl : listTags parsed with ⟨registryTags, _ | err⟩
    · rw [hl] at h
      simp only [Prod.mk.injEq, and_true] at h
      exact ⟨registryTags, h.symm⟩
    · rw [hl] at h
      simp at h
  · rw [hp] at h
    simp at h

theorem resolveTag_cases (hostOK : GoString → Bool)
    (tie : Nat → Nat → Bool)
    (listTags : oras.Reference → List GoString × Option GoString) (ref version tag : GoString)
    (h : WASMDownloader.resolveTag hostOK tie listTags ref version = (tag, none)) :
    ((NewVersion version).isSome = true ∧ tag = version) ∨
    ((NewVersion version).isSome = false ∧ ∃ registryTags,
      Client.TagsOfReference hostOK tie listTags
        (strings.TrimPrefix ref (OCIScheme ++ "://".toList)) =
          (Client.Tags tie registryTags, none) ∧
      GetTagMatchingVersionOrConstraint (Client.Tags tie registryTags) version = (tag, none)) := by
  unfold WASMDownloader.resolveTag at h
  by_cases hv : (NewVersion version).isSome = true
  · rw [if_pos hv] at h
    simp only [Prod.mk.injEq, and_true] at h
    exact Or.inl ⟨hv, h.symm⟩
  · rw [if_neg hv] at h
    right
    refine ⟨by simpa using hv, ?_⟩
    rcases ht : Client.TagsOfReference hostOK tie listTags
        (strings.TrimPrefix ref (OCIScheme ++ "://".toList)) with ⟨tags, _ | err⟩
    · rw [ht] at h
      dsimp only at h
      obtain ⟨registryTags, rfl⟩ := TagsOfReference_ok _ _ _ _ _ ht
      refine ⟨registryTags, rfl, ?_⟩
      by_cases hl : (Client.Tags tie registryTags).length = 0
      · rw [if_pos hl] at h
        simp at h
      · rw [if_neg hl] at h
        rcases hg : GetTagMatchingVersionOrConstraint (Client.Tags tie registryTags) version with
          ⟨t, _ | err⟩
        · rw [hg] at h
          simp only [Prod.mk.injEq, and_true] at h
          rw [h]
        · rw [hg] at h
          simp at h
    · rw [ht] at h
      simp at h

theorem resolveTag_chars (hostOK : GoString → Bool)
    (tie : Nat → Nat → Bool)
    (listTags : oras.Reference → List GoString × Option GoString) (ref version tag : GoString)
    (h : WASMDownloader.resolveTag hostOK tie listTags ref version = (tag, none)) :
    ∀ c ∈ tag, IsVersionChar c := by
  rcases resolveTag_cases hostOK tie listTags ref version tag h with ⟨hv, rfl⟩ |
    ⟨_, registryTags, _, hg⟩
  · apply matchVersionRegex_chars
    unfold NewVersion at hv
    cases hm : matchVersionRegex tag with
    | none =>
      rw [hm] at hv
      cases hv
    | some r => rfl
  · exact Tags_chars tie registryTags tag (GetTag_mem _ _ _ hg)

/-! ## Claims on the file name of a download -/

theorem Base_tagged (p tag : GoString) (h : '/' ∉ tag) :
    filepath.Base (p ++ ':' :: tag) = (filepath.Split p).2 ++ ':' :: tag := by
  have hT : ∀ a ∈ tag.reverse ++ [':'], (a != '/') = true := by
    intro a ha
    rcases List.mem_append.1 ha with ha | ha
    · have : a ≠ '/' := fun e => h (by rw [← e]; exact List.mem_reverse.1 ha)
      simpa using this
    · rw [List.mem_singleton.1 ha]
      decide
  have hR : (p ++ ':' :: tag).reverse = (tag.reverse ++ [':']) ++ p.reverse := by
    simp
  have hdrop : (p ++ ':' :: tag).reverse.dropWhile (fun c => c == '/') =
      (tag.reverse ++ [':']) ++ p.reverse := by
    rw [hR]
    cases hc : tag.reverse ++ [':'] with
    | nil => simp at hc
    | cons a T =>
      have ha : (a != '/') = true := hT a (by rw [hc]; simp)
      have ha' : (a == '/') = false := by simpa using ha
      simp [List.dropWhile, ha']
  unfold filepath.Base filepath.Split
  rw [if_neg (by simp)]
  dsimp only
  rw [hdrop, List.takeWhile_append_of_pos hT]
  rw [if_neg (by simp)]
  simp

theorem LastIndexByte_cut (q tag : GoString) (c : Char) (h : c ∉ tag) :
    strings.LastIndexByte (q ++ c :: tag) c = q.length := by
  induction q with
  | nil =>
    have := (LastIndexByte_eq_neg_one tag c).2 h
    simp [strings.LastIndexByte, this]
  | cons a q ih =>
    have hne : strings.LastIndexByte (q ++ c :: tag) c ≠ -1 := by
      rw [ih]
      omega
    rw [List.cons_append, strings.LastIndexByte, if_pos hne, ih]
    simp

theorem IsVersionChar_ne (c : Char) (h : IsVersionChar c) : c ≠ '/' ∧ c ≠ ':' := by
  rcases h with h | h | h
  · rcases (isIdentChar_iff c).1 h with h | h | h | h <;>
      exact ⟨fun e => by rw [e] at h; revert h; decide, fun e => by rw [e] at h; revert h; decide⟩
  · rw [h]
    decide
  · rw [h]
    decide

theorem getOciURI_ok (hostOK : GoString → Bool)
    (tie : Nat → Nat → Bool)
    (listTags : oras.Reference → List GoString × Option GoString) (ref version : GoString)
    (u u' : url.URL)
    (h : WASMDownloader.getOciURI hostOK tie listTags ref version u = (some u', none)) :
    ∃ tag, WASMDownloader.resolveTag hostOK tie listTags ref version = (tag, none) ∧
      u' = { u with Path := (strings.Split u.Path ":".toList).headD [] ++ ':' :: tag } := by
  unfold WASMDownloader.getOciURI at h
  rcases hr : WASMDownloader.resolveTag hostOK tie listTags ref version with ⟨tag, _ | err⟩
  · rw [hr] at h
    simp only [Prod.mk.injEq, Option.some.injEq, and_true] at h
    exact ⟨tag, rfl, by rw [← h]; simp⟩
  · rw [hr] at h
    simp at h

theorem Resolve_ok (hostOK : GoString → Bool)
    (tie : Nat → Nat → Bool)
    (listTags : oras.Reference → List GoString × Option GoString)
    (urlParse : GoString → Option url.URL) (urlString : url.URL → GoString)
    (ref version : GoString) (r : Option url.URL)
    (h : WASMDownloader.ResolveWASMExtVersion hostOK tie listTags urlParse urlString ref version =
      (r, none)) :
    ∃ u u', urlParse ref = some u ∧ r = some u' ∧
      WASMDownloader.getOciURI hostOK tie listTags ref version u = (some u', none) := by
  unfold WASMDownloader.ResolveWASMExtVersion at h
  cases hu : urlParse ref with
  | none =>
    rw [hu] at h
    simp at h
  | some u =>
    rw [hu] at h
    dsimp only at h
    split_ifs at h with hoci
    · simp at h
    · cases r with
      | none =>
        unfold WASMDownloader.getOciURI at h
        rcases hr : WASMDownloader.resolveTag hostOK tie listTags ref version with ⟨tag, _ | err⟩
        · rw [hr] at h
          simp at h
        · rw [hr] at h
          simp at h
      | some u' => exact ⟨u, u', rfl, rfl, h⟩

theorem name_of_resolved (hostOK : GoString → Bool)
    (tie : Nat → Nat → Bool)
    (listTags : oras.Reference → List GoString × Option GoString) (ref version : GoString)
    (u u' : url.URL)
    (h : WASMDownloader.getOciURI hostOK tie listTags ref version u = (some u', none)) :
    ∃ tag, WASMDownloader.resolveTag hostOK tie listTags ref version = (tag, none) ∧
      filepath.Base u'.Path =
        (filepath.Split ((strings.Split u.Path ":".toList).headD [])).2 ++ ':' :: tag ∧
      strings.LastIndexByte (filepath.Base u'.Path) ':' =
        ((filepath.Split ((strings.Split u.Path ":".toList).headD [])).2.length : Int) := by
  obtain ⟨tag, hr, rfl⟩ := getOciURI_ok hostOK tie listTags ref version u u' h
  have hch := resolveTag_chars hostOK tie listTags ref version tag hr
  have hs : '/' ∉ tag := fun hm => (IsVersionChar_ne _ (hch _ hm)).1 rfl
  have hc : ':' ∉ tag := fun hm => (IsVersionChar_ne _ (hch _ hm)).2 rfl
  refine ⟨tag, hr, ?_, ?_⟩
  · exact Base_tagged _ tag hs
  · show strings.LastIndexByte (filepath.Base (_ ++ ':' :: tag)) ':' = _
    rw [Base_tagged _ tag hs, LastIndexByte_cut _ tag ':' hc]

/-- C30: for every URL `getOciURI` returns, the base name of its path holds a `:`, so the
index `DownloadTo` finds is not negative and both slices of the name are in range; and
`DownloadTo` never panics. -/
theorem C30_slice_in_range (hostOK : GoString → Bool)
    (tie : Nat → Nat → Bool)
    (listTags : oras.Reference → List GoString × Option GoString) (ref version : GoString) :
    (∀ u u', WASMDownloader.getOciURI hostOK tie listTags ref version u = (some u', none) →
      ':' ∈ filepath.Base u'.Path ∧
      0 ≤ strings.LastIndexByte (filepath.Base u'.Path) ':' ∧
      (strings.LastIndexByte (filepath.Base u'.Path) ':').toNat + 1 ≤
        (filepath.Base u'.Path).length) ∧
    (∀ (urlParse : GoString → Option url.URL) (urlString : url.URL → GoString)
      (get : GoString → GoString → Bytes × Option GoString) (w : os.World) (fs : os.FS)
      (dest : GoString),
      WASMDownloader.DownloadTo hostOK tie listTags urlParse urlString get w fs ref version dest ≠
        none) := by
  constructor
  · intro u u' h
    obtain ⟨tag, _, hb, hi⟩ := name_of_resolved hostOK tie listTags ref version u u' h
    rw [hi, hb]
    refine ⟨by simp, by omega, ?_⟩
    simp
  · intro urlParse urlString get w fs dest
    unfold WASMDownloader.DownloadTo
    rcases hr : WASMDownloader.ResolveWASMExtVersion hostOK tie listTags urlParse urlString ref
      version with ⟨r, _ | err⟩
    swap
    · simp
    obtain ⟨u, u', _, rfl, hg⟩ := Resolve_ok _ _ _ _ _ _ _ _ hr
    obtain ⟨tag, _, hb, hi⟩ := name_of_resolved hostOK tie listTags ref version u u' hg
    dsimp only
    rcases get u'.Scheme (urlString u') with ⟨data, _ | err⟩
    swap
    · simp
    dsimp only
    rw [if_neg (by rw [hi]; omega)]
    rcases AtomicWriteFile w fs _ data 420 with ⟨e, _ | err⟩ <;> simp

theorem put_now_other (e : os.Exec) (path other : GoString) (n : Option os.Node)
    (hne : path ≠ other) : (e.put other n).now path = e.now path := by
  simp [os.Exec.put, os.Exec.step, os.FS.set, hne]

theorem writeChunks_now_other (e : os.Exec) (path other : GoString) (mode : Nat)
    (data : Bytes) (bufSize k : Nat) (hne : path ≠ other) :
    (os.writeChunks e other mode data bufSize k).now path = e.now path := by
  unfold os.writeChunks
  generalize List.range k = l
  induction l generalizing e with
  | nil => rfl
  | cons i l ih =>
    rw [List.foldl_cons, ih, put_now_other _ _ _ _ hne]

theorem ioCopy_now_other (w : os.World) (site : os.Site) (e : os.Exec) (path other : GoString)
    (data : Bytes) (hne : path ≠ other) :
    (os.ioCopy w site e other data).1.now path = e.now path := by
  unfold os.ioCopy
  dsimp only
  cases w.fault site with
  | none => exact writeChunks_now_other _ _ _ _ _ _ _ hne
  | some err => exact writeChunks_now_other _ _ _ _ _ _ _ hne

theorem Create_ok (w : os.World) (e e1 : os.Exec) (name : GoString)
    (h : os.Create w e name = (e1, none)) :
    (∃ m, e1.now name = some (os.Node.file [] m)) ∧
      ∀ path, path ≠ name → e1.now path = e.now path := by
  unfold os.Create at h
  cases hf : w.fault os.Site.create with
  | some err =>
    rw [hf] at h
    simp at h
  | none =>
    rw [hf] at h
    dsimp only at h
    rcases hn : e.now name with _ | ⟨d, m⟩ | m
    · rw [hn] at h
      simp only [Prod.mk.injEq, and_true] at h
      rw [← h]
      exact ⟨⟨_, put_now _ _ _⟩, fun path hp => put_now_other _ _ _ _ hp⟩
    · rw [hn] at h
      simp only [Prod.mk.injEq, and_true] at h
      rw [← h]
      exact ⟨⟨_, put_now _ _ _⟩, fun path hp => put_now_other _ _ _ _ hp⟩
    · rw [hn] at h
      simp at h

theorem Stat_ok (w : os.World) (site : os.Site) (fs : os.FS) (name : GoString)
    (r : Option os.Node) (h : os.Stat w site fs name = (r, none)) :
    ∃ n, r = some n ∧ fs name = some n := by
  unfold os.Stat at h
  cases hf : w.fault site with
  | some err =>
    rw [hf] at h
    simp at h
  | none =>
    rw [hf] at h
    dsimp only at h
    cases hn : fs name with
    | none =>
      rw [hn] at h
      simp at h
    | some n =>
      rw [hn] at h
      simp only [Prod.mk.injEq, and_true] at h
      exact ⟨n, h.symm, rfl⟩

theorem copyFile_ok (w : os.World) (e e' : os.Exec) (src dst : GoString) (data : Bytes)
    (mode : Nat) (hbuf : 0 < w.bufSize) (hne : src ≠ dst)
    (hsrc : e.now src = some (os.Node.file data mode))
    (h : copyFile w e src dst = (e', none)) :
    e'.now dst = some (os.Node.file data mode) := by
  unfold copyFile at h
  rcases hl : os.Stat w os.Site.lstat e.now src with ⟨r, _ | err⟩
  swap
  · rw [hl] at h
    simp at h
  rw [hl] at h
  dsimp only at h
  rcases ho : os.Stat w os.Site.open e.now src with ⟨r', _ | err⟩
  swap
  · rw [ho] at h
    simp at h
  obtain ⟨n, rfl, hn⟩ := Stat_ok _ _ _ _ _ ho
  rw [hsrc] at hn
  simp only [Option.some.injEq] at hn
  subst hn
  rw [ho] at h
  dsimp only at h
  rcases hc : os.Create w e dst with ⟨e1, _ | err⟩
  swap
  · rw [hc] at h
    simp at h
  rw [hc] at h
  dsimp only at h
  obtain ⟨⟨m, hm⟩, hother⟩ := Create_ok w e e1 dst hc
  have n2 := ioCopy_now w os.Site.copyOut e1 dst data m hbuf hm
  have s2 := ioCopy_now_other w os.Site.copyOut e1 src dst data hne
  rcases hi : os.ioCopy w os.Site.copyOut e1 dst data with ⟨e2, _ | err⟩
  swap
  · rw [hi] at h
    simp at h
  rw [hi] at h n2 s2
  dsimp only at h n2 s2
  cases hf : w.fault os.Site.closeOut with
  | some err =>
    rw [hf] at h
    simp at h
  | none =>
    rw [hf] at h
    dsimp only at h
    have hsrc2 : e2.now src = some (os.Node.file data mode) := by
      rw [s2, hother src hne, hsrc]
    rcases hs : os.Stat w os.Site.statSrc e2.now src with ⟨r2, _ | err⟩
    swap
    · rw [hs] at h
      simp at h
    obtain ⟨n, rfl, hn⟩ := Stat_ok _ _ _ _ _ hs
    rw [hsrc2] at hn
    simp only [Option.some.injEq] at hn
    subst hn
    rw [hs] at h
    dsimp only at h
    have := Chmod_now w os.Site.chmodDst e2 dst mode m data (n2 rfl) (by rw [h])
    rw [h] at this
    exact this

theorem renameByCopy_ok (w : os.World) (e e' : os.Exec) (src dst : GoString) (data : Bytes)
    (mode : Nat) (hbuf : 0 < w.bufSize) (hne : src ≠ dst)
    (hsrc : e.now src = some (os.Node.file data mode))
    (h : renameByCopy w e src dst = (e', none)) :
    e'.now dst = some (os.Node.file data mode) := by
  have hdir : (IsDir w e.now src).1 = false := by
    unfold IsDir
    rcases hs : os.Stat w os.Site.isDir e.now src with ⟨r, _ | err⟩
    · obtain ⟨n, rfl, hn⟩ := Stat_ok _ _ _ _ _ hs
      rw [hsrc] at hn
      simp only [Option.some.injEq] at hn
      subst hn
      rfl
    · rcases r with _ | ⟨d, m⟩ | m <;> rfl
  unfold renameByCopy at h
  rw [hdir] at h
  simp only [Bool.false_eq_true, if_false] at h
  rcases hc : copyFile w e src dst with ⟨e1, _ | err⟩
  swap
  · rw [hc] at h
    simp at h
  rw [hc] at h
  dsimp only at h
  have h1 := copyFile_ok w e e1 src dst data mode hbuf hne hsrc hc
  unfold os.RemoveAll at h
  cases hf : w.fault os.Site.removeAll with
  | some err =>
    rw [hf] at h
    simp at h
  | none =>
    rw [hf] at h
    dsimp only at h
    split_ifs at h
    · simp only [Prod.mk.injEq, and_true] at h
      rw [← h, put_now_other _ _ _ _ (Ne.symm hne)]
      exact h1
    · simp only [Prod.mk.injEq, and_true] at h
      rw [← h]
      exact h1

theorem RenameWithFallback_ok (w : os.World) (e e' : os.Exec) (src dst : GoString)
    (data : Bytes) (mode : Nat) (hbuf : 0 < w.bufSize) (hne : src ≠ dst)
    (hsrc : e.now src = some (os.Node.file data mode))
    (h : RenameWithFallback w e src dst = (e', none)) :
    e'.now dst = some (os.Node.file data mode) := by
  have fallback : ∀ err : GoError, renameFallback w e err src dst = (e', none) →
      e'.now dst = some (os.Node.file data mode) := by
    intro err hf
    unfold renameFallback at hf
    cases err with
    | linkError op old new inner =>
      dsimp only at hf
      split_ifs at hf
      · simp at hf
      · exact renameByCopy_ok w e e' src dst data mode hbuf hne hsrc hf
    | errno _ => simp at hf
    | pathError _ _ _ => simp at hf
    | text _ => simp at hf
    | wrap _ _ => simp at hf
  unfold RenameWithFallback at h
  rcases hst : os.Stat w os.Site.stat e.now src with ⟨node, _ | err⟩
  swap
  · rw [hst] at h
    simp at h
  rw [hst] at h
  dsimp only at h
  unfold os.Rename at h
  cases hf : w.fault os.Site.rename with
  | some err =>
    rw [hf] at h
    exact fallback err h
  | none =>
    rw [hf, hsrc] at h
    dsimp only at h
    rcases hd : e.now dst with _ | ⟨d', m'⟩ | m'
    · rw [hd] at h
      simp only [Prod.mk.injEq, and_true] at h
      rw [← h]
      simp [os.Exec.step, os.FS.set]
    · rw [hd] at h
      simp only [Prod.mk.injEq, and_true] at h
      rw [← h]
      simp [os.Exec.step, os.FS.set]
    · rw [hd] at h
      exact fallback _ h

theorem AtomicWriteFile_ok (w : os.World) (fs : os.FS) (filename : GoString) (data : Bytes)
    (mode : Nat) (e : os.Exec)
    (hrandom : w.random ≠ [] ∧ ∀ c ∈ w.random, strconv.isDigit c = true)
    (hbuf : 0 < w.bufSize) (h : AtomicWriteFile w fs filename data mode = (e, none)) :
    e.now filename = some (os.Node.file data mode) := by
  unfold AtomicWriteFile at h
  rcases CreateTemp_spec w ⟨[], fs⟩ (filepath.Split filename).1 (filepath.Split filename).2 with
    ⟨err, hct⟩ | ⟨pre, suf, hpat, hct⟩
  · rw [hct] at h
    simp at h
  · rw [hct] at h
    dsimp only at h
    have hne := tempName_ne w filename pre suf hrandom hpat
    generalize os.joinPath (if (filepath.Split filename).1 = [] then w.tempDir
      else (filepath.Split filename).1) pre ++ w.random ++ suf = tempName at hne h
    have n1 := put_now ⟨[], fs⟩ tempName (some (os.Node.file [] 384))
    generalize (⟨[], fs⟩ : os.Exec).put tempName (some (os.Node.file [] 384)) = e1 at h n1
    have n2 := ioCopy_now w os.Site.copy e1 tempName data 384 hbuf n1
    rcases hc : os.ioCopy w os.Site.copy e1 tempName data with ⟨e2, _ | err⟩
    swap
    · rw [hc] at h
      simp at h
    rw [hc] at h n2
    dsimp only at h n2
    cases hf : w.fault os.Site.close with
    | some err =>
      rw [hf] at h
      simp at h
    | none =>
      rw [hf] at h
      dsimp only at h
      have n3 := Chmod_now w os.Site.chmod e2 tempName mode 384 data (n2 rfl)
      rcases hm : os.Chmod w os.Site.chmod e2 tempName mode with ⟨e3, _ | err⟩
      swap
      · rw [hm] at h
        simp at h
      rw [hm] at h n3
      dsimp only at h n3
      exact RenameWithFallback_ok w e3 e tempName filename data mode hbuf (Ne.symm hne)
        (n3 rfl) h

theorem Base_eq_Split (p : GoString) (hne : p ≠ []) (hlast : p.getLast? ≠ some '/') :
    filepath.Base p = (filepath.Split p).2 := by
  unfold filepath.Base filepath.Split
  rw [if_neg hne]
  dsimp only
  cases hr : p.reverse with
  | nil => exact absurd (List.reverse_eq_nil_iff.1 hr) hne
  | cons a r =>
    have ha : a ≠ '/' := by
      intro e
      apply hlast
      rw [← List.head?_reverse, hr, e]
      rfl
    have ha1 : (a == '/') = false := by simpa using ha
    have ha2 : (a != '/') = true := by simpa using ha
    simp [List.dropWhile, List.takeWhile, ha1, ha2]

/-- C25: when `DownloadTo` returns a nil error for a reference whose URL has the path part
`p` in front of its first `:`, `p` a repository path (not empty, not ending in `/`), the
path it returns is `filepath.Join` of the destination directory and the base name of `p`,
`-`, the resolved tag and `.wasm`; the bytes of the getter were written to that path with
`AtomicWriteFile` and the mode `0o644`, and the file holds them. -/
theorem C25_download_file_name (hostOK : GoString → Bool)
    (tie : Nat → Nat → Bool)
    (listTags : oras.Reference → List GoString × Option GoString)
    (urlParse : GoString → Option url.URL) (urlString : url.URL → GoString)
    (get : GoString → GoString → Bytes × Option GoString) (w : os.World) (fs : os.FS)
    (ref version dest destfile : GoString) (e : os.Exec) (u : url.URL)
    (hrandom : w.random ≠ [] ∧ ∀ c ∈ w.random, strconv.isDigit c = true)
    (hbuf : 0 < w.bufSize)
    (hu : urlParse ref = some u)
    (hp : (strings.Split u.Path ":".toList).headD [] ≠ [] ∧
      ((strings.Split u.Path ":".toList).headD []).getLast? ≠ some '/')
    (h : WASMDownloader.DownloadTo hostOK tie listTags urlParse urlString get w fs ref version
      dest = some (destfile, e, none)) :
    ∃ tag data, WASMDownloader.resolveTag hostOK tie listTags ref version = (tag, none) ∧
      get u.Scheme (urlString { u with
        Path := (strings.Split u.Path ":".toList).headD [] ++ ':' :: tag }) = (data, none) ∧
      destfile = filepath.Join dest
        (filepath.Base ((strings.Split u.Path ":".toList).headD []) ++ "-".toList ++ tag ++
          ".wasm".toList) ∧
      AtomicWriteFile w fs destfile data 420 = (e, none) ∧
      e.now destfile = some (os.Node.file data 420) := by
  unfold WASMDownloader.DownloadTo at h
  rcases hr : WASMDownloader.ResolveWASMExtVersion hostOK tie listTags urlParse urlString ref
    version with ⟨r, _ | err⟩
  swap
  · rw [hr] at h
    simp at h
  obtain ⟨u0, u', hu0, rfl, hg⟩ := Resolve_ok _ _ _ _ _ _ _ _ hr
  rw [hu] at hu0
  simp only [Option.some.injEq] at hu0
  subst hu0
  obtain ⟨tag, hres, hb, hi⟩ := name_of_resolved hostOK tie listTags ref version u u' hg
  obtain ⟨tag', hres', hu'⟩ := getOciURI_ok hostOK tie listTags ref version u u' hg
  rw [hres] at hres'
  simp only [Prod.mk.injEq, and_true] at hres'
  subst hres'
  rw [hr] at h
  dsimp only at h
  rcases hget : get u'.Scheme (urlString u') with ⟨data, _ | err⟩
  swap
  · rw [hget] at h
    simp at h
  rw [hget] at h
  dsimp only at h
  rw [if_neg (by rw [hi]; omega), hi, hb] at h
  have hname : List.take ((((filepath.Split ((strings.Split u.Path ":".toList).headD [])).2.length :
        Nat) : Int)).toNat
        ((filepath.Split ((strings.Split u.Path ":".toList).headD [])).2 ++ ':' :: tag) ++
        "-".toList ++
        List.drop (((((filepath.Split ((strings.Split u.Path ":".toList).headD [])).2.length :
          Nat) : Int)).toNat + 1)
          ((filepath.Split ((strings.Split u.Path ":".toList).headD [])).2 ++ ':' :: tag) ++
        ".wasm".toList =
      filepath.Base ((strings.Split u.Path ":".toList).headD []) ++ "-".toList ++ tag ++
        ".wasm".toList := by
    rw [Base_eq_Split _ hp.1 hp.2, Int.toNat_ofNat, List.take_left]
    congr 2
    rw [← List.drop_drop, List.drop_left]
    rfl
  rw [hname] at h
  rcases hw : AtomicWriteFile w fs (filepath.Join dest
      (filepath.Base ((strings.Split u.Path ":".toList).headD []) ++ "-".toList ++ tag ++
        ".wasm".toList)) data 420 with ⟨e1, _ | err⟩
  swap
  · rw [hw] at h
    simp at h
  rw [hw] at h
  simp only [Option.some.injEq, Prod.mk.injEq, and_true] at h
  obtain ⟨rfl, rfl⟩ := h
  refine ⟨tag, data, hres, ?_, rfl, hw, AtomicWriteFile_ok w fs _ data 420 e1 hrandom hbuf hw⟩
  rw [hu'] at hget
  exact hget

/-- Witness of C25: `oci://h/org/r` with the version `>0.0.0-0` and the destination `/tmp`
is written to `/tmp/r-1.2.0.wasm`. -/
theorem C25_download_file_name_witness :
    (WASMDownloader.DownloadTo (fun _ => true) sort.keepOrder threeTags (fun _ => some parsedExample)
        (fun _ => "oci://h/org/r".toList) (fun _ _ => ([1, 2, 3], none)) calmWorld oneFile
        "oci://h/org/r".toList ">0.0.0-0".toList "/tmp".toList).map (fun r => (r.1, r.2.2)) =
        some ("/tmp/r-1.2.0.wasm".toList, none) ∧
      ∃ tag data, WASMDownloader.resolveTag (fun _ => true) sort.keepOrder threeTags "oci://h/org/r".toList
          ">0.0.0-0".toList = (tag, none) ∧
        (fun (_ _ : GoString) => (([1, 2, 3] : Bytes), (none : Option GoString)))
          parsedExample.Scheme ((fun _ => "oci://h/org/r".toList) { parsedExample with
            Path := (strings.Split parsedExample.Path ":".toList).headD [] ++ ':' :: tag }) =
          (data, none) ∧
        "/tmp/r-1.2.0.wasm".toList = filepath.Join "/tmp".toList
          (filepath.Base ((strings.Split parsedExample.Path ":".toList).headD []) ++
            "-".toList ++ tag ++ ".wasm".toList) ∧
        AtomicWriteFile calmWorld oneFile "/tmp/r-1.2.0.wasm".toList data 420 =
          ((AtomicWriteFile calmWorld oneFile "/tmp/r-1.2.0.wasm".toList [1, 2, 3] 420).1,
            none) ∧
        (AtomicWriteFile calmWorld oneFile "/tmp/r-1.2.0.wasm".toList [1, 2, 3] 420).1.now
          "/tmp/r-1.2.0.wasm".toList = some (os.Node.file data 420) :=
  ⟨by decide,
    C25_download_file_name (fun _ => true) sort.keepOrder threeTags (fun _ => some parsedExample)
      (fun _ => "oci://h/org/r".toList) (fun _ _ => ([1, 2, 3], none)) calmWorld oneFile
      "oci://h/org/r".toList ">0.0.0-0".toList "/tmp".toList "/tmp/r-1.2.0.wasm".toList
      (AtomicWriteFile calmWorld oneFile "/tmp/r-1.2.0.wasm".toList [1, 2, 3] 420).1
      parsedExample ⟨by decide, by decide⟩ (by decide) rfl ⟨by decide, by decide⟩ rfl⟩

/-- Witness of C30 on the URL of `oci://h/org/r` and the version `1.0.0`. -/
theorem C30_slice_in_range_witness :
    WASMDownloader.getOciURI (fun _ => true) sort.keepOrder threeTags "oci://h/org/r".toList "1.0.0".toList
        parsedExample = (some ⟨"oci".toList, "h".toList, "/org/r:1.0.0".toList⟩, none) ∧
      ':' ∈ filepath.Base "/org/r:1.0.0".toList ∧
      0 ≤ strings.LastIndexByte (filepath.Base "/org/r:1.0.0".toList) ':' ∧
      (strings.LastIndexByte (filepath.Base "/org/r:1.0.0".toList) ':').toNat + 1 ≤
        (filepath.Base "/org/r:1.0.0".toList).length :=
  ⟨by decide,
    (C30_slice_in_range (fun _ => true) sort.keepOrder threeTags "oci://h/org/r".toList "1.0.0".toList).1
      parsedExample ⟨"oci".toList, "h".toList, "/org/r:1.0.0".toList⟩ (by decide)⟩

/-! ## Helper lemmas: the lenient parse of a rendered version -/

theorem takeWhile_digits (A rest : GoString) (hA : ∀ c ∈ A, strconv.isDigit c = true)
    (hrest : ∀ c, rest.head? = some c → strconv.isDigit c = false) :
    (A ++ rest).takeWhile strconv.isDigit = A ∧ (A ++ rest).dropWhile strconv.isDigit = rest := by
  rw [List.takeWhile_append_of_pos hA, List.dropWhile_append_of_pos hA]
  cases rest with
  | nil => simp
  | cons c cs =>
    have := hrest c rfl
    simp [List.takeWhile, List.dropWhile, this]

theorem optDotClass_digits (B rest : GoString) (hne : B ≠ [])
    (hB : ∀ c ∈ B, strconv.isDigit c = true)
    (hrest : ∀ c, rest.head? = some c → strconv.isDigit c = false) :
    optDotClass strconv.isDigit ('.' :: (B ++ rest)) = ('.' :: B, rest) := by
  obtain ⟨b, bs, rfl⟩ := List.exists_cons_of_ne_nil hne
  have hb : strconv.isDigit b = true := hB b (by simp)
  have hbs : ∀ c ∈ bs, strconv.isDigit c = true := fun c hc => hB c (by simp [hc])
  obtain ⟨h1, h2⟩ := takeWhile_digits bs rest hbs hrest
  simp only [optDotClass, List.cons_append, beq_self_eq_true, hb, Bool.and_self, if_true, h1, h2]

theorem split_at_first (a a' b b' : GoString) (c : Char) (h : a ++ c :: b = a' ++ c :: b')
    (ha : c ∉ a) (ha' : c ∉ a') : a = a' ∧ b = b' := by
  induction a generalizing a' with
  | nil =>
    cases a' with
    | nil => simpa using h
    | cons x xs =>
      simp only [List.nil_append, List.cons_append, List.cons.injEq] at h
      exact absurd (by rw [h.1]; simp) ha'
  | cons y ys ih =>
    cases a' with
    | nil =>
      simp only [List.nil_append, List.cons_append, List.cons.injEq] at h
      exact absurd (by rw [← h.1]; simp) ha
    | cons x xs =>
      simp only [List.cons_append, List.cons.injEq] at h
      obtain ⟨e1, e2⟩ := ih xs h.2 (fun hm => ha (List.mem_cons_of_mem _ hm))
        (fun hm => ha' (List.mem_cons_of_mem _ hm))
      exact ⟨by rw [h.1, e1], e2⟩

theorem optTagged_other (lead c : Char) (cs : GoString) (h : c ≠ lead) :
    optTagged lead (c :: cs) = ([], c :: cs) := by
  have : (c == lead) = false := by simpa using h
  simp [optTagged, this]

theorem optTagged_extras (pre metadata : GoString)
    (hpre : ∀ c ∈ pre, isIdentChar c = true ∨ c = '.')
    (hfin : (optTagged '+' (optTagged '-'
      ((if pre = [] then [] else '-' :: pre) ++
        (if metadata = [] then [] else '+' :: metadata))).2).2 = []) :
    (optTagged '-' ((if pre = [] then [] else '-' :: pre) ++
        (if metadata = [] then [] else '+' :: metadata))).1 = pre := by
  have noplus : ∀ l : GoString, (∀ c ∈ l, isIdentChar c = true ∨ c = '.') → '+' ∉ l := by
    intro l hl hm
    rcases hl _ hm with h | h
    · exact absurd h (by decide)
    · exact absurd h (by decide)
  by_cases hp : pre = []
  · rw [if_pos hp, List.nil_append, hp]
    by_cases hm : metadata = []
    · rw [if_pos hm]
      rfl
    · rw [if_neg hm, optTagged_other '-' '+' metadata (by decide)]
  · rw [if_neg hp] at hfin ⊢
    generalize hM : (if metadata = [] then [] else '+' :: metadata) = M at hfin ⊢
    rw [List.cons_append] at hfin ⊢
    rcases optTagged_spec '-' ('-' :: (pre ++ M)) with ⟨_, e2⟩ | ⟨e, hch⟩
    · rw [e2, optTagged_other '+' '-' _ (by decide)] at hfin
      cases hfin
    · simp only [List.cons.injEq, true_and] at e
      rcases optTagged_spec '+' (optTagged '-' ('-' :: (pre ++ M))).2 with ⟨_, f2⟩ | ⟨f, _⟩
      · rw [hfin] at f2
        rw [← f2, List.append_nil] at e
        by_cases hm : metadata = []
        · rw [if_pos hm] at hM
          rw [← hM, List.append_nil] at e
          rw [← hM, List.append_nil]
          exact e.symm
        · rw [if_neg hm] at hM
          exfalso
          apply noplus _ hch
          rw [← e, ← hM]
          simp
      · rw [f] at e
        by_cases hm : metadata = []
        · rw [if_pos hm] at hM
          exfalso
          apply noplus _ hpre
          rw [← hM, List.append_nil] at e
          rw [e]
          simp
        · rw [if_neg hm] at hM
          have e' := e
          rw [← hM] at e'
          rw [hM] at e'
          have hsplit : pre ++ '+' :: metadata =
              (optTagged '-' ('-' :: (pre ++ M))).1 ++ '+' ::
                ((optTagged '+' (optTagged '-' ('-' :: (pre ++ M))).2).1 ++
                  (optTagged '+' (optTagged '-' ('-' :: (pre ++ M))).2).2) := by
            rw [hM]
            exact e
          exact (split_at_first _ _ _ _ '+' hsplit (noplus _ hpre) (noplus _ hch)).1.symm

theorem matchVersionRegex_String (v : Version) :
    matchVersionRegex v.String =
      if (optTagged '+' (optTagged '-'
          ((if v.pre = [] then [] else '-' :: v.pre) ++
            (if v.metadata = [] then [] else '+' :: v.metadata))).2).2 = [] then
        some (strconv.FormatUint v.major, '.' :: strconv.FormatUint v.minor,
          '.' :: strconv.FormatUint v.patch,
          (optTagged '-' ((if v.pre = [] then [] else '-' :: v.pre) ++
            (if v.metadata = [] then [] else '+' :: v.metadata))).1,
          (optTagged '+' (optTagged '-'
            ((if v.pre = [] then [] else '-' :: v.pre) ++
              (if v.metadata = [] then [] else '+' :: v.metadata))).2).1)
      else none := by
  generalize hT : (if v.pre = [] then [] else '-' :: v.pre) ++
    (if v.metadata = [] then [] else '+' :: v.metadata) = T
  have hThead : ∀ c, T.head? = some c → strconv.isDigit c = false := by
    intro c hc
    rw [← hT] at hc
    by_cases hp : v.pre = []
    · by_cases hm : v.metadata = []
      · simp [hp, hm] at hc
      · simp only [hp, hm, if_true, if_false, List.nil_append, List.head?_cons,
          Option.some.injEq] at hc
        rw [← hc]
        decide
    · simp only [hp, if_false, List.cons_append, List.head?_cons, Option.some.injEq] at hc
      rw [← hc]
      decide
  have hdot : ∀ (rest : GoString) (c : Char), ('.' :: rest).head? = some c →
      strconv.isDigit c = false := by
    intro rest c hc
    simp only [List.head?_cons, Option.some.injEq] at hc
    rw [← hc]
    decide
  have hS : v.String = strconv.FormatUint v.major ++ '.' :: (strconv.FormatUint v.minor ++
      '.' :: (strconv.FormatUint v.patch ++ T)) := by
    unfold Version.String
    rw [← hT]
    simp [List.append_assoc]
  obtain ⟨a, as, ha⟩ := List.exists_cons_of_ne_nil (FormatUint_ne_nil v.major)
  have hav : (a == 'v') = false := by
    have : strconv.isDigit a = true := FormatUint_digits v.major a (by rw [ha]; simp)
    have hne : a ≠ 'v' := fun e => by
      rw [e] at this
      exact absurd this (by decide)
    simpa using hne
  obtain ⟨t1, d1⟩ := takeWhile_digits (strconv.FormatUint v.major)
    ('.' :: (strconv.FormatUint v.minor ++ '.' :: (strconv.FormatUint v.patch ++ T)))
    (FormatUint_digits v.major) (hdot _)
  have g2 := optDotClass_digits (strconv.FormatUint v.minor)
    ('.' :: (strconv.FormatUint v.patch ++ T)) (FormatUint_ne_nil _) (FormatUint_digits _)
    (hdot _)
  have g3 := optDotClass_digits (strconv.FormatUint v.patch) T (FormatUint_ne_nil _)
    (FormatUint_digits _) hThead
  have hstrip : (match v.String with
      | [] => v.String
      | c :: cs => if (c == 'v') = true then cs else v.String) = v.String := by
    rw [hS, ha]
    simp [hav]
  unfold matchVersionRegex
  dsimp only
  rw [hstrip, hS, t1, d1, g2, g3]
  rw [if_neg (FormatUint_ne_nil _)]

theorem NewVersion_String_fields (v w : Version)
    (hpre : ∀ c ∈ v.pre, isIdentChar c = true ∨ c = '.')
    (h : NewVersion v.String = some w) :
    w.major = v.major ∧ w.minor = v.minor ∧ w.patch = v.patch ∧ w.pre = v.pre := by
  have hseg : ∀ (n m : Nat), parseDotSegment ('.' :: strconv.FormatUint n) = some m → m = n := by
    intro n m hm
    unfold parseDotSegment at hm
    rw [if_neg (by simp)] at hm
    have e : strings.TrimPrefix ('.' :: strconv.FormatUint n) ".".toList =
        strconv.FormatUint n := TrimPrefix_append ".".toList _
    rw [e] at hm
    have := (ParseUint_eq_some _ _ hm).2.2.1
    rw [decimalValue_FormatUint] at this
    exact this.symm
  unfold NewVersion at h
  rw [matchVersionRegex_String] at h
  by_cases hfin : (optTagged '+' (optTagged '-'
      ((if v.pre = [] then [] else '-' :: v.pre) ++
        (if v.metadata = [] then [] else '+' :: v.metadata))).2).2 = []
  · rw [if_pos hfin] at h
    have hp := optTagged_extras v.pre v.metadata hpre hfin
    generalize (if v.pre = [] then [] else '-' :: v.pre) ++
      (if v.metadata = [] then [] else '+' :: v.metadata) = T at h hp
    dsimp only at h
    split at h
    · rename_i major minor patch h1 h2 h3
      split_ifs at h
      simp only [Option.some.injEq] at h
      subst h
      have e1 := (ParseUint_eq_some _ _ h1).2.2.1
      rw [decimalValue_FormatUint] at e1
      exact ⟨e1.symm, hseg _ _ h2, hseg _ _ h3, hp⟩
    · cases h
  · rw [if_neg hfin] at h
    cases h

theorem Compare_congr (a b a' b' : Version)
    (ha : a'.major = a.major ∧ a'.minor = a.minor ∧ a'.patch = a.patch ∧ a'.pre = a.pre)
    (hb : b'.major = b.major ∧ b'.minor = b.minor ∧ b'.patch = b.patch ∧ b'.pre = b.pre) :
    a'.Compare b' = a.Compare b := by
  unfold Version.Compare
  rw [ha.1, ha.2.1, ha.2.2.1, ha.2.2.2, hb.1, hb.2.1, hb.2.2.1, hb.2.2.2]

/-! ## Claims on the composed resolution -/

theorem Tags_versions (tie : Nat → Nat → Bool) (registryTags : List GoString) :
    ∃ vs : List Version, Client.Tags tie registryTags = vs.map Version.String ∧
      vs.Pairwise (fun a b => 0 ≤ a.Compare b) ∧
      ∀ v ∈ vs, VersionOK v ∧ ∀ c ∈ v.pre, isIdentChar c = true ∨ c = '.' := by
  refine ⟨sort.Sort tie (fun a b => Version.LessThan b a) (Client.tagVersions registryTags),
    rfl, ?_, ?_⟩
  · exact Sort_sorted VersionOK Version.Compare IsCmp_Compare tie _ (tagVersions_ok registryTags)
  · intro v hv
    have hv' := (Sort_perm _ _ _).subset hv
    refine ⟨tagVersions_ok registryTags v hv', ?_⟩
    unfold Client.tagVersions at hv'
    obtain ⟨tag, _, h⟩ := List.mem_filterMap.1 hv'
    exact (StrictNewVersion_extras _ v h).1

theorem newest_of_earliest (tie : Nat → Nat → Bool) (registryTags : List GoString)
    (c : Constraints) (t : GoString)
    (h : EarliestSatisfying c (Client.Tags tie registryTags) t) :
    IsNewestMatch c (Client.Tags tie registryTags) t := by
  obtain ⟨vs, htags, hsorted, hok⟩ := Tags_versions tie registryTags
  obtain ⟨front, back, e, hsat, hfront⟩ := h
  refine ⟨by rw [e]; simp, hsat, ?_⟩
  rw [htags] at e
  obtain ⟨l1, l2, rfl, e1, e2⟩ := List.map_eq_append_iff.1 e
  obtain ⟨vt, vb, rfl, et, eb⟩ := List.map_eq_cons_iff.1 e2
  rw [List.pairwise_append] at hsorted
  obtain ⟨_, hs2, _⟩ := hsorted
  rw [List.pairwise_cons] at hs2
  have hvt := hok vt (by simp)
  intro u hu hsu wt wu hwt hwu
  rw [htags, List.map_append, e1, List.map_cons, et, eb] at hu
  have ft := NewVersion_String_fields vt wt hvt.2 (by rw [et]; exact hwt)
  rcases List.mem_append.1 hu with hu | hu
  · exact absurd hsu (hfront u hu)
  · rcases List.mem_cons.1 hu with hu | hu
    · rw [hu, hwt] at hwu
      simp only [Option.some.injEq] at hwu
      rw [← hwu, Compare_congr vt vt wt wt ft ft]
      have := IsCmp_Compare.1 vt vt hvt.1 hvt.1
      omega
    · rw [← eb] at hu
      obtain ⟨vu, hvu, eu⟩ := List.mem_map.1 hu
      have hvu' := hok vu (by simp [hvu])
      have fu := NewVersion_String_fields vu wu hvu'.2 (by rw [eu]; exact hwu)
      rw [Compare_congr vt vu wt wu ft fu]
      exact hs2.1 vu hvu

/-- C29: when the tags are the output of `Client.Tags`, whatever `sort.Sort` does with ties,
and the request equals no tag and stands for the constraint `c` (`*` for the empty request),
the tag `GetTagMatchingVersionOrConstraint` returns is a newest match: the version of no
listed tag that satisfies `c` ranks above its version.  With the fallback version `>0.0.0-0`,
the tag `getOciURI` puts in the path is such a newest match of the tags `Client.Tags` lists
for the reference. -/
theorem C29_newest_match (tie : Nat → Nat → Bool) (registryTags : List GoString) :
    (∀ request c t, request ∉ Client.Tags tie registryTags →
      requestConstraint request = some c →
      GetTagMatchingVersionOrConstraint (Client.Tags tie registryTags) request = (t, none) →
      IsNewestMatch c (Client.Tags tie registryTags) t) ∧
    (∀ (hostOK : GoString → Bool)
      (listTags : oras.Reference → List GoString × Option GoString)
      (ref : GoString) (u u' : url.URL),
      Client.TagsOfReference hostOK tie listTags
        (strings.TrimPrefix ref (OCIScheme ++ "://".toList)) =
          (Client.Tags tie registryTags, none) →
      WASMDownloader.getOciURI hostOK tie listTags ref ">0.0.0-0".toList u = (some u', none) →
      ∃ t, u'.Path = (strings.Split u.Path ":".toList).headD [] ++ ':' :: t ∧
        IsNewestMatch fallbackConstraint (Client.Tags tie registryTags) t) := by
  have part1 : ∀ request c t, request ∉ Client.Tags tie registryTags →
      requestConstraint request = some c →
      GetTagMatchingVersionOrConstraint (Client.Tags tie registryTags) request = (t, none) →
      IsNewestMatch c (Client.Tags tie registryTags) t := by
    intro request c t hno hc h
    unfold GetTagMatchingVersionOrConstraint at h
    unfold requestConstraint at hc
    by_cases hne : request = []
    · rw [if_pos hne] at h hc
      simp only [Option.some.injEq] at hc
      rw [hc] at h
      exact newest_of_earliest tie registryTags c t ((matchOrFail_eq_ok_iff c _ request t).1 h)
    · rw [if_neg hne] at hc
      rw [if_neg hne, (exactMatch_eq_none_iff request _).2 hno, hc] at h
      exact newest_of_earliest tie registryTags c t ((matchOrFail_eq_ok_iff c _ request t).1 h)
  refine ⟨part1, ?_⟩
  intro hostOK listTags ref u u' htags hg
  obtain ⟨t, hres, hu'⟩ := getOciURI_ok hostOK tie listTags ref ">0.0.0-0".toList u u' hg
  refine ⟨t, by rw [hu'], ?_⟩
  rcases resolveTag_cases hostOK tie listTags ref ">0.0.0-0".toList t hres with ⟨hv, _⟩ |
    ⟨_, registryTags', htags', hget⟩
  · exact absurd hv (by decide)
  · rw [htags] at htags'
    simp only [Prod.mk.injEq, and_true] at htags'
    rw [← htags'] at hget
    have hno : ">0.0.0-0".toList ∉ Client.Tags tie registryTags := by
      intro hm
      have := Tags_chars tie registryTags _ hm '>' (by decide)
      rcases this with h | h | h
      · exact absurd h (by decide)
      · exact absurd h (by decide)
      · exact absurd h (by decide)
    exact part1 ">0.0.0-0".toList fallbackConstraint t hno
      (by unfold fallbackConstraint requestConstraint; simp) hget

/-- Witness of C29: the registry tags `1.0.0, latest, 1.2.0` are listed as `1.2.0, 1.0.0`;
the empty request and the fallback version both resolve to `1.2.0`. -/
theorem C29_newest_match_witness :
    Client.Tags sort.keepOrder ["1.0.0".toList, "latest".toList, "1.2.0".toList] =
        ["1.2.0".toList, "1.0.0".toList] ∧
      IsNewestMatch wildcardConstraint
        (Client.Tags sort.keepOrder ["1.0.0".toList, "latest".toList, "1.2.0".toList])
        "1.2.0".toList ∧
      IsNewestMatch fallbackConstraint
        (Client.Tags sort.keepOrder ["1.0.0".toList, "latest".toList, "1.2.0".toList])
        "1.2.0".toList ∧
      ∃ t, (⟨"oci".toList, "h".toList, "/org/r:1.2.0".toList⟩ : url.URL).Path =
          (strings.Split parsedExample.Path ":".toList).headD [] ++ ':' :: t ∧
        IsNewestMatch fallbackConstraint
          (Client.Tags sort.keepOrder ["1.0.0".toList, "latest".toList, "1.2.0".toList]) t :=
  ⟨by decide,
    (C29_newest_match sort.keepOrder ["1.0.0".toList, "latest".toList, "1.2.0".toList]).1 []
      wildcardConstraint "1.2.0".toList (by decide) rfl (by decide),
    (C29_newest_match sort.keepOrder ["1.0.0".toList, "latest".toList, "1.2.0".toList]).1
      ">0.0.0-0".toList fallbackConstraint "1.2.0".toList (by decide) (by decide) (by decide),
    (C29_newest_match sort.keepOrder ["1.0.0".toList, "latest".toList, "1.2.0".toList]).2
      (fun _ => true) threeTags "oci://h/org/r".toList parsedExample
      ⟨"oci".toList, "h".toList, "/org/r:1.2.0".toList⟩ (by decide) (by decide)⟩

/-! ## Helper lemmas: a parsed reference and its text -/

theorem replaceGo_same (old : GoString) (hold : old ≠ []) (s : GoString) (skip : Nat) :
    strings.replaceGo old old skip s = s.drop skip := by
  induction s generalizing skip with
  | nil => simp [strings.replaceGo]
  | cons c cs ih =>
    cases skip with
    | succ k => simp [strings.replaceGo, ih]
    | zero =>
      unfold strings.replaceGo
      by_cases hp : old.isPrefixOf (c :: cs) = true
      · rw [if_pos hp, ih]
        obtain ⟨t, ht⟩ := List.isPrefixOf_iff_prefix.1 hp
        cases old with
        | nil => exact absurd rfl hold
        | cons o os =>
          simp only [List.cons_append, List.cons.injEq] at ht
          rw [← ht.2]
          simp [ht.1]
      · rw [if_neg hp, ih]
        simp

theorem ReplaceAll_same (s old : GoString) (h : old ≠ []) : strings.ReplaceAll s old old = s := by
  unfold strings.ReplaceAll
  rw [if_neg h, replaceGo_same old h]
  simp

theorem ReplaceAll_plus_none (tag : GoString) (h : '+' ∉ tag) :
    strings.ReplaceAll tag ['+'] ['_'] = tag := by
  rw [ReplaceAll_single]
  conv_rhs => rw [← List.map_id tag]
  apply List.map_congr_left
  intro c hc
  have : c ≠ '+' := fun e => h (e ▸ hc)
  simp [this]

theorem parseReferenceRaw_stable (p tag : GoString) (hcolon : ':' ∉ tag) (hplus : '+' ∉ tag) :
    parseReferenceRaw (p ++ ':' :: tag) = p ++ ':' :: tag := by
  by_cases hs : '/' ∈ tag
  · exact parseReferenceRaw_host_port p tag hcolon hs
  · by_cases hne : tag = []
    · have hsplit := Split_last ':' tag hcolon p
      have e1 : ":".toList = [':'] := rfl
      unfold parseReferenceRaw
      subst hne
      dsimp only
      rw [e1, hsplit.2]
      simp
    · rw [parseReferenceRaw_tagged p tag hne hcolon hs, ReplaceAll_plus_none tag hplus,
        ReplaceAll_same _ _ hne]

theorem parseReferenceRaw_no_colon (s : GoString) (h : ':' ∉ s) : parseReferenceRaw s = s := by
  have e1 : ":".toList = [':'] := rfl
  have hsplit : strings.Split s [':'] = [s] := by
    unfold strings.Split
    rw [if_neg (by simp)]
    exact splitGo_no_sep ':' s h _
  unfold parseReferenceRaw
  simp [e1, hsplit]

theorem exists_last_cut (s : GoString) (c : Char) (h : c ∈ s) :
    ∃ p t, s = p ++ c :: t ∧ c ∉ t := by
  have hne : strings.LastIndexByte s c ≠ -1 := fun e => (LastIndexByte_eq_neg_one s c).1 e h
  obtain ⟨_, hspec⟩ := LastIndexByte_spec s c hne
  refine ⟨_, _, hspec, ?_⟩
  intro hm
  -- a later occurrence would be found by the search
  have key : ∀ (s : GoString), strings.LastIndexByte s c ≠ -1 →
      c ∉ s.drop ((strings.LastIndexByte s c).toNat + 1) := by
    intro s
    induction s with
    | nil => intro h0; exact absurd rfl h0
    | cons x xs ih =>
      intro h0
      unfold strings.LastIndexByte at h0 ⊢
      by_cases h1 : strings.LastIndexByte xs c ≠ -1
      · rw [if_pos h1]
        have i0 := (LastIndexByte_spec xs c h1).1
        have e : (strings.LastIndexByte xs c + 1).toNat =
            (strings.LastIndexByte xs c).toNat + 1 := by omega
        rw [e, List.drop_succ_cons]
        exact ih h1
      · rw [if_neg h1] at h0 ⊢
        have hx : c ∉ xs := (LastIndexByte_eq_neg_one xs c).1 (not_not.1 h1)
        by_cases h2 : x = c
        · rw [if_pos h2]
          simpa using hx
        · rw [if_neg h2] at h0
          exact absurd rfl h0
  exact key s hne hm

theorem exists_first_cut (s : GoString) (c : Char) (h : c ∈ s) :
    ∃ p t, s = p ++ c :: t ∧ c ∉ p := by
  induction s with
  | nil => cases h
  | cons x xs ih =>
    by_cases hx : x = c
    · exact ⟨[], xs, by rw [hx]; rfl, by simp⟩
    · have hm : c ∈ xs := by
        rcases List.mem_cons.1 h with e | e
        · exact absurd e.symm hx
        · exact e
      obtain ⟨p, t, e, hp⟩ := ih hm
      refine ⟨x :: p, t, by rw [e]; rfl, ?_⟩
      intro hc
      rcases List.mem_cons.1 hc with e' | e'
      · exact hx e'.symm
      · exact hp e'

theorem SplitN_two_inv (sep : Char) (s a b : GoString)
    (h : strings.SplitN s [sep] 2 = [a, b]) : sep ∉ a ∧ s = a ++ sep :: b := by
  by_cases hm : sep ∈ s
  · obtain ⟨p, t, e, hp⟩ := exists_first_cut s sep hm
    rw [e, SplitN_two_cut sep p t hp] at h
    simp only [List.cons.injEq, and_true] at h
    rw [← h.1, ← h.2]
    exact ⟨hp, e⟩
  · rw [SplitN_two_none sep s hm] at h
    simp at h

theorem Index_single_spec (s : GoString) (c : Char) :
    (strings.Index s [c] = -1 ∧ c ∉ s) ∨
      (∃ p t, s = p ++ c :: t ∧ c ∉ p ∧ strings.Index s [c] = p.length) := by
  by_cases hm : c ∈ s
  · obtain ⟨p, t, e, hp⟩ := exists_first_cut s c hm
    right
    exact ⟨p, t, e, hp, by rw [e]; exact Index_single_cut c p t hp⟩
  · exact Or.inl ⟨Index_single_not_mem c s hm, hm⟩

theorem not_mem_step (c : Char) (cs : GoString) (hc1 : c ≠ ':') (hc2 : c ≠ '@')
    (h : ':' ∉ cs ∧ '@' ∉ cs) : ':' ∉ c :: cs ∧ '@' ∉ c :: cs := by
  constructor <;> intro hm <;> rcases List.mem_cons.1 hm with e | e
  · exact hc1 e.symm
  · exact h.1 e
  · exact hc2 e.symm
  · exact h.2 e

theorem repoScan_chars (s : GoString) (st : oras.RepoState) (h : oras.repoScan st s = true) :
    ':' ∉ s ∧ '@' ∉ s := by
  induction s generalizing st with
  | nil => simp
  | cons c cs ih =>
    unfold oras.repoScan at h
    by_cases ha : oras.isRepoAlnum c = true
    · rw [if_pos ha] at h
      exact not_mem_step c cs (by rintro rfl; revert ha; decide)
        (by rintro rfl; revert ha; decide) (ih _ h)
    · rw [if_neg ha] at h
      cases st <;> dsimp only at h
      · cases h
      · by_cases h1 : (c == '/') = true
        · rw [if_pos h1] at h
          have e : c = '/' := by simpa using h1
          exact not_mem_step c cs (by rw [e]; decide) (by rw [e]; decide) (ih _ h)
        · rw [if_neg h1] at h
          by_cases h2 : (c == '.') = true
          · rw [if_pos h2] at h
            have e : c = '.' := by simpa using h2
            exact not_mem_step c cs (by rw [e]; decide) (by rw [e]; decide) (ih _ h)
          · rw [if_neg h2] at h
            by_cases h3 : (c == '_') = true
            · rw [if_pos h3] at h
              have e : c = '_' := by simpa using h3
              exact not_mem_step c cs (by rw [e]; decide) (by rw [e]; decide) (ih _ h)
            · rw [if_neg h3] at h
              by_cases h4 : (c == '-') = true
              · rw [if_pos h4] at h
                have e : c = '-' := by simpa using h4
                exact not_mem_step c cs (by rw [e]; decide) (by rw [e]; decide) (ih _ h)
              · rw [if_neg h4] at h
                cases h
      · cases h
      · by_cases h3 : (c == '_') = true
        · rw [if_pos h3] at h
          have e : c = '_' := by simpa using h3
          exact not_mem_step c cs (by rw [e]; decide) (by rw [e]; decide) (ih _ h)
        · rw [if_neg h3] at h
          cases h
      · cases h
      · by_cases h4 : (c == '-') = true
        · rw [if_pos h4] at h
          have e : c = '-' := by simpa using h4
          exact not_mem_step c cs (by rw [e]; decide) (by rw [e]; decide) (ih _ h)
        · rw [if_neg h4] at h
          cases h

theorem repositoryOK_ne_nil (s : GoString) (h : oras.repositoryOK s = true) : s ≠ [] := by
  rintro rfl
  revert h
  decide

theorem isWord_plain (c : Char) (h : (oras.isWord c || c == '.' || c == '-') = true) :
    c ≠ ':' ∧ c ≠ '/' ∧ c ≠ '+' ∧ c ≠ '@' := by
  refine ⟨?_, ?_, ?_, ?_⟩ <;> (rintro rfl; revert h; decide)

theorem tagOK_chars (v : GoString) (h : oras.tagOK v = true) :
    v ≠ [] ∧ ':' ∉ v ∧ '/' ∉ v ∧ '+' ∉ v ∧ '@' ∉ v := by
  cases v with
  | nil => exact absurd h (by decide)
  | cons c cs =>
    unfold oras.tagOK at h
    dsimp only at h
    simp only [Bool.and_eq_true, List.all_eq_true] at h
    have hall : ∀ d ∈ c :: cs, (oras.isWord d || d == '.' || d == '-') = true := by
      intro d hd
      rcases List.mem_cons.1 hd with rfl | hd
      · simp [h.1.1]
      · exact h.2 d hd
    refine ⟨by simp, ?_, ?_, ?_, ?_⟩ <;> intro hm
    · exact (isWord_plain _ (hall _ hm)).1 rfl
    · exact (isWord_plain _ (hall _ hm)).2.1 rfl
    · exact (isWord_plain _ (hall _ hm)).2.2.1 rfl
    · exact (isWord_plain _ (hall _ hm)).2.2.2 rfl

theorem isLowerHex_plain (c : Char) (h : oras.isLowerHex c = true) :
    c ≠ ':' ∧ c ≠ '+' := by
  refine ⟨?_, ?_⟩ <;> (rintro rfl; revert h; decide)

theorem digestOK_cut (v : GoString) (h : oras.digestOK v = true) :
    ∃ alg hex, v = alg ++ ':' :: hex ∧ ':' ∉ hex ∧ '+' ∉ hex := by
  have e3 : ":".toList = [':'] := rfl
  unfold oras.digestOK at h
  dsimp only at h
  rw [e3] at h
  rcases Index_single_spec v ':' with ⟨hi, _⟩ | ⟨p, t, e, hp, hi⟩
  · rw [hi, if_pos (Or.inl (by decide))] at h
    cases h
  · rw [hi] at h
    split_ifs at h with h0
    have hdrop : v.drop (p.length + 1) = t := by
      rw [e, ← List.drop_drop, List.drop_left]
      rfl
    simp only [Int.toNat_ofNat, hdrop] at h
    cases hl : oras.digestHexLength (List.take p.length v) with
    | none => rw [hl] at h; cases h
    | some n =>
      rw [hl] at h
      simp only [Bool.and_eq_true, List.all_eq_true] at h
      refine ⟨p, t, e, ?_, ?_⟩ <;> intro hm
      · exact (isLowerHex_plain _ (h.2 _ hm)).1 rfl
      · exact (isLowerHex_plain _ (h.2 _ hm)).2 rfl

theorem splitReference_registry (raw : GoString) (r : oras.Reference)
    (h : oras.splitReference raw = some r) : '/' ∉ r.Registry := by
  have e1 : "/".toList = ['/'] := rfl
  unfold oras.splitReference at h
  rw [e1] at h
  rcases hl : strings.SplitN raw ['/'] 2 with _ | ⟨a, _ | ⟨b, _ | ⟨c, l⟩⟩⟩
  · rw [hl] at h; cases h
  · rw [hl] at h; cases h
  · rw [hl] at h
    have ha := (SplitN_two_inv '/' raw a b hl).1
    dsimp only at h
    split_ifs at h <;> (cases h; exact ha)
  · rw [hl] at h; cases h

theorem splitReference_bare (host repo : GoString) (hhost : '/' ∉ host)
    (hcolon : ':' ∉ repo) (hat : '@' ∉ repo) :
    oras.splitReference (host ++ '/' :: repo) = some ⟨host, repo, []⟩ := by
  have e1 : "/".toList = ['/'] := rfl
  have e2 : "@".toList = ['@'] := rfl
  have e3 : ":".toList = [':'] := rfl
  unfold oras.splitReference
  rw [e1, e2, e3, SplitN_two_cut '/' host _ hhost]
  dsimp only
  rw [Index_single_not_mem '@' _ hat, Index_single_not_mem ':' _ hcolon]
  simp

theorem splitReference_digest (host repo v : GoString) (hhost : '/' ∉ host)
    (hcolon : ':' ∉ repo) (hat : '@' ∉ repo) :
    oras.splitReference (host ++ '/' :: (repo ++ '@' :: v)) = some ⟨host, repo, v⟩ := by
  have e1 : "/".toList = ['/'] := rfl
  have e2 : "@".toList = ['@'] := rfl
  have e3 : ":".toList = [':'] := rfl
  unfold oras.splitReference
  rw [e1, e2, e3, SplitN_two_cut '/' host _ hhost]
  dsimp only
  rw [Index_single_cut '@' repo v hat]
  have hne : ((repo.length : Int)) ≠ -1 := by omega
  have hd : (repo ++ '@' :: v).drop (repo.length + 1) = v := by
    rw [← List.drop_drop, List.drop_left]
    rfl
  simp only [ne_eq, hne, not_false_eq_true, if_true, Int.toNat_ofNat, List.take_left, hd,
    Index_single_not_mem ':' repo hcolon, not_true_eq_false, if_false]

theorem parseReferenceRaw_bare (host repo : GoString) (hcolon : ':' ∉ repo) :
    parseReferenceRaw (host ++ '/' :: repo) = host ++ '/' :: repo := by
  by_cases hm : ':' ∈ host
  · obtain ⟨p, t, e, ht⟩ := exists_last_cut host ':' hm
    have e' : host ++ '/' :: repo = p ++ ':' :: (t ++ '/' :: repo) := by
      rw [e]; simp
    rw [e']
    apply parseReferenceRaw_host_port
    · intro hc
      rcases List.mem_append.1 hc with hc | hc
      · exact ht hc
      · rcases List.mem_cons.1 hc with hc | hc
        · exact absurd hc (by decide)
        · exact hcolon hc
    · simp
  · apply parseReferenceRaw_no_colon
    intro hc
    rcases List.mem_append.1 hc with hc | hc
    · exact hm hc
    · rcases List.mem_cons.1 hc with hc | hc
      · exact absurd hc (by decide)
      · exact hcolon hc

/-- The text of a parsed reference parses to the same reference. -/
theorem parseReference_String (hostOK : GoString → Bool) (raw : GoString) (r : oras.Reference)
    (h : parseReference hostOK raw = (r, none)) :
    parseReference hostOK (oras.Reference.String r) = (r, none) := by
  unfold parseReference oras.ParseReference at h
  cases hs : oras.splitReference (parseReferenceRaw raw) with
  | none => rw [hs] at h; cases h
  | some res =>
    rw [hs] at h
    dsimp only at h
    cases hv : oras.Validate hostOK res with
    | some err => rw [hv] at h; cases h
    | none =>
      rw [hv] at h
      dsimp only at h
      have hres : res = r := congrArg Prod.fst h
      subst hres
      have hreg := splitReference_registry _ _ hs
      have hv' := hv
      unfold oras.Validate at hv
      split_ifs at hv with h1 h2 h3
      have hrepo : oras.repositoryOK res.Repository = true := by simpa using h2
      have href : oras.referenceOK res.Reference = true := by simpa using h3
      have hchars := repoScan_chars _ _ hrepo
      have hne := repositoryOK_ne_nil _ hrepo
      have key : parseReferenceRaw (oras.Reference.String res) = oras.Reference.String res ∧
          oras.splitReference (oras.Reference.String res) = some res := by
        obtain ⟨reg, repo, ref⟩ := res
        dsimp only at hreg hchars hne href ⊢
        have e1 : "/".toList = ['/'] := rfl
        have e2 : "@".toList = ['@'] := rfl
        have e3 : ":".toList = [':'] := rfl
        unfold oras.Reference.String
        dsimp only
        rw [if_neg hne, e1, e2, e3]
        by_cases hr : ref = []
        · subst hr
          rw [if_pos rfl]
          have e : reg ++ ['/'] ++ repo = reg ++ '/' :: repo := by simp
          rw [e]
          exact ⟨parseReferenceRaw_bare reg repo hchars.1,
            splitReference_bare reg repo hreg hchars.1 hchars.2⟩
        · rw [if_neg hr]
          by_cases hd : oras.digestOK ref = true
          · rw [if_pos hd]
            obtain ⟨alg, hex, e, hc, hp⟩ := digestOK_cut ref hd
            have ea : reg ++ ['/'] ++ repo ++ ['@'] ++ ref = reg ++ '/' :: (repo ++ '@' :: ref) := by
              simp
            refine ⟨?_, by rw [ea]; exact splitReference_digest reg repo ref hreg hchars.1 hchars.2⟩
            have eb : reg ++ ['/'] ++ repo ++ ['@'] ++ ref =
                (reg ++ '/' :: (repo ++ '@' :: alg)) ++ ':' :: hex := by
              rw [e]; simp
            rw [eb]
            exact parseReferenceRaw_stable _ hex hc hp
          · rw [if_neg hd]
            have ht : oras.tagOK ref = true := by
              unfold oras.referenceOK at href
              simp only [Bool.or_eq_true, decide_eq_true_eq] at href
              rcases href with (href | href) | href
              · exact absurd href hr
              · exact absurd href hd
              · exact href
            obtain ⟨_, t1, t2, t3, t4⟩ := tagOK_chars ref ht
            have ea : reg ++ ['/'] ++ repo ++ [':'] ++ ref = reg ++ '/' :: (repo ++ ':' :: ref) := by
              simp
            refine ⟨?_, by rw [ea]; exact splitReference_tagged reg repo ref hreg hchars.1 hchars.2 t4⟩
            have eb : reg ++ ['/'] ++ repo ++ [':'] ++ ref =
                (reg ++ '/' :: repo) ++ ':' :: ref := by
              simp
            rw [eb]
            exact parseReferenceRaw_stable _ ref t1 t3
      unfold parseReference oras.ParseReference
      rw [key.1, key.2]
      dsimp only
      rw [hv']

/-! ## Claims on the push of the registry client -/

theorem exists_map_some {α : Type} (l : List (Option α)) (h : ∀ m ∈ l, m ≠ none) :
    ∃ ms : List α, l = ms.map some := by
  induction l with
  | nil => exact ⟨[], rfl⟩
  | cons x xs ih =>
    obtain ⟨ms, e⟩ := ih (fun m hm => h m (List.mem_cons_of_mem _ hm))
    cases x with
    | none => exact absurd rfl (h none (List.mem_cons_self _ _))
    | some a => exact ⟨a :: ms, by rw [e]; rfl⟩

theorem generateOCIAnnotations_some (meta : Metadata) (test : Bool) (now : GoString)
    (h : ∀ m ∈ meta.Maintainers, m ≠ none) :
    ∃ a, generateOCIAnnotations meta test now = some a := by
  obtain ⟨ms, e⟩ := exists_map_some _ h
  have hc : ∃ a, generateChartOCIAnnotations meta test now = some a := by
    unfold generateChartOCIAnnotations
    dsimp only
    rw [e, maintainerText_map_some]
    split_ifs <;> exact ⟨_, rfl⟩
  obtain ⟨a, ha⟩ := hc
  unfold generateOCIAnnotations
  rw [ha]
  exact ⟨_, rfl⟩

theorem maintainerText_nil_entry (l : List (Option Maintainer)) (h : none ∈ l) :
    maintainerText l = none := by
  induction l with
  | nil => cases h
  | cons x xs ih =>
    cases x with
    | none => rfl
    | some m =>
      have hx : none ∈ xs := by
        rcases List.mem_cons.1 h with e | e
        · cases e
        · exact e
      unfold maintainerText
      rw [ih hx]

theorem generateOCIAnnotations_nil_entry (meta : Metadata) (test : Bool) (now : GoString)
    (h : none ∈ meta.Maintainers) : generateOCIAnnotations meta test now = none := by
  have hlen : 0 < meta.Maintainers.length := List.length_pos_of_mem h
  unfold generateOCIAnnotations generateChartOCIAnnotations
  dsimp only
  rw [if_pos hlen, maintainerText_nil_entry _ h]

/-- Without a nil maintainer `Client.Push` does not panic on its own: when the library's
copy does not panic, `Client.Push` returns. -/
theorem Push_returns (t : Transport) (data : Bytes) (meta : Metadata) (ref : GoString)
    (test : Bool) (hmaint : ∀ m ∈ meta.Maintainers, m ≠ none)
    (hcopy : ∀ store r, t.copy store r ≠ CopyOutcome.panics) :
    Client.Push t data meta ref test ≠ none := by
  obtain ⟨a, ha⟩ := generateOCIAnnotations_some meta test t.now hmaint
  unfold Client.Push
  rcases hp : parseReference t.hostOK ref with ⟨parsedRef, _ | err⟩
  swap
  · simp
  dsimp only
  rw [ha]
  dsimp only
  cases hr : t.resolver with
  | some err => simp
  | none =>
    dsimp only
    have hc := hcopy
      ((content.Store.Add t.digest
          (content.Store.Add t.digest content.NewMemory WASMLayerMediaType data).2
          WASMMetadataMediaType (t.marshal meta)).2.StoreManifest
        (oras.Reference.String parsedRef)
        (content.GenerateManifest t.digest t.encode
          (content.Store.Add t.digest
            (content.Store.Add t.digest content.NewMemory WASMLayerMediaType data).2
            WASMMetadataMediaType (t.marshal meta)).1 a
          [(content.Store.Add t.digest content.NewMemory WASMLayerMediaType data).1]).2
        (content.GenerateManifest t.digest t.encode
          (content.Store.Add t.digest
            (content.Store.Add t.digest content.NewMemory WASMLayerMediaType data).2
            WASMMetadataMediaType (t.marshal meta)).1 a
          [(content.Store.Add t.digest content.NewMemory WASMLayerMediaType data).1]).1)
      (oras.Reference.String parsedRef)
    revert hc
    generalize t.copy _ _ = outcome
    intro hc
    cases outcome with
    | panics => exact absurd rfl hc
    | fails message => simp
    | done => simp

/-- C22 fails in the code: for a metadata record that holds a nil maintainer, whatever the
payload and the registry, and for every reference `parseReference` accepts, `Client.Push`
does not return: `generateOCIAnnotations` dereferences the nil maintainer and the call
panics, before anything is copied.  There is no reference to pull and no error. -/
theorem C22_nil_maintainer_push_panics (t : Transport) (data : Bytes) (meta : Metadata)
    (ref : GoString) (test : Bool) (href : (parseReference t.hostOK ref).2 = none)
    (hnil : none ∈ meta.Maintainers) :
    Client.Push t data meta ref test = none := by
  have hp : parseReference t.hostOK ref = ((parseReference t.hostOK ref).1, none) := by
    rw [← href]
  unfold Client.Push
  rw [hp]
  dsimp only
  rw [generateOCIAnnotations_nil_entry meta test t.now hnil]

/-- Witness of C22: the record whose only maintainer is nil, pushed with the payload `7 8`
under `h/r:1.0.0` over a transport whose copy never fails. -/
theorem C22_nil_maintainer_push_panics_witness :
    (parseReference toyTransport.hostOK "h/r:1.0.0".toList).2 = none ∧
      none ∈ nilMaintainerMetadata.Maintainers ∧
      Client.Push toyTransport [7, 8] nilMaintainerMetadata "h/r:1.0.0".toList false = none :=
  ⟨by decide, by decide,
    C22_nil_maintainer_push_panics toyTransport [7, 8] nilMaintainerMetadata
      "h/r:1.0.0".toList false (by decide) (by decide)⟩

end ProxyWasmOci
